import Mathlib

/-! Minitalk: a shallow embedding of the signal protocol.

The two programs of the repository (the sender `client.c` and the receiver
`server.c`, with their `bonus/` variants) are embedded as Lean functions.

* Bytes (`unsigned char`, `char` buffers) are natural numbers below 256; the
  truncation of `c << 1` to `unsigned char` is an explicit `% 256`.
* `pid_t` and `int` values are integers; `size_t` counters are natural numbers
  incremented modulo `2 ^ 64`.
* A C string is the list of its bytes; reading at the end of the list reads
  the terminating NUL.
* Calls to the outside world (`kill`, `write`, `sigaction`, the console
  helpers) are recorded, in program order, in a list of `Effect`s.
* The static variables of the signal handlers are fields of an explicit state
  that the handler receives and returns.
-/

namespace Minitalk

/-- The two notifications of the protocol. The handlers are installed for
these two signals only, so no other value of `sig` reaches them. -/
inductive Signal
| SIGUSR1
| SIGUSR2
deriving DecidableEq

/-- The fields of `t_stats` (bonus.h). -/
structure t_stats where
  chars_received : Nat
  bits_received : Nat
  client_pid : Int
  verbose_mode : Int
deriving DecidableEq

/-- One call to the outside world, with the arguments it was given. -/
inductive Effect
| putchar (c : Nat)
| kill (pid : Int) (sig : Signal)
| write (fd : Nat) (buf : String) (count : Nat)
| sigaction (sig : Signal)
| putstr (str : String)
| putnbr (n : Int)
| print_stats (stats : t_stats)
| print_colored (msg : String) (color : String)
deriving DecidableEq

/-- The bytes passed to `ft_putchar` / `ft_putchar_bonus`, in order. -/
def console : List Effect → List Nat
| [] => []
| Effect.putchar c :: rest => c :: console rest
| _ :: rest => console rest

/-- The notifications sent with `kill`, in order. -/
def kills : List Effect → List (Int × Signal)
| [] => []
| Effect.kill pid sig :: rest => (pid, sig) :: kills rest
| _ :: rest => kills rest

/-- The statistics records handed to `ft_print_stats`, in order. -/
def stats_reports : List Effect → List t_stats
| [] => []
| Effect.print_stats st :: rest => st :: stats_reports rest
| _ :: rest => stats_reports rest

/-- The bit value the receivers read from a signal: `SIGUSR2` is 1, `SIGUSR1`
is 0. -/
def signal_bit (sig : Signal) : Nat :=
  if sig = Signal.SIGUSR2 then 1 else 0

/-- Increment of a `size_t` counter. -/
def size_t_incr (n : Nat) : Nat := (n + 1) % 2 ^ 64

/-! ## bonus.h constants -/

def COLOR_GREEN : String := "\x1b[1;32m"
def COLOR_BLUE : String := "\x1b[1;34m"
def COLOR_YELLOW : String := "\x1b[1;33m"
def COLOR_RED : String := "\x1b[1;31m"
def COLOR_RESET : String := "\x1b[0m"
def ARROW_MARK : String := "→ "

/-! ## utils.c and bonus/utils_bonus2.c -/

/-- The value of an `int` expression, taken modulo `2 ^ 32` (two's complement). -/
def wrap_int (x : Int) : Int := (x + 2147483648) % 4294967296 - 2147483648

/-- Function `ft_isspace(c)` of utils.c: space, `\t`, `\n`, `\v`, `\f`, `\r`. -/
def ft_isspace (c : Nat) : Bool :=
  c = 32 || c = 9 || c = 10 || c = 11 || c = 12 || c = 13

/-- The loop `while (ft_isspace(*str)) str++;` of `ft_atoi`. -/
def ft_atoi_spaces : List Nat → List Nat
| [] => []
| c :: rest => if ft_isspace c then ft_atoi_spaces rest else c :: rest

/-- The loop `while (*str == ' ' || (*str >= 9 && *str <= 13)) str++;` of
`ft_atoi_bonus`. -/
def ft_atoi_bonus_spaces : List Nat → List Nat
| [] => []
| c :: rest =>
  if c = 32 ∨ (9 ≤ c ∧ c ≤ 13) then ft_atoi_bonus_spaces rest else c :: rest

/-- The sign test of `ft_atoi` and `ft_atoi_bonus`: at most one `-` (45) or
`+` (43) is consumed. -/
def ft_atoi_sign : List Nat → Int × List Nat
| [] => (1, [])
| c :: rest =>
  if c = 45 ∨ c = 43 then (if c = 45 then -1 else 1, rest) else (1, c :: rest)

/-- The loop `while (*str >= '0' && *str <= '9')` of `ft_atoi` and
`ft_atoi_bonus`, entered with `result`. -/
def ft_atoi_digits (result : Int) : List Nat → Int
| [] => result
| c :: rest =>
  if 48 ≤ c ∧ c ≤ 57 then
    ft_atoi_digits (wrap_int (result * 10 + ((c : Int) - 48))) rest
  else result

/-- Function `ft_atoi(str)` of utils.c. -/
def ft_atoi (str : List Nat) : Int :=
  let r := ft_atoi_sign (ft_atoi_spaces str)
  wrap_int (r.1 * ft_atoi_digits 0 r.2)

/-- Function `ft_atoi_bonus(str)` of bonus/utils_bonus2.c. -/
def ft_atoi_bonus (str : List Nat) : Int :=
  let r := ft_atoi_sign (ft_atoi_bonus_spaces str)
  wrap_int (r.1 * ft_atoi_digits 0 r.2)

/-! ## server.c -/

namespace Server

/-- The static variables of `ft_receive` and the global `g_data`. The `int`
counter `i` is only ever incremented by one and reset at 8, so it is a natural
number here. -/
structure State where
  i : Nat
  c : Nat
  client_pid : Int
  g_data : Nat
deriving DecidableEq

/-- The values at program start. -/
def init : State := { i := 0, c := 0, client_pid := 0, g_data := 0 }

/-- Function `ft_handle_char(c, &client_pid, &i)`. -/
def ft_handle_char (s : State) : State × List Effect :=
  let s1 := { s with i := 0 }
  if s1.c = 0 then
    ({ s1 with client_pid := 0 },
      [Effect.putchar 10, Effect.kill s1.client_pid Signal.SIGUSR2])
  else
    (s1, [Effect.putchar s1.c])

/-- Function `ft_receive(sig, info, context)` with `si_pid = info->si_pid`. The value
returned by `kill` is discarded by the source. -/
def ft_receive (s : State) (sig : Signal) (si_pid : Int) : State × List Effect :=
  let s1 := if s.client_pid = 0 then { s with client_pid := si_pid } else s
  let s2 := { s1 with c := (s1.c <<< 1) % 256 }
  let s3 := if sig = Signal.SIGUSR2 then { s2 with c := s2.c ||| 1 } else s2
  let s4 := { s3 with i := s3.i + 1 }
  let r := if s4.i = 8 then ft_handle_char s4 else (s4, [])
  if r.1.client_pid ≠ 0 then
    ({ r.1 with g_data := 1 }, r.2 ++ [Effect.kill r.1.client_pid Signal.SIGUSR1])
  else
    r

/-- The handler run on a sequence of arriving signals, each with the pid of
its sender; the effects are concatenated in order. -/
def run (s : State) : List (Signal × Int) → State × List Effect
| [] => (s, [])
| (sig, si_pid) :: rest =>
  let r := ft_receive s sig si_pid
  let r2 := run r.1 rest
  (r2.1, r.2 ++ r2.2)

end Server

/-! ## client.c -/

namespace Client

/-- The loop of `ft_send_char`, entered with `bit = n - 1`: the arguments of
the successive `ft_send_bit` calls. -/
def ft_send_char_loop (pid : Int) (c : Nat) : Nat → List (Int × Nat)
| 0 => []
| bit + 1 => (pid, (c >>> bit) &&& 1) :: ft_send_char_loop pid c bit

/-- Function `ft_send_char(pid, c)`: the `ft_send_bit` calls it makes, in order. -/
def ft_send_char (pid : Int) (c : Nat) : List (Int × Nat) :=
  ft_send_char_loop pid c 8

/-- The signal `ft_send_bit` passes to `kill` for `bit_val`. -/
def bit_signal (bit_val : Nat) : Signal :=
  if bit_val ≠ 0 then Signal.SIGUSR2 else Signal.SIGUSR1

/-- Function `ft_send_message(server_pid, message)`: the `ft_send_bit` calls it makes
before it parks in `while (1) pause()`. -/
def ft_send_message (server_pid : Int) : List Nat → List (Int × Nat)
| [] => ft_send_char server_pid 0
| b :: rest =>
  if b ≠ 0 then ft_send_char server_pid b ++ ft_send_message server_pid rest
  else ft_send_char server_pid 0

/-- The signals that arrive at the receiver, each with the sender pid `q` in
`si_pid`, when a process with pid `q` makes these `ft_send_bit` calls. -/
def arrivals (q : Int) (calls : List (Int × Nat)) : List (Signal × Int) :=
  calls.map (fun x => (bit_signal x.2, q))

/-- What the main flow of the sender executes next. -/
inductive Pc
| clear
| send
| wait
| park
| done (status : Nat)
deriving DecidableEq

/-- The sender process: where its main flow stands (`pc`), the `ft_send_bit`
calls that `ft_send_message` still has to make (the head is the call in
progress), the global `g_signal_received`, the effects so far, and a history
counter `acks` of the `SIGUSR1` deliveries handled so far. -/
structure Proc where
  pc : Pc
  calls : List (Int × Nat)
  g_signal_received : Nat
  trace : List Effect
  acks : Nat
deriving DecidableEq

/-- Function `ft_sig_handler(sig)`. -/
def ft_sig_handler (p : Proc) (sig : Signal) : Proc :=
  if sig = Signal.SIGUSR2 then
    { p with
      trace := p.trace ++ [Effect.write 1 "Message received by server\n" 26],
      pc := Pc.done 0 }
  else
    { p with g_signal_received := 1, acks := p.acks + 1 }

/-- One statement of `ft_send_bit(pid, bit_val)`: the assignment
`g_signal_received = 0` (at `clear`), the `kill` with its test (at `send`,
where `kill_ret` is what `kill` returns), or one evaluation of the condition
of `while (!g_signal_received) pause();` (at `wait`): with the flag at 0 the
process stays suspended in `pause`, otherwise the call returns. -/
def ft_send_bit (p : Proc) (pid : Int) (bit_val : Nat) (kill_ret : Int) : Proc :=
  match p.pc with
  | Pc.clear => { p with g_signal_received := 0, pc := Pc.send }
  | Pc.send =>
    let p1 := { p with trace := p.trace ++ [Effect.kill pid (bit_signal bit_val)] }
    if kill_ret = -1 then
      { p1 with
        trace := p1.trace ++ [Effect.write 2 "Error: Failed to send signal\n" 28],
        pc := Pc.done 1 }
    else
      { p1 with pc := Pc.wait }
  | Pc.wait =>
    if p.g_signal_received = 0 then p
    else { p with calls := p.calls.tail, pc := Pc.clear }
  | Pc.park => p
  | Pc.done _ => p

/-- What happens to the sender: its main flow executes its next statement, or
a signal is delivered and the handler runs. -/
inductive Event
| run (kill_ret : Int)
| signal (sig : Signal)
deriving DecidableEq

/-- One event of the sender process. A process that has exited does nothing;
when no `ft_send_bit` call is left the main flow parks in `while (1) pause()`. -/
def step (p : Proc) (e : Event) : Proc :=
  match p.pc with
  | Pc.done _ => p
  | _ =>
    match e with
    | Event.signal sig => ft_sig_handler p sig
    | Event.run kill_ret =>
      match p.calls with
      | [] => { p with pc := Pc.park }
      | (pid, bit_val) :: _ => ft_send_bit p pid bit_val kill_ret

/-- The sender process after a sequence of events. -/
def exec (p : Proc) : List Event → Proc
| [] => p
| e :: rest => exec (step p e) rest

/-- The events of one `ft_send_bit` call whose delivery succeeds and is
acknowledged: the flag is cleared, `kill` returns 0, the acknowledgment
`SIGUSR1` arrives, and the wait loop sees the flag. -/
def acked_call : List Event :=
  [Event.run 0, Event.run 0, Event.signal Signal.SIGUSR1, Event.run 0]

/-- The events of `n` successive `ft_send_bit` calls, each delivered and
acknowledged. -/
def acked_schedule : Nat → List Event
| 0 => []
| n + 1 => acked_call ++ acked_schedule n

/-- Function `main(argc, argv)` of client.c up to the call of `ft_send_message`; `sa1`
and `sa2` are what the two `sigaction` calls return. The result is the sender
process either after `return (1)` (`pc = done 1`) or at its first
`ft_send_bit` call. -/
def main (argc : Int) (argv : List (List Nat)) (sa1 sa2 : Int) : Proc :=
  if argc ≠ 3 then
    { pc := Pc.done 1, calls := [], g_signal_received := 0,
      trace := [Effect.write 2 "Usage: ./client [server_pid] [message]\n" 38],
      acks := 0 }
  else
    let server_pid := ft_atoi (argv.getD 1 [])
    if server_pid ≤ 0 then
      { pc := Pc.done 1, calls := [], g_signal_received := 0,
        trace := [Effect.write 2 "Error: Invalid PID\n" 18], acks := 0 }
    else if sa1 = -1 then
      { pc := Pc.done 1, calls := [], g_signal_received := 0,
        trace := [Effect.sigaction Signal.SIGUSR1,
          Effect.write 2 "Error: sigaction failed\n" 23],
        acks := 0 }
    else if sa2 = -1 then
      { pc := Pc.done 1, calls := [], g_signal_received := 0,
        trace := [Effect.sigaction Signal.SIGUSR1, Effect.sigaction Signal.SIGUSR2,
          Effect.write 2 "Error: sigaction failed\n" 23],
        acks := 0 }
    else
      { pc := Pc.clear, calls := ft_send_message server_pid (argv.getD 2 []),
        g_signal_received := 0,
        trace := [Effect.sigaction Signal.SIGUSR1, Effect.sigaction Signal.SIGUSR2],
        acks := 0 }

end Client

/-! ## bonus/server_bonus.c -/

namespace ServerBonus

/-- The static variables of `ft_receive_bonus` and the global `g_data`. -/
structure State where
  i : Nat
  c : Nat
  stats : t_stats
  g_data : Nat
deriving DecidableEq

/-- The values at program start (`stats = {0, 0, 0, 0}`). -/
def init : State :=
  { i := 0, c := 0, g_data := 0,
    stats := { chars_received := 0, bits_received := 0, client_pid := 0,
               verbose_mode := 0 } }

/-- Function `ft_handle_char_bonus(c, &stats.client_pid, &i, &stats)`. -/
def ft_handle_char_bonus (s : State) : State × List Effect :=
  let s1 := { s with i := 0 }
  if s1.c = 0 then
    ({ s1 with
       stats := { s1.stats with
                  chars_received := 0, bits_received := 0, client_pid := 0 } },
      [Effect.putchar 10, Effect.print_stats s1.stats,
       Effect.kill s1.stats.client_pid Signal.SIGUSR2])
  else
    ({ s1 with
       stats := { s1.stats with
                  chars_received := size_t_incr s1.stats.chars_received } },
      [Effect.putchar s1.c])

/-- Function `ft_handle_new_client(&stats, client_pid)`. -/
def ft_handle_new_client (s : State) (client_pid : Int) : State × List Effect :=
  let s1 := { s with stats := { s.stats with client_pid := client_pid } }
  (s1, [Effect.putstr COLOR_YELLOW,
        Effect.putstr (ARROW_MARK ++ " Nouvelle connexion client (PID: "),
        Effect.putnbr s1.stats.client_pid,
        Effect.putstr ")\n",
        Effect.putstr COLOR_RESET])

/-- Function `ft_receive_bonus(sig, info, context)` with `si_pid = info->si_pid`. -/
def ft_receive_bonus (s : State) (sig : Signal) (si_pid : Int) :
    State × List Effect :=
  let r1 := if s.stats.client_pid = 0 then ft_handle_new_client s si_pid else (s, [])
  let s2 := { r1.1 with c := (r1.1.c <<< 1) % 256 }
  let s3 := if sig = Signal.SIGUSR2 then { s2 with c := s2.c ||| 1 } else s2
  let s4 := { s3 with
              stats := { s3.stats with
                         bits_received := size_t_incr s3.stats.bits_received } }
  let s5 := { s4 with i := s4.i + 1 }
  let r := if s5.i = 8 then ft_handle_char_bonus s5 else (s5, [])
  if r.1.stats.client_pid ≠ 0 then
    ({ r.1 with g_data := 1 },
      r1.2 ++ r.2 ++ [Effect.kill r.1.stats.client_pid Signal.SIGUSR1])
  else
    (r.1, r1.2 ++ r.2)

/-- The handler run on a sequence of arriving signals, each with the pid of
its sender; the effects are concatenated in order. -/
def run (s : State) : List (Signal × Int) → State × List Effect
| [] => (s, [])
| (sig, si_pid) :: rest =>
  let r := ft_receive_bonus s sig si_pid
  let r2 := run r.1 rest
  (r2.1, r.2 ++ r2.2)

/-- The part of the bonus receiver state that the mandatory receiver has too. -/
def to_server (s : State) : Server.State :=
  { i := s.i, c := s.c, client_pid := s.stats.client_pid, g_data := s.g_data }

end ServerBonus

/-! ## bonus/client_bonus.c and bonus/client_bonus_utils.c -/

namespace ClientBonus

/-- The loop of `ft_send_char_bonus`, entered with `bit = n - 1`. -/
def ft_send_char_bonus_loop (pid : Int) (c : Nat) : Nat → List (Int × Nat)
| 0 => []
| bit + 1 => (pid, (c >>> bit) &&& 1) :: ft_send_char_bonus_loop pid c bit

/-- Function `ft_send_char_bonus(pid, c, verbose)`: the `ft_send_bit_bonus` calls it
makes, in order (each carries the same `verbose`). -/
def ft_send_char_bonus (pid : Int) (c : Nat) : List (Int × Nat) :=
  ft_send_char_bonus_loop pid c 8

/-- The signal `ft_send_bit_signal` passes to `kill` for `bit_val`. -/
def bit_signal (bit_val : Nat) : Signal :=
  if bit_val = 1 then Signal.SIGUSR2 else Signal.SIGUSR1

/-- Function `ft_send_message_bonus(pid, message, verbose)`: the `ft_send_bit_bonus`
calls it makes before it parks in `while (1) pause()`. -/
def ft_send_message_bonus (pid : Int) : List Nat → List (Int × Nat)
| [] => ft_send_char_bonus pid 0
| b :: rest =>
  if b ≠ 0 then ft_send_char_bonus pid b ++ ft_send_message_bonus pid rest
  else ft_send_char_bonus pid 0

/-- The signals that arrive at the receiver, each with the sender pid `q` in
`si_pid`, when a process with pid `q` makes these `ft_send_bit_bonus` calls. -/
def arrivals (q : Int) (calls : List (Int × Nat)) : List (Signal × Int) :=
  calls.map (fun x => (bit_signal x.2, q))

/-- What the main flow of the bonus sender executes next. -/
inductive Pc
| clear
| report
| send
| wait
| park
| done (status : Nat)
deriving DecidableEq

/-- The bonus sender process (see `Client.Proc`), with its `verbose` flag. -/
structure Proc where
  pc : Pc
  calls : List (Int × Nat)
  verbose : Int
  g_signal_received : Nat
  trace : List Effect
  acks : Nat
deriving DecidableEq

/-- Function `ft_sig_handler_bonus(sig)`. -/
def ft_sig_handler_bonus (p : Proc) (sig : Signal) : Proc :=
  if sig = Signal.SIGUSR2 then
    { p with
      trace := p.trace ++ [Effect.print_colored "Message reçu avec succès!" COLOR_GREEN],
      pc := Pc.done 0 }
  else
    { p with g_signal_received := 1, acks := p.acks + 1 }

/-- Function `ft_send_bit_verbose(pid, bit_val)`. -/
def ft_send_bit_verbose (bit_val : Nat) : List Effect :=
  [Effect.putstr COLOR_BLUE, Effect.putstr "Envoi bit: ",
   Effect.putchar (48 + bit_val), Effect.putchar 10, Effect.putstr COLOR_RESET]

/-- Function `ft_send_bit_signal(pid, bit_val)`, where `kill_ret` is what `kill`
returns. -/
def ft_send_bit_signal (p : Proc) (pid : Int) (bit_val : Nat) (kill_ret : Int) : Proc :=
  let p1 := { p with trace := p.trace ++ [Effect.kill pid (bit_signal bit_val)] }
  if kill_ret = -1 then
    { p1 with
      trace := p1.trace ++
        [Effect.print_colored "Erreur: Échec de l\x27envoi du signal" COLOR_RED],
      pc := Pc.done 1 }
  else
    { p1 with pc := Pc.wait }

/-- One statement of `ft_send_bit_bonus(pid, bit_val, verbose)`: the
assignment `g_signal_received = 0` with the test of `verbose` (at `clear`),
the call of `ft_send_bit_verbose` (at `report`), the call of
`ft_send_bit_signal` (at `send`), or one evaluation of the condition of
`while (!g_signal_received) pause();` (at `wait`). -/
def ft_send_bit_bonus (p : Proc) (pid : Int) (bit_val : Nat) (kill_ret : Int) : Proc :=
  match p.pc with
  | Pc.clear =>
    { p with g_signal_received := 0,
             pc := if p.verbose ≠ 0 then Pc.report else Pc.send }
  | Pc.report => { p with trace := p.trace ++ ft_send_bit_verbose bit_val, pc := Pc.send }
  | Pc.send => ft_send_bit_signal p pid bit_val kill_ret
  | Pc.wait =>
    if p.g_signal_received = 0 then p
    else { p with calls := p.calls.tail, pc := Pc.clear }
  | Pc.park => p
  | Pc.done _ => p

/-- One event of the bonus sender process (see `Client.step`). -/
def step (p : Proc) (e : Client.Event) : Proc :=
  match p.pc with
  | Pc.done _ => p
  | _ =>
    match e with
    | Client.Event.signal sig => ft_sig_handler_bonus p sig
    | Client.Event.run kill_ret =>
      match p.calls with
      | [] => { p with pc := Pc.park }
      | (pid, bit_val) :: _ => ft_send_bit_bonus p pid bit_val kill_ret

/-- The bonus sender process after a sequence of events. -/
def exec (p : Proc) : List Client.Event → Proc
| [] => p
| e :: rest => exec (step p e) rest

/-- The events of one `ft_send_bit_bonus` call whose delivery succeeds and is
acknowledged (see `Client.acked_call`); with `verbose` set there is one more
step of the main flow, the call of `ft_send_bit_verbose`. -/
def acked_call (verbose : Int) : List Client.Event :=
  if verbose ≠ 0 then
    [Client.Event.run 0, Client.Event.run 0, Client.Event.run 0,
     Client.Event.signal Signal.SIGUSR1, Client.Event.run 0]
  else
    [Client.Event.run 0, Client.Event.run 0,
     Client.Event.signal Signal.SIGUSR1, Client.Event.run 0]

/-- The events of `n` successive `ft_send_bit_bonus` calls, each delivered and
acknowledged. -/
def acked_schedule (verbose : Int) : Nat → List Client.Event
| 0 => []
| n + 1 => acked_call verbose ++ acked_schedule verbose n

/-- Function `ft_check_args(argc, argv, &verbose, &pid)`: the returned value, the
`verbose` and `pid` it stored, and what it printed. -/
def ft_check_args (argc : Int) (argv : List (List Nat)) :
    Nat × Int × Int × List Effect :=
  if argc < 3 ∨ argc > 4 then
    (0, 0, 0, [Effect.print_colored "Usage: ./client_bonus [pid] [msg] [-v]" COLOR_RED])
  else
    let verbose : Int :=
      if argc = 4 ∧ (argv.getD 3 []).getD 0 0 = 45 ∧ (argv.getD 3 []).getD 1 0 = 118
      then 1 else 0
    let pid := ft_atoi_bonus (argv.getD 1 [])
    if pid ≤ 0 then
      (0, verbose, pid, [Effect.print_colored "Erreur: PID invalide" COLOR_RED])
    else
      (1, verbose, pid, [])

/-- Function `ft_init_signals()`: the returned value and its effects; `sa1` and `sa2`
are what the two `sigaction` calls return. -/
def ft_init_signals (sa1 sa2 : Int) : Nat × List Effect :=
  if sa1 = -1 then
    (0, [Effect.sigaction Signal.SIGUSR1,
         Effect.print_colored "Erreur: Configuration signaux échouée" COLOR_RED])
  else if sa2 = -1 then
    (0, [Effect.sigaction Signal.SIGUSR1, Effect.sigaction Signal.SIGUSR2,
         Effect.print_colored "Erreur: Configuration signaux échouée" COLOR_RED])
  else
    (1, [Effect.sigaction Signal.SIGUSR1, Effect.sigaction Signal.SIGUSR2])

/-- Function `main(argc, argv)` of bonus/client_bonus.c up to the first
`ft_send_bit_bonus` call of `ft_send_message_bonus` (see `Client.main`). -/
def main (argc : Int) (argv : List (List Nat)) (sa1 sa2 : Int) : Proc :=
  let a := ft_check_args argc argv
  if a.1 = 0 then
    { pc := Pc.done 1, calls := [], verbose := a.2.1, g_signal_received := 0,
      trace := a.2.2.2, acks := 0 }
  else
    let r := ft_init_signals sa1 sa2
    if r.1 = 0 then
      { pc := Pc.done 1, calls := [], verbose := a.2.1, g_signal_received := 0,
        trace := a.2.2.2 ++ r.2, acks := 0 }
    else
      { pc := Pc.clear, calls := ft_send_message_bonus a.2.2.1 (argv.getD 2 []),
        verbose := a.2.1, g_signal_received := 0,
        trace := a.2.2.2 ++ r.2 ++
          [Effect.print_colored "Début de la transmission..." COLOR_BLUE],
        acks := 0 }

end ClientBonus

/-! ## Schedules with a failed delivery -/

namespace Client
/-- The events of one `ft_send_bit` call whose delivery fails: the flag is
cleared and `kill` returns -1. -/
def failed_call : List Event := [Event.run 0, Event.run (-1)]
end Client
namespace ClientBonus
/-- The events of one `ft_send_bit_bonus` call whose delivery fails (see
`Client.failed_call`); with `verbose` set the bit is reported first. -/
def failed_call (verbose : Int) : List Client.Event :=
  if verbose ≠ 0 then [Client.Event.run 0, Client.Event.run 0, Client.Event.run (-1)]
  else [Client.Event.run 0, Client.Event.run (-1)]
end ClientBonus

/-! ## Reading a byte off the wire -/

/-- The byte spelled by a sequence of arriving signals, most significant bit
first, as the receivers accumulate it from an accumulator at 0. -/
def signals_byte (evs : List (Signal × Int)) : Nat :=
  evs.foldl (fun c e => (2 * c + signal_bit e.1) % 256) 0

/-! ## Decimal numerals -/

/-- The number that a run of decimal digit characters denotes. -/
def decimal_value (d : List Nat) : Nat :=
  d.foldl (fun v c => v * 10 + (c - 48)) 0

/-! ## bonus/utils_bonus.c -/

/-- Function `ft_putnbr_bonus(n)`: the bytes it writes with `ft_putchar_bonus`,
in order. After the sign, `nb` is `-n` for a negative `n` and `n` otherwise;
the values handed to the recursive calls are below `nb`, so they fit in `int`
whenever `n` does. -/
def ft_putnbr_bonus (n : Int) : List Nat :=
  if n < 0 then
    if 10 ≤ -n then 45 :: (ft_putnbr_bonus (-n / 10) ++ ft_putnbr_bonus (-n % 10))
    else [45, (-n + 48).toNat]
  else if 10 ≤ n then ft_putnbr_bonus (n / 10) ++ ft_putnbr_bonus (n % 10)
  else [(n + 48).toNat]
termination_by n.natAbs
decreasing_by
  all_goals simp_wf
  all_goals omega

/-- The decimal text of a positive number: the character codes of its decimal
digits, most significant first. -/
def decimal_text (n : Nat) : List Nat :=
  (Nat.digits 10 n).reverse.map (fun x => x + 48)

/-- The pids of the new-connection reports in a trace of the bonus receiver,
in order. A report is the output of `ft_handle_new_client`, the only place
where the receiver itself calls `ft_putnbr_bonus`; it is recognised by that
call. -/
def connection_reports : List Effect → List Int
| [] => []
| Effect.putnbr n :: rest => n :: connection_reports rest
| _ :: rest => connection_reports rest

/-! ## Comparing the two receivers -/

/-- The calls of a trace of the bonus receiver without its reports: the
`ft_putstr_bonus` and `ft_putnbr_bonus` calls of the new-connection report and
the `ft_print_stats` call of the statistics report are dropped, the
`ft_putchar_bonus` and `kill` calls are kept, in order. -/
def without_reports : List Effect → List Effect
| [] => []
| Effect.putstr _ :: rest => without_reports rest
| Effect.putnbr _ :: rest => without_reports rest
| Effect.print_stats _ :: rest => without_reports rest
| e :: rest => e :: without_reports rest

/-! ## The receivers with the values that `kill` returns

The handlers call `kill` as a statement and never read the value it returns.
To compare runs in which a delivery fails with runs in which it succeeds, the
handlers are embedded a second time with those values as inputs; each call is
recorded with the value it returned (`none` for the `void` console helpers). -/

namespace Server

/-- Function `ft_handle_char(c, &client_pid, &i)`, where `kill_ret` is what its `kill`
call returns. -/
def ft_handle_char_ret (s : State) (kill_ret : Int) : State × List (Effect × Option Int) :=
  let s1 := { s with i := 0 }
  if s1.c = 0 then
    ({ s1 with client_pid := 0 },
      [(Effect.putchar 10, none),
       (Effect.kill s1.client_pid Signal.SIGUSR2, some kill_ret)])
  else
    (s1, [(Effect.putchar s1.c, none)])

/-- Function `ft_receive(sig, info, context)`, where `kill_ret2` is what the `kill` call
of `ft_handle_char` returns and `kill_ret1` what the `kill` call of `ft_receive`
itself returns. -/
def ft_receive_ret (s : State) (sig : Signal) (si_pid : Int) (kill_ret2 kill_ret1 : Int) :
    State × List (Effect × Option Int) :=
  let s1 := if s.client_pid = 0 then { s with client_pid := si_pid } else s
  let s2 := { s1 with c := (s1.c <<< 1) % 256 }
  let s3 := if sig = Signal.SIGUSR2 then { s2 with c := s2.c ||| 1 } else s2
  let s4 := { s3 with i := s3.i + 1 }
  let r := if s4.i = 8 then ft_handle_char_ret s4 kill_ret2 else (s4, [])
  if r.1.client_pid ≠ 0 then
    ({ r.1 with g_data := 1 },
      r.2 ++ [(Effect.kill r.1.client_pid Signal.SIGUSR1, some kill_ret1)])
  else
    r

/-- The handler run on a sequence of arriving signals, each with the pid of
its sender and the two values its `kill` calls would return. -/
def run_ret (s : State) : List (Signal × Int × Int × Int) →
    State × List (Effect × Option Int)
| [] => (s, [])
| (sig, si_pid, kill_ret2, kill_ret1) :: rest =>
  let r := ft_receive_ret s sig si_pid kill_ret2 kill_ret1
  let r2 := run_ret r.1 rest
  (r2.1, r.2 ++ r2.2)

end Server

namespace ServerBonus

/-- Function `ft_handle_char_bonus(c, &stats.client_pid, &i, &stats)`, where `kill_ret`
is what its `kill` call returns. -/
def ft_handle_char_bonus_ret (s : State) (kill_ret : Int) :
    State × List (Effect × Option Int) :=
  let s1 := { s with i := 0 }
  if s1.c = 0 then
    ({ s1 with
       stats := { s1.stats with
                  chars_received := 0, bits_received := 0, client_pid := 0 } },
      [(Effect.putchar 10, none), (Effect.print_stats s1.stats, none),
       (Effect.kill s1.stats.client_pid Signal.SIGUSR2, some kill_ret)])
  else
    ({ s1 with
       stats := { s1.stats with
                  chars_received := size_t_incr s1.stats.chars_received } },
      [(Effect.putchar s1.c, none)])

/-- Function `ft_receive_bonus(sig, info, context)`, where `kill_ret2` is what the
`kill` call of `ft_handle_char_bonus` returns and `kill_ret1` what the `kill`
call of `ft_receive_bonus` itself returns. -/
def ft_receive_bonus_ret (s : State) (sig : Signal) (si_pid : Int)
    (kill_ret2 kill_ret1 : Int) : State × List (Effect × Option Int) :=
  let r1 := if s.stats.client_pid = 0 then ft_handle_new_client s si_pid else (s, [])
  let s2 := { r1.1 with c := (r1.1.c <<< 1) % 256 }
  let s3 := if sig = Signal.SIGUSR2 then { s2 with c := s2.c ||| 1 } else s2
  let s4 := { s3 with
              stats := { s3.stats with
                         bits_received := size_t_incr s3.stats.bits_received } }
  let s5 := { s4 with i := s4.i + 1 }
  let r := if s5.i = 8 then ft_handle_char_bonus_ret s5 kill_ret2 else (s5, [])
  if r.1.stats.client_pid ≠ 0 then
    ({ r.1 with g_data := 1 },
      r1.2.map (fun e => (e, none)) ++ r.2 ++
        [(Effect.kill r.1.stats.client_pid Signal.SIGUSR1, some kill_ret1)])
  else
    (r.1, r1.2.map (fun e => (e, none)) ++ r.2)

/-- The bonus handler run on a sequence of arriving signals (see
`Server.run_ret`). -/
def run_ret (s : State) : List (Signal × Int × Int × Int) →
    State × List (Effect × Option Int)
| [] => (s, [])
| (sig, si_pid, kill_ret2, kill_ret1) :: rest =>
  let r := ft_receive_bonus_ret s sig si_pid kill_ret2 kill_ret1
  let r2 := run_ret r.1 rest
  (r2.1, r.2 ++ r2.2)

end ServerBonus

/-! ## utils.c: printing a number -/

/-- Function `ft_putnbr(n)` of utils.c: the bytes it writes to descriptor 1, in
order, with `ft_putchar` or, for -2147483648, with one `write` of the first 11
bytes of the literal `-2147483648`. After `ft_handle_negative`, `nb` is
`n * -1` for a negative `n` and `n` otherwise (`nb` is a `long`, taken to be
wider than `int`). -/
def ft_putnbr (n : Int) : List Nat :=
  if n = -2147483648 then ("-2147483648".toList.map Char.toNat).take 11
  else if n < 0 then
    if 10 ≤ n * -1 then 45 :: (ft_putnbr (n * -1 / 10) ++ ft_putnbr (n * -1 % 10))
    else [45, (n * -1 + 48).toNat]
  else if 10 ≤ n then ft_putnbr (n / 10) ++ ft_putnbr (n % 10)
  else [(n + 48).toNat]
termination_by n.natAbs
decreasing_by
  all_goals simp_wf
  all_goals omega

/-- The canonical decimal representation of an integer, as character codes:
`-` (45) first for a negative number, then the decimal digits of the absolute
value, most significant first, without leading zeros; the single digit `0`
for zero. -/
def canonical_decimal (n : Int) : List Nat :=
  if n < 0 then 45 :: decimal_text n.natAbs
  else if n = 0 then [48]
  else decimal_text n.natAbs

/-! ## server.c: `main`, and the bytes of a `write` -/

namespace Server

/-- Function `main()` of server.c up to its loop `while (1)`; `pid` is what
`getpid` returns, `sa1` and `sa2` are what the two `sigaction` calls return
(the second call is made only when the first did not return -1). The result
is `some 1` after `return (1)` and `none` when the loop is entered, with the
calls made. -/
def main (pid sa1 sa2 : Int) : Option Nat × List Effect :=
  if sa1 = -1 then
    (some 1, [Effect.putnbr pid, Effect.write 1 "\n" 1, Effect.sigaction Signal.SIGUSR1,
              Effect.write 2 "Error: sigaction failed\n" 23])
  else if sa2 = -1 then
    (some 1, [Effect.putnbr pid, Effect.write 1 "\n" 1, Effect.sigaction Signal.SIGUSR1,
              Effect.sigaction Signal.SIGUSR2,
              Effect.write 2 "Error: sigaction failed\n" 23])
  else
    (none, [Effect.putnbr pid, Effect.write 1 "\n" 1, Effect.sigaction Signal.SIGUSR1,
            Effect.sigaction Signal.SIGUSR2])

end Server

/-- The bytes of a string literal of the programs (the literals passed to
`write` are ASCII: one byte per character), without the terminating NUL. -/
def literal_bytes (buf : String) : List Nat := buf.toList.map Char.toNat

/-- The bytes that the `write(fd, buf, count)` calls of a trace hand to the
descriptor `fd`, in order: the first `count` bytes of each literal `buf` (no
call of the programs has a `count` beyond the literal). -/
def written (fd : Nat) : List Effect → List Nat
| [] => []
| Effect.write fd2 buf count :: rest =>
  (if fd2 = fd then (literal_bytes buf).take count else []) ++ written fd rest
| _ :: rest => written fd rest

end Minitalk

/-! # Theorems -/

namespace Minitalk

/-! ## Byte arithmetic -/

theorem shl_byte (c : Nat) : (c <<< 1) % 256 = (2 * c) % 256 := by
  rw [Nat.shiftLeft_eq]; congr 1; omega

theorem bit_extract (c k : Nat) : (c >>> k) &&& 1 = c / 2 ^ k % 2 := by
  rw [Nat.shiftRight_eq_div_pow, Nat.and_one_is_mod]

theorem accum_one (c : Nat) : ((c <<< 1) % 256) ||| 1 = (2 * c + 1) % 256 := by
  have h1 : (c <<< 1) % 256 = 2 ^ 1 * (c % 128) := by rw [shl_byte]; omega
  rw [h1, ← Nat.mul_add_lt_is_or (by norm_num) (c % 128)]
  omega

theorem lor_one_byte (c : Nat) : (2 * c) % 256 ||| 1 = (2 * c + 1) % 256 := by
  rw [← shl_byte, accum_one]

theorem signal_bit_lt (sig : Signal) : signal_bit sig < 2 := by
  cases sig <;> simp [signal_bit]

/-! ## The bit stream of the sender -/

namespace Client

theorem ft_send_char_length (pid : Int) (c : Nat) : (ft_send_char pid c).length = 8 := rfl

theorem ft_send_char_bits (pid : Int) (c : Nat) :
    ft_send_char pid c =
      [(pid, (c >>> 7) &&& 1), (pid, (c >>> 6) &&& 1), (pid, (c >>> 5) &&& 1),
       (pid, (c >>> 4) &&& 1), (pid, (c >>> 3) &&& 1), (pid, (c >>> 2) &&& 1),
       (pid, (c >>> 1) &&& 1), (pid, (c >>> 0) &&& 1)] := rfl

theorem arrivals_append (q : Int) (xs ys : List (Int × Nat)) :
    arrivals q (xs ++ ys) = arrivals q xs ++ arrivals q ys := by
  simp [arrivals]

theorem arrivals_length (q : Int) (xs : List (Int × Nat)) :
    (arrivals q xs).length = xs.length := by
  simp [arrivals]

theorem arrivals_sender (q : Int) (xs : List (Int × Nat)) :
    ∀ e ∈ arrivals q xs, e.2 = q := by
  intro e he
  simp only [arrivals, List.mem_map] at he
  obtain ⟨x, _, rfl⟩ := he
  rfl

theorem ft_send_message_cons (pid : Int) (b : Nat) (rest : List Nat) (hb : b ≠ 0) :
    ft_send_message pid (b :: rest) = ft_send_char pid b ++ ft_send_message pid rest := by
  simp [ft_send_message, hb]

end Client

/-! ## The receiver, one bit at a time -/

namespace Server

/-- The accumulator after one call of `ft_receive`. -/
theorem ft_receive_c (s : State) (sig : Signal) (si_pid : Int) :
    (ft_receive s sig si_pid).1.c = (2 * s.c + signal_bit sig) % 256 := by
  cases sig <;>
    simp only [ft_receive, ft_handle_char, signal_bit] <;>
    split_ifs <;> simp_all [shl_byte, lor_one_byte]

/-- A bit that does not complete a byte, in a session of sender `q`. -/
theorem ft_receive_mid (s : State) (sig : Signal) (q : Int) (hq : q ≠ 0)
    (hcp : s.client_pid = 0 ∨ s.client_pid = q) (hi : s.i + 1 ≠ 8) :
    ft_receive s sig q =
      ({ i := s.i + 1, c := (2 * s.c + signal_bit sig) % 256, client_pid := q,
         g_data := 1 }, [Effect.kill q Signal.SIGUSR1]) := by
  rcases hcp with h | h <;> cases sig <;>
    simp [ft_receive, signal_bit, h, hq, hi, shl_byte, lor_one_byte]

/-- The bit that completes a non-zero byte, in a session of sender `q`. -/
theorem ft_receive_char (s : State) (sig : Signal) (q : Int) (hq : q ≠ 0)
    (hcp : s.client_pid = 0 ∨ s.client_pid = q) (hi : s.i + 1 = 8)
    (hc : (2 * s.c + signal_bit sig) % 256 ≠ 0) :
    ft_receive s sig q =
      ({ i := 0, c := (2 * s.c + signal_bit sig) % 256, client_pid := q,
         g_data := 1 },
       [Effect.putchar ((2 * s.c + signal_bit sig) % 256),
        Effect.kill q Signal.SIGUSR1]) := by
  rcases hcp with h | h <;> cases sig <;>
    simp_all [ft_receive, ft_handle_char, signal_bit, shl_byte, lor_one_byte]

/-- The bit that completes the terminator, in a session of sender `q`. -/
theorem ft_receive_end (s : State) (sig : Signal) (q : Int) (hq : q ≠ 0)
    (hcp : s.client_pid = 0 ∨ s.client_pid = q) (hi : s.i + 1 = 8)
    (hc : (2 * s.c + signal_bit sig) % 256 = 0) :
    ft_receive s sig q =
      ({ i := 0, c := 0, client_pid := 0, g_data := s.g_data },
       [Effect.putchar 10, Effect.kill q Signal.SIGUSR2]) := by
  rcases hcp with h | h <;> cases sig <;>
    simp_all [ft_receive, ft_handle_char, signal_bit, shl_byte, lor_one_byte]

theorem run_append (s : State) (xs ys : List (Signal × Int)) :
    run s (xs ++ ys) =
      ((run (run s xs).1 ys).1, (run s xs).2 ++ (run (run s xs).1 ys).2) := by
  induction xs generalizing s with
  | nil => simp [run]
  | cons e xs ih =>
    obtain ⟨sig, pid⟩ := e
    simp [run, ih, List.append_assoc]

/-- Bits of sender `q` that stop short of completing a byte: each one is
shifted into the accumulator and acknowledged with `SIGUSR1`. -/
theorem run_bits (q : Int) (hq : q ≠ 0) (evs : List (Signal × Int)) :
    ∀ s : State, (∀ e ∈ evs, e.2 = q) → (s.client_pid = 0 ∨ s.client_pid = q) →
      s.i + evs.length < 8 →
      run s evs =
        ({ i := s.i + evs.length,
           c := evs.foldl (fun c e => (2 * c + signal_bit e.1) % 256) s.c,
           client_pid := if evs = [] then s.client_pid else q,
           g_data := if evs = [] then s.g_data else 1 },
         List.replicate evs.length (Effect.kill q Signal.SIGUSR1)) := by
  induction evs with
  | nil => intro s _ _ _; simp [run]
  | cons e evs ih =>
    intro s hall hcp hlen
    obtain ⟨sig, pid⟩ := e
    have hpid : pid = q := hall (sig, pid) (by simp)
    subst hpid
    have hi : s.i + 1 ≠ 8 := by simp at hlen; omega
    simp only [run, ft_receive_mid s sig pid hq hcp hi]
    rw [ih _ (fun e he => hall e (by simp [he])) (by simp) (by simp at hlen ⊢; omega)]
    simp [List.replicate_succ]
    omega

/-- The eight signals of one `ft_send_char` call, read from any accumulator,
leave the byte itself in the accumulator. -/
theorem byte_fold (pid q : Int) (b c0 : Nat) (hb : b < 256) :
    (Client.arrivals q (Client.ft_send_char pid b)).foldl
      (fun c e => (2 * c + signal_bit e.1) % 256) c0 = b := by
  have hbit : ∀ k, signal_bit (Client.bit_signal ((b >>> k) &&& 1)) = b / 2 ^ k % 2 := by
    intro k
    rw [bit_extract]
    have := Nat.mod_two_eq_zero_or_one (b / 2 ^ k)
    rcases this with h | h <;> simp [h, signal_bit, Client.bit_signal]
  simp only [Client.arrivals, Client.ft_send_char, Client.ft_send_char_loop, List.map,
    List.foldl, hbit]
  norm_num
  omega

/-- Eight bits of sender `q` received from a byte boundary: the byte they
spell is written (a newline for the terminator), the first seven bits are
acknowledged with `SIGUSR1`, the eighth with `SIGUSR1`, or with `SIGUSR2` when
the byte is the terminator, which also closes the session. -/
theorem run_eight (q : Int) (hq : q ≠ 0) (evs : List (Signal × Int)) (s : State)
    (hall : ∀ e ∈ evs, e.2 = q) (hcp : s.client_pid = 0 ∨ s.client_pid = q)
    (hi : s.i = 0) (hlen : evs.length = 8) :
    run s evs =
      if evs.foldl (fun c e => (2 * c + signal_bit e.1) % 256) s.c = 0 then
        ({ i := 0, c := 0, client_pid := 0, g_data := 1 },
         List.replicate 7 (Effect.kill q Signal.SIGUSR1) ++
           [Effect.putchar 10, Effect.kill q Signal.SIGUSR2])
      else
        ({ i := 0, c := evs.foldl (fun c e => (2 * c + signal_bit e.1) % 256) s.c,
           client_pid := q, g_data := 1 },
         List.replicate 7 (Effect.kill q Signal.SIGUSR1) ++
           [Effect.putchar (evs.foldl (fun c e => (2 * c + signal_bit e.1) % 256) s.c),
            Effect.kill q Signal.SIGUSR1]) := by
  have hne : evs ≠ [] := by intro h; simp [h] at hlen
  obtain ⟨front, last, rfl⟩ : ∃ front last, evs = front ++ [last] :=
    ⟨evs.dropLast, evs.getLast hne, (List.dropLast_append_getLast hne).symm⟩
  have hfl : front.length = 7 := by simpa using hlen
  have hfne : front ≠ [] := by intro h; simp [h] at hfl
  obtain ⟨sig, pid⟩ := last
  have hpid : pid = q := hall (sig, pid) (by simp)
  subst hpid
  rw [run_append, run_bits pid hq front s (fun e he => hall e (by simp [he])) hcp
    (by omega)]
  simp only [run, List.foldl_append, List.foldl_cons, List.foldl_nil, hfne, if_false, hfl, hi]
  split_ifs with hz
  · rw [ft_receive_end _ sig pid hq (Or.inr rfl) (by simp) (by simpa using hz)]
    simp
  · rw [ft_receive_char _ sig pid hq (Or.inr rfl) (by simp) (by simpa using hz)]
    simp

/-- The eight signals of a non-zero byte `b`, received from a byte boundary. -/
theorem run_char (pid q : Int) (hq : q ≠ 0) (b : Nat) (hb0 : b ≠ 0) (hb : b < 256)
    (s : State) (hcp : s.client_pid = 0 ∨ s.client_pid = q) (hi : s.i = 0) :
    run s (Client.arrivals q (Client.ft_send_char pid b)) =
      ({ i := 0, c := b, client_pid := q, g_data := 1 },
       List.replicate 7 (Effect.kill q Signal.SIGUSR1) ++
         [Effect.putchar b, Effect.kill q Signal.SIGUSR1]) := by
  rw [run_eight q hq _ s (Client.arrivals_sender q _) hcp hi
    (by rw [Client.arrivals_length, Client.ft_send_char_length]),
    byte_fold pid q b s.c hb]
  simp [hb0]

/-- The eight signals of the terminator, received from a byte boundary. -/
theorem run_terminator (pid q : Int) (hq : q ≠ 0)
    (s : State) (hcp : s.client_pid = 0 ∨ s.client_pid = q) (hi : s.i = 0) :
    run s (Client.arrivals q (Client.ft_send_char pid 0)) =
      ({ i := 0, c := 0, client_pid := 0, g_data := 1 },
       List.replicate 7 (Effect.kill q Signal.SIGUSR1) ++
         [Effect.putchar 10, Effect.kill q Signal.SIGUSR2]) := by
  rw [run_eight q hq _ s (Client.arrivals_sender q _) hcp hi
    (by rw [Client.arrivals_length, Client.ft_send_char_length]),
    byte_fold pid q 0 s.c (by norm_num)]
  simp

theorem console_append (xs ys : List Effect) :
    console (xs ++ ys) = console xs ++ console ys := by
  induction xs with
  | nil => rfl
  | cons e xs ih => cases e <;> simp [console, ih]

theorem console_replicate_kill (n : Nat) (pid : Int) (sig : Signal) :
    console (List.replicate n (Effect.kill pid sig)) = [] := by
  induction n with
  | zero => rfl
  | succ n ih => simp [List.replicate_succ, console, ih]

/-- A whole message of sender `q` received from a byte boundary: the final
state and the bytes written to the console. -/
theorem run_message (pid q : Int) (hq : q ≠ 0) (m : List Nat) :
    ∀ s : State, (∀ b ∈ m, b ≠ 0) → (∀ b ∈ m, b < 256) →
      (s.client_pid = 0 ∨ s.client_pid = q) → s.i = 0 →
      (run s (Client.arrivals q (Client.ft_send_message pid m))).1 =
          { i := 0, c := 0, client_pid := 0, g_data := 1 } ∧
        console (run s (Client.arrivals q (Client.ft_send_message pid m))).2 =
          m ++ [10] := by
  induction m with
  | nil =>
    intro s _ _ hcp hi
    simp only [Client.ft_send_message]
    rw [run_terminator pid q hq s hcp hi]
    simp [console_append, console_replicate_kill, console]
  | cons b rest ih =>
    intro s h0 h256 hcp hi
    have hb0 : b ≠ 0 := h0 b (by simp)
    have hb : b < 256 := h256 b (by simp)
    rw [Client.ft_send_message_cons pid b rest hb0, Client.arrivals_append, run_append,
      run_char pid q hq b hb0 hb s hcp hi]
    have ih2 := ih { i := 0, c := b, client_pid := q, g_data := 1 }
      (fun x hx => h0 x (by simp [hx])) (fun x hx => h256 x (by simp [hx]))
      (Or.inr rfl) rfl
    simp only [ih2.1, console_append, ih2.2, console_replicate_kill, console]
    simp [ih2.2]

/-- The accumulator after any sequence of signals, whoever sent them. -/
theorem run_c (evs : List (Signal × Int)) :
    ∀ s : State,
      (run s evs).1.c = evs.foldl (fun c e => (2 * c + signal_bit e.1) % 256) s.c := by
  induction evs with
  | nil => intro s; rfl
  | cons e evs ih =>
    intro s
    obtain ⟨sig, pid⟩ := e
    simp only [run, List.foldl_cons, ih, ft_receive_c]

/-- While a message of sender `q` is being received from a byte boundary, the
session belongs to `q` after every bit but the last one. -/
theorem run_front_client_pid (pid q : Int) (hq : q ≠ 0) (m : List Nat) :
    ∀ (s : State) (front back : List (Signal × Int)),
      (∀ b ∈ m, b ≠ 0) → (∀ b ∈ m, b < 256) →
      (s.client_pid = 0 ∨ s.client_pid = q) → s.i = 0 →
      front ++ back = Client.arrivals q (Client.ft_send_message pid m) → back ≠ [] →
      (run s front).1.client_pid = if front = [] then s.client_pid else q := by
  have short : ∀ (s : State) (front back : List (Signal × Int)) (c : Nat),
      (s.client_pid = 0 ∨ s.client_pid = q) → s.i = 0 →
      front ++ back = Client.arrivals q (Client.ft_send_char pid c) → back ≠ [] →
      (run s front).1.client_pid = if front = [] then s.client_pid else q := by
    intro s front back c hcp hi hsplit hback
    have hlen : front.length + back.length = 8 := by
      have := congrArg List.length hsplit
      simpa [Client.arrivals_length, Client.ft_send_char_length] using this
    have hbl : 0 < back.length := List.length_pos.mpr hback
    have hall : ∀ e ∈ front, e.2 = q := fun e he =>
      Client.arrivals_sender q (Client.ft_send_char pid c) e
        (by rw [← hsplit]; exact List.mem_append_left _ he)
    rw [run_bits q hq front s hall hcp (by omega)]
  induction m with
  | nil =>
    intro s front back _ _ hcp hi hsplit hback
    exact short s front back 0 hcp hi (by simpa [Client.ft_send_message] using hsplit) hback
  | cons b rest ih =>
    intro s front back h0 h256 hcp hi hsplit hback
    have hb0 : b ≠ 0 := h0 b (by simp)
    have hb : b < 256 := h256 b (by simp)
    rw [Client.ft_send_message_cons pid b rest hb0, Client.arrivals_append] at hsplit
    rcases List.append_eq_append_iff.mp hsplit with ⟨a, ha, hb2⟩ | ⟨a, ha, hb2⟩
    · -- `front` ends inside the first byte, or exactly after it
      by_cases hanil : a = []
      · subst hanil
        simp only [List.append_nil] at ha
        have hne : front ≠ [] := by
          intro h
          have := congrArg List.length ha
          simp [h, Client.arrivals_length, Client.ft_send_char_length] at this
        rw [if_neg hne, ← ha, run_char pid q hq b hb0 hb s hcp hi]
      · exact short s front a b hcp hi ha.symm hanil
    · -- `front` covers the first byte
      have hne : front ≠ [] := by
        intro h
        have := congrArg List.length ha
        simp [h, Client.arrivals_length, Client.ft_send_char_length] at this
        omega
      rw [if_neg hne, ha, run_append, run_char pid q hq b hb0 hb s hcp hi]
      have := ih { i := 0, c := b, client_pid := q, g_data := 1 } a back
        (fun x hx => h0 x (by simp [hx])) (fun x hx => h256 x (by simp [hx]))
        (Or.inr rfl) rfl hb2.symm hback
      simp only [this]
      split_ifs <;> rfl

end Server

/-- C1: for every byte `b` the bit values that `ft_send_char` emits are
`(b >> 7) & 1, ..., (b >> 0) & 1` in that order, and `ft_receive`, shifting
them one by one into an accumulator that starts at 0, ends with exactly `b` in
the accumulator. -/
theorem byte_round_trip (pid q : Int) (b : Nat) (hb : b < 256) (s : Server.State)
    (hc : s.c = 0) :
    (Client.ft_send_char pid b).map Prod.snd =
        [(b >>> 7) &&& 1, (b >>> 6) &&& 1, (b >>> 5) &&& 1, (b >>> 4) &&& 1,
         (b >>> 3) &&& 1, (b >>> 2) &&& 1, (b >>> 1) &&& 1, (b >>> 0) &&& 1] ∧
      (Server.run s (Client.arrivals q (Client.ft_send_char pid b))).1.c = b := by
  refine ⟨rfl, ?_⟩
  rw [Server.run_c, hc, Server.byte_fold pid q b 0 hb]

/-- The round trip of the byte 0xA5, sent by `ft_send_char` and received from the
initial state. -/
theorem byte_round_trip_witness :
    (Client.ft_send_char 4242 165).map Prod.snd = [1, 0, 1, 0, 0, 1, 0, 1] ∧
      (Server.run Server.init (Client.arrivals 77 (Client.ft_send_char 4242 165))).1.c
        = 165 :=
  byte_round_trip 4242 77 165 (by decide) Server.init rfl

/-- C2: for every message `m` without a zero byte (the empty message and bytes
of 0x80 and above included), the bit stream of `ft_send_message`, received by
`ft_receive` from its initial state from a sender with a non-zero pid, writes
exactly the bytes of `m` followed by one newline, and leaves `client_pid = 0`
and the bit count at 0. -/
theorem message_round_trip (pid q : Int) (hq : q ≠ 0) (m : List Nat)
    (h0 : ∀ b ∈ m, b ≠ 0) (h256 : ∀ b ∈ m, b < 256) :
    console (Server.run Server.init
        (Client.arrivals q (Client.ft_send_message pid m))).2 = m ++ [10] ∧
      (Server.run Server.init
        (Client.arrivals q (Client.ft_send_message pid m))).1.client_pid = 0 ∧
      (Server.run Server.init
        (Client.arrivals q (Client.ft_send_message pid m))).1.i = 0 := by
  have h := Server.run_message pid q hq m Server.init h0 h256 (Or.inl rfl) rfl
  refine ⟨h.2, ?_, ?_⟩ <;> rw [h.1]

/-- The round trip of the two-byte message 0x48 0xE9. -/
theorem message_round_trip_witness :
    console (Server.run Server.init
        (Client.arrivals 77 (Client.ft_send_message 4242 [72, 233]))).2 = [72, 233] ++ [10] ∧
      (Server.run Server.init
        (Client.arrivals 77 (Client.ft_send_message 4242 [72, 233]))).1.client_pid = 0 ∧
      (Server.run Server.init
        (Client.arrivals 77 (Client.ft_send_message 4242 [72, 233]))).1.i = 0 :=
  message_round_trip 4242 77 (by decide) [72, 233] (by decide) (by decide)

namespace ClientBonus

theorem bit_signal_eq (c k : Nat) :
    bit_signal ((c >>> k) &&& 1) = Client.bit_signal ((c >>> k) &&& 1) := by
  rw [bit_extract]
  rcases Nat.mod_two_eq_zero_or_one (c / 2 ^ k) with h | h <;>
    simp [h, bit_signal, Client.bit_signal]

theorem ft_send_char_bonus_length (pid : Int) (c : Nat) :
    (ft_send_char_bonus pid c).length = 8 := rfl

/-- The bonus sender puts the same signals on the wire for a byte as the
mandatory sender. -/
theorem arrivals_char_eq (pid q : Int) (c : Nat) :
    arrivals q (ft_send_char_bonus pid c) = Client.arrivals q (Client.ft_send_char pid c) := by
  simp only [arrivals, Client.arrivals, ft_send_char_bonus, ft_send_char_bonus_loop,
    Client.ft_send_char, Client.ft_send_char_loop, List.map, bit_signal_eq]

theorem arrivals_bonus_append (q : Int) (xs ys : List (Int × Nat)) :
    arrivals q (xs ++ ys) = arrivals q xs ++ arrivals q ys := by
  simp [arrivals]

/-- The bonus sender puts the same signals on the wire for a message as the
mandatory sender. -/
theorem arrivals_message_eq (pid q : Int) (m : List Nat) :
    arrivals q (ft_send_message_bonus pid m) =
      Client.arrivals q (Client.ft_send_message pid m) := by
  induction m with
  | nil => simp only [ft_send_message_bonus, Client.ft_send_message, arrivals_char_eq]
  | cons b rest ih =>
    by_cases hb : b = 0
    · simp only [ft_send_message_bonus, Client.ft_send_message, hb, ne_eq, not_true_eq_false,
        if_false, arrivals_char_eq]
    · simp only [ft_send_message_bonus, Client.ft_send_message, hb, ne_eq, not_false_eq_true,
        if_true, arrivals_bonus_append, Client.arrivals_append, arrivals_char_eq, ih]

end ClientBonus

namespace ServerBonus

/-- A bit that does not complete a byte, in a session of sender `q`. -/
theorem ft_receive_bonus_mid (s : State) (sig : Signal) (q : Int) (hq : q ≠ 0)
    (hcp : s.stats.client_pid = 0 ∨ s.stats.client_pid = q) (hi : s.i + 1 ≠ 8) :
    ft_receive_bonus s sig q =
      ({ i := s.i + 1, c := (2 * s.c + signal_bit sig) % 256,
         stats := { s.stats with
                    bits_received := size_t_incr s.stats.bits_received,
                    client_pid := q },
         g_data := 1 },
       (if s.stats.client_pid = 0 then (ft_handle_new_client s q).2 else []) ++
         [Effect.kill q Signal.SIGUSR1]) := by
  rcases hcp with h | h <;> cases sig <;>
    simp [ft_receive_bonus, ft_handle_new_client, signal_bit, h, hq, hi, shl_byte,
      lor_one_byte]

/-- The bit that completes a non-zero byte, in a session of sender `q`. -/
theorem ft_receive_bonus_char (s : State) (sig : Signal) (q : Int) (hq : q ≠ 0)
    (hcp : s.stats.client_pid = q) (hi : s.i + 1 = 8)
    (hc : (2 * s.c + signal_bit sig) % 256 ≠ 0) :
    ft_receive_bonus s sig q =
      ({ i := 0, c := (2 * s.c + signal_bit sig) % 256,
         stats := { s.stats with
                    bits_received := size_t_incr s.stats.bits_received,
                    chars_received := size_t_incr s.stats.chars_received },
         g_data := 1 },
       [Effect.putchar ((2 * s.c + signal_bit sig) % 256),
        Effect.kill q Signal.SIGUSR1]) := by
  cases sig <;>
    simp_all [ft_receive_bonus, ft_handle_char_bonus, signal_bit, shl_byte, lor_one_byte]

/-- The bit that completes the terminator, in a session of sender `q`. -/
theorem ft_receive_bonus_end (s : State) (sig : Signal) (q : Int) (hq : q ≠ 0)
    (hcp : s.stats.client_pid = q) (hi : s.i + 1 = 8)
    (hc : (2 * s.c + signal_bit sig) % 256 = 0) :
    ft_receive_bonus s sig q =
      ({ i := 0, c := 0,
         stats := { s.stats with
                    bits_received := 0, chars_received := 0, client_pid := 0 },
         g_data := s.g_data },
       [Effect.putchar 10,
        Effect.print_stats { s.stats with
                             bits_received := size_t_incr s.stats.bits_received },
        Effect.kill q Signal.SIGUSR2]) := by
  cases sig <;>
    simp_all [ft_receive_bonus, ft_handle_char_bonus, signal_bit, shl_byte, lor_one_byte]

theorem size_t_incr_eq (n : Nat) (h : n + 1 < 2 ^ 64) : size_t_incr n = n + 1 :=
  Nat.mod_eq_of_lt h

theorem run_bonus_append (s : State) (xs ys : List (Signal × Int)) :
    run s (xs ++ ys) =
      ((run (run s xs).1 ys).1, (run s xs).2 ++ (run (run s xs).1 ys).2) := by
  induction xs generalizing s with
  | nil => simp [run]
  | cons e xs ih =>
    obtain ⟨sig, pid⟩ := e
    simp [run, ih, List.append_assoc]

/-- Bits of sender `q` that stop short of completing a byte: each one is
counted, shifted into the accumulator and acknowledged with `SIGUSR1`; the
first bit of a session is preceded by the new-connection report. -/
theorem run_bonus_bits (q : Int) (hq : q ≠ 0) (evs : List (Signal × Int)) :
    ∀ s : State, (∀ e ∈ evs, e.2 = q) →
      (s.stats.client_pid = 0 ∨ s.stats.client_pid = q) →
      s.i + evs.length < 8 → s.stats.bits_received + evs.length < 2 ^ 64 →
      run s evs =
        ({ i := s.i + evs.length,
           c := evs.foldl (fun c e => (2 * c + signal_bit e.1) % 256) s.c,
           stats := { s.stats with
                      bits_received := s.stats.bits_received + evs.length,
                      client_pid := if evs = [] then s.stats.client_pid else q },
           g_data := if evs = [] then s.g_data else 1 },
         (if evs ≠ [] ∧ s.stats.client_pid = 0 then (ft_handle_new_client s q).2 else []) ++
           List.replicate evs.length (Effect.kill q Signal.SIGUSR1)) := by
  induction evs with
  | nil => intro s _ _ _ _; simp [run]
  | cons e evs ih =>
    intro s hall hcp hlen hbits
    obtain ⟨sig, pid⟩ := e
    have hpid : pid = q := hall (sig, pid) (by simp)
    subst hpid
    have hi : s.i + 1 ≠ 8 := by simp at hlen; omega
    simp only [List.length_cons] at hlen hbits
    simp only [run, ft_receive_bonus_mid s sig pid hq hcp hi]
    rw [ih _ (fun e he => hall e (by simp [he])) (by simp) (by simp; omega)
      (by simp; rw [size_t_incr_eq _ (by omega)]; omega)]
    rw [size_t_incr_eq _ (by omega)]
    simp [List.replicate_succ, hq]
    omega

/-- Eight bits of sender `q` received from a byte boundary by the bonus
receiver (see `Server.run_eight`); a zero byte hands the counters to
`ft_print_stats` and clears them. -/
theorem run_bonus_eight (q : Int) (hq : q ≠ 0) (evs : List (Signal × Int)) (s : State)
    (hall : ∀ e ∈ evs, e.2 = q)
    (hcp : s.stats.client_pid = 0 ∨ s.stats.client_pid = q)
    (hi : s.i = 0) (hlen : evs.length = 8)
    (hbits : s.stats.bits_received + 8 < 2 ^ 64)
    (hchars : s.stats.chars_received + 1 < 2 ^ 64) :
    run s evs =
      if evs.foldl (fun c e => (2 * c + signal_bit e.1) % 256) s.c = 0 then
        ({ i := 0, c := 0,
           stats := { s.stats with
                      bits_received := 0, chars_received := 0, client_pid := 0 },
           g_data := 1 },
         (if s.stats.client_pid = 0 then (ft_handle_new_client s q).2 else []) ++
           List.replicate 7 (Effect.kill q Signal.SIGUSR1) ++
           [Effect.putchar 10,
            Effect.print_stats { s.stats with
                                 bits_received := s.stats.bits_received + 8,
                                 client_pid := q },
            Effect.kill q Signal.SIGUSR2])
      else
        ({ i := 0, c := evs.foldl (fun c e => (2 * c + signal_bit e.1) % 256) s.c,
           stats := { s.stats with
                      bits_received := s.stats.bits_received + 8,
                      chars_received := s.stats.chars_received + 1,
                      client_pid := q },
           g_data := 1 },
         (if s.stats.client_pid = 0 then (ft_handle_new_client s q).2 else []) ++
           List.replicate 7 (Effect.kill q Signal.SIGUSR1) ++
           [Effect.putchar (evs.foldl (fun c e => (2 * c + signal_bit e.1) % 256) s.c),
            Effect.kill q Signal.SIGUSR1]) := by
  have hne : evs ≠ [] := by intro h; simp [h] at hlen
  obtain ⟨front, last, rfl⟩ : ∃ front last, evs = front ++ [last] :=
    ⟨evs.dropLast, evs.getLast hne, (List.dropLast_append_getLast hne).symm⟩
  have hfl : front.length = 7 := by simpa using hlen
  have hfne : front ≠ [] := by intro h; simp [h] at hfl
  obtain ⟨sig, pid⟩ := last
  have hpid : pid = q := hall (sig, pid) (by simp)
  subst hpid
  rw [run_bonus_append, run_bonus_bits pid hq front s (fun e he => hall e (by simp [he])) hcp
    (by omega) (by omega)]
  simp only [run, List.foldl_append, List.foldl_cons, List.foldl_nil, hfne, if_false, hfl, hi,
    ne_eq, not_false_eq_true, true_and]
  by_cases hz : (2 * List.foldl (fun c e => (2 * c + signal_bit e.1) % 256) s.c front +
      signal_bit sig) % 256 = 0
  · rw [if_pos hz, ft_receive_bonus_end _ sig pid hq rfl (by simp) (by simpa using hz)]
    simp [size_t_incr_eq _ (show s.stats.bits_received + 7 + 1 < 2 ^ 64 by omega)]
  · rw [if_neg hz, ft_receive_bonus_char _ sig pid hq rfl (by simp) (by simpa using hz)]
    simp [size_t_incr_eq _ (show s.stats.bits_received + 7 + 1 < 2 ^ 64 by omega),
      size_t_incr_eq _ hchars]

/-- The eight signals of a non-zero byte `b`, received from a byte boundary. -/
theorem run_bonus_char (pid q : Int) (hq : q ≠ 0) (b : Nat) (hb0 : b ≠ 0) (hb : b < 256)
    (s : State) (hcp : s.stats.client_pid = 0 ∨ s.stats.client_pid = q) (hi : s.i = 0)
    (hbits : s.stats.bits_received + 8 < 2 ^ 64)
    (hchars : s.stats.chars_received + 1 < 2 ^ 64) :
    run s (Client.arrivals q (Client.ft_send_char pid b)) =
      ({ i := 0, c := b,
         stats := { s.stats with
                    bits_received := s.stats.bits_received + 8,
                    chars_received := s.stats.chars_received + 1,
                    client_pid := q },
         g_data := 1 },
       (if s.stats.client_pid = 0 then (ft_handle_new_client s q).2 else []) ++
         List.replicate 7 (Effect.kill q Signal.SIGUSR1) ++
         [Effect.putchar b, Effect.kill q Signal.SIGUSR1]) := by
  rw [run_bonus_eight q hq _ s (Client.arrivals_sender q _) hcp hi
    (by rw [Client.arrivals_length, Client.ft_send_char_length]) hbits hchars,
    Server.byte_fold pid q b s.c hb]
  simp [hb0]

/-- The eight signals of the terminator, received from a byte boundary. -/
theorem run_bonus_terminator (pid q : Int) (hq : q ≠ 0)
    (s : State) (hcp : s.stats.client_pid = 0 ∨ s.stats.client_pid = q) (hi : s.i = 0)
    (hbits : s.stats.bits_received + 8 < 2 ^ 64)
    (hchars : s.stats.chars_received + 1 < 2 ^ 64) :
    run s (Client.arrivals q (Client.ft_send_char pid 0)) =
      ({ i := 0, c := 0,
         stats := { s.stats with
                    bits_received := 0, chars_received := 0, client_pid := 0 },
         g_data := 1 },
       (if s.stats.client_pid = 0 then (ft_handle_new_client s q).2 else []) ++
         List.replicate 7 (Effect.kill q Signal.SIGUSR1) ++
         [Effect.putchar 10,
          Effect.print_stats { s.stats with
                               bits_received := s.stats.bits_received + 8,
                               client_pid := q },
          Effect.kill q Signal.SIGUSR2]) := by
  rw [run_bonus_eight q hq _ s (Client.arrivals_sender q _) hcp hi
    (by rw [Client.arrivals_length, Client.ft_send_char_length]) hbits hchars,
    Server.byte_fold pid q 0 s.c (by norm_num)]
  simp

theorem stats_reports_append (xs ys : List Effect) :
    stats_reports (xs ++ ys) = stats_reports xs ++ stats_reports ys := by
  induction xs with
  | nil => rfl
  | cons e xs ih => cases e <;> simp [stats_reports, ih]

theorem stats_reports_replicate_kill (n : Nat) (pid : Int) (sig : Signal) :
    stats_reports (List.replicate n (Effect.kill pid sig)) = [] := by
  induction n with
  | zero => rfl
  | succ n ih => simp [List.replicate_succ, stats_reports, ih]

theorem stats_reports_new_client (s : State) (q : Int) :
    stats_reports (ft_handle_new_client s q).2 = [] := rfl

/-- A whole message of sender `q` received by the bonus receiver from a byte
boundary: the final state and the one statistics record handed to
`ft_print_stats`. -/
theorem run_bonus_message (pid q : Int) (hq : q ≠ 0) (m : List Nat) :
    ∀ s : State, (∀ b ∈ m, b ≠ 0) → (∀ b ∈ m, b < 256) →
      (s.stats.client_pid = 0 ∨ s.stats.client_pid = q) → s.i = 0 →
      s.stats.bits_received + 8 * (m.length + 1) < 2 ^ 64 →
      s.stats.chars_received + m.length + 1 < 2 ^ 64 →
      (run s (Client.arrivals q (Client.ft_send_message pid m))).1 =
          { i := 0, c := 0,
            stats := { s.stats with
                       bits_received := 0, chars_received := 0, client_pid := 0 },
            g_data := 1 } ∧
        stats_reports (run s (Client.arrivals q (Client.ft_send_message pid m))).2 =
          [{ s.stats with
             bits_received := s.stats.bits_received + 8 * (m.length + 1),
             chars_received := s.stats.chars_received + m.length,
             client_pid := q }] := by
  induction m with
  | nil =>
    intro s _ _ hcp hi hbits hchars
    simp only [Client.ft_send_message]
    rw [run_bonus_terminator pid q hq s hcp hi (by simpa using hbits) (by simpa using hchars)]
    refine ⟨rfl, ?_⟩
    simp only [stats_reports_append, stats_reports_replicate_kill]
    split_ifs <;> simp [stats_reports]
  | cons b rest ih =>
    intro s h0 h256 hcp hi hbits hchars
    have hb0 : b ≠ 0 := h0 b (by simp)
    have hb : b < 256 := h256 b (by simp)
    simp only [List.length_cons] at hbits hchars
    rw [Client.ft_send_message_cons pid b rest hb0, Client.arrivals_append, run_bonus_append,
      run_bonus_char pid q hq b hb0 hb s hcp hi (by omega) (by omega)]
    have ih2 := ih
      { i := 0, c := b,
        stats := { s.stats with
                   bits_received := s.stats.bits_received + 8,
                   chars_received := s.stats.chars_received + 1,
                   client_pid := q },
        g_data := 1 }
      (fun x hx => h0 x (by simp [hx])) (fun x hx => h256 x (by simp [hx]))
      (Or.inr rfl) rfl (by simp; omega) (by simp; omega)
    refine ⟨by rw [ih2.1], ?_⟩
    simp only [stats_reports_append, stats_reports_replicate_kill, ih2.2]
    split_ifs <;>
      simp [stats_reports, List.length_cons] <;> constructor <;> omega

/-- The bonus handler moves the accumulator, the bit count, `client_pid` and
`g_data` exactly as the mandatory handler does. -/
theorem to_server_ft_receive_bonus (s : State) (sig : Signal) (si_pid : Int) :
    to_server (ft_receive_bonus s sig si_pid).1 =
      (Server.ft_receive (to_server s) sig si_pid).1 := by
  obtain ⟨i, c, ⟨ch, bt, cp, vm⟩, g⟩ := s
  by_cases h1 : cp = 0 <;> by_cases h2 : i + 1 = 8 <;> by_cases h3 : si_pid = 0 <;>
    cases sig <;>
    simp [ft_receive_bonus, ft_handle_char_bonus, ft_handle_new_client,
      Server.ft_receive, Server.ft_handle_char, to_server, h1, h2, h3] <;>
    split_ifs <;> simp_all

theorem to_server_run (evs : List (Signal × Int)) :
    ∀ s : State, to_server (run s evs).1 = (Server.run (to_server s) evs).1 := by
  induction evs with
  | nil => intro s; rfl
  | cons e evs ih =>
    intro s
    obtain ⟨sig, pid⟩ := e
    simp only [run, Server.run, ih, to_server_ft_receive_bonus]

end ServerBonus

namespace Client

theorem ft_send_message_length (pid : Int) (m : List Nat) (h0 : ∀ b ∈ m, b ≠ 0) :
    (ft_send_message pid m).length = 8 * (m.length + 1) := by
  induction m with
  | nil => rfl
  | cons b rest ih =>
    rw [ft_send_message_cons pid b rest (h0 b (by simp)), List.length_append,
      ft_send_char_length, ih (fun x hx => h0 x (by simp [hx]))]
    simp only [List.length_cons]
    omega

end Client

/-- C3: in the bonus receiver, a message of `n` non-zero bytes followed by the
terminator, received from the initial state, hands `ft_print_stats` exactly
one record, with `chars_received = n` and `bits_received = (n + 1) * 8`, and
both counters are 0 when the handler returns from the last bit. The counters
are `size_t`: the statement is for messages whose bit count fits in 64 bits. -/
theorem bonus_stats_at_completion (pid q : Int) (hq : q ≠ 0) (m : List Nat)
    (h0 : ∀ b ∈ m, b ≠ 0) (h256 : ∀ b ∈ m, b < 256)
    (hfit : (m.length + 1) * 8 < 2 ^ 64) :
    stats_reports (ServerBonus.run ServerBonus.init
        (ClientBonus.arrivals q (ClientBonus.ft_send_message_bonus pid m))).2 =
        [{ chars_received := m.length, bits_received := (m.length + 1) * 8,
           client_pid := q, verbose_mode := 0 }] ∧
      (ServerBonus.run ServerBonus.init
        (ClientBonus.arrivals q (ClientBonus.ft_send_message_bonus pid m))).1.stats.chars_received
        = 0 ∧
      (ServerBonus.run ServerBonus.init
        (ClientBonus.arrivals q (ClientBonus.ft_send_message_bonus pid m))).1.stats.bits_received
        = 0 := by
  rw [ClientBonus.arrivals_message_eq]
  have h := ServerBonus.run_bonus_message pid q hq m ServerBonus.init h0 h256 (Or.inl rfl) rfl
    (by simp only [ServerBonus.init]; omega) (by simp only [ServerBonus.init]; omega)
  refine ⟨?_, by rw [h.1], by rw [h.1]⟩
  rw [h.2]
  simp [ServerBonus.init, Nat.mul_comm]

/-- The statistics of the messages `A` (1 character, 16 bits) and `Hi`
(2 characters, 24 bits). -/
theorem bonus_stats_at_completion_witness :
    (stats_reports (ServerBonus.run ServerBonus.init
        (ClientBonus.arrivals 77 (ClientBonus.ft_send_message_bonus 4242 [65]))).2 =
        [{ chars_received := 1, bits_received := 16, client_pid := 77, verbose_mode := 0 }] ∧
      (ServerBonus.run ServerBonus.init
        (ClientBonus.arrivals 77 (ClientBonus.ft_send_message_bonus 4242 [65]))).1.stats.chars_received
        = 0 ∧
      (ServerBonus.run ServerBonus.init
        (ClientBonus.arrivals 77 (ClientBonus.ft_send_message_bonus 4242 [65]))).1.stats.bits_received
        = 0) ∧
    (stats_reports (ServerBonus.run ServerBonus.init
        (ClientBonus.arrivals 77 (ClientBonus.ft_send_message_bonus 4242 [72, 105]))).2 =
        [{ chars_received := 2, bits_received := 24, client_pid := 77, verbose_mode := 0 }] ∧
      (ServerBonus.run ServerBonus.init
        (ClientBonus.arrivals 77 (ClientBonus.ft_send_message_bonus 4242 [72, 105]))).1.stats.chars_received
        = 0 ∧
      (ServerBonus.run ServerBonus.init
        (ClientBonus.arrivals 77 (ClientBonus.ft_send_message_bonus 4242 [72, 105]))).1.stats.bits_received
        = 0) :=
  ⟨bonus_stats_at_completion 4242 77 (by decide) [65] (by decide) (by decide) (by norm_num),
   bonus_stats_at_completion 4242 77 (by decide) [72, 105] (by decide) (by decide)
     (by norm_num)⟩

/-- C4: in both receivers, while a message of `n` non-zero bytes plus the
terminator, sent by one process with pid `p > 0`, is received from the initial
state, `client_pid` is 0 before the first bit, equals `p` after each of the
first `8 * (n + 1) - 1` bits, and is 0 again after the last bit of the
terminator. -/
theorem session_identity (pid p : Int) (hp : 0 < p) (m : List Nat)
    (h0 : ∀ b ∈ m, b ≠ 0) (h256 : ∀ b ∈ m, b < 256) (k : Nat)
    (hk1 : 1 ≤ k) (hk2 : k ≤ 8 * (m.length + 1) - 1) :
    (Server.init.client_pid = 0 ∧
      (Server.run Server.init
        ((Client.arrivals p (Client.ft_send_message pid m)).take k)).1.client_pid = p ∧
      (Server.run Server.init
        ((Client.arrivals p (Client.ft_send_message pid m)).take
          (8 * (m.length + 1)))).1.client_pid = 0) ∧
    (ServerBonus.init.stats.client_pid = 0 ∧
      (ServerBonus.run ServerBonus.init
        ((ClientBonus.arrivals p (ClientBonus.ft_send_message_bonus pid m)).take
          k)).1.stats.client_pid = p ∧
      (ServerBonus.run ServerBonus.init
        ((ClientBonus.arrivals p (ClientBonus.ft_send_message_bonus pid m)).take
          (8 * (m.length + 1)))).1.stats.client_pid = 0) := by
  have hq : p ≠ 0 := by omega
  have hlen : (Client.arrivals p (Client.ft_send_message pid m)).length =
      8 * (m.length + 1) := by
    rw [Client.arrivals_length, Client.ft_send_message_length pid m h0]
  have hmid : (Server.run Server.init
      ((Client.arrivals p (Client.ft_send_message pid m)).take k)).1.client_pid = p := by
    have hfront : (Client.arrivals p (Client.ft_send_message pid m)).take k ≠ [] := by
      intro h
      have := congrArg List.length h
      simp [List.length_take, hlen] at this
      omega
    have hback : (Client.arrivals p (Client.ft_send_message pid m)).drop k ≠ [] := by
      intro h
      have := congrArg List.length h
      simp [List.length_drop, hlen] at this
      omega
    rw [Server.run_front_client_pid pid p hq m Server.init _ _ h0 h256 (Or.inl rfl) rfl
      (List.take_append_drop k _) hback, if_neg hfront]
  have hend : (Server.run Server.init
      ((Client.arrivals p (Client.ft_send_message pid m)).take
        (8 * (m.length + 1)))).1.client_pid = 0 := by
    rw [← hlen, List.take_length,
      (Server.run_message pid p hq m Server.init h0 h256 (Or.inl rfl) rfl).1]
  refine ⟨⟨rfl, hmid, hend⟩, rfl, ?_, ?_⟩
  · rw [ClientBonus.arrivals_message_eq]
    have := ServerBonus.to_server_run
      ((Client.arrivals p (Client.ft_send_message pid m)).take k) ServerBonus.init
    have h2 := congrArg Server.State.client_pid this
    simp only [ServerBonus.to_server] at h2
    rw [h2]
    exact hmid
  · rw [ClientBonus.arrivals_message_eq]
    have := ServerBonus.to_server_run
      ((Client.arrivals p (Client.ft_send_message pid m)).take (8 * (m.length + 1)))
      ServerBonus.init
    have h2 := congrArg Server.State.client_pid this
    simp only [ServerBonus.to_server] at h2
    rw [h2]
    exact hend

/-- The session identity while the message `Hi` of sender 77 is received: after
9 bits and after all 24. -/
theorem session_identity_witness :
    (Server.init.client_pid = 0 ∧
      (Server.run Server.init
        ((Client.arrivals 77 (Client.ft_send_message 4242 [72, 105])).take 9)).1.client_pid
        = 77 ∧
      (Server.run Server.init
        ((Client.arrivals 77 (Client.ft_send_message 4242 [72, 105])).take
          (8 * ([72, 105].length + 1)))).1.client_pid = 0) ∧
    (ServerBonus.init.stats.client_pid = 0 ∧
      (ServerBonus.run ServerBonus.init
        ((ClientBonus.arrivals 77 (ClientBonus.ft_send_message_bonus 4242 [72, 105])).take
          9)).1.stats.client_pid = 77 ∧
      (ServerBonus.run ServerBonus.init
        ((ClientBonus.arrivals 77 (ClientBonus.ft_send_message_bonus 4242 [72, 105])).take
          (8 * ([72, 105].length + 1)))).1.stats.client_pid = 0) :=
  session_identity 4242 77 (by decide) [72, 105] (by decide) (by decide) 9 (by decide)
    (by decide)

/-! ## The sender process -/

theorem kills_append (xs ys : List Effect) : kills (xs ++ ys) = kills xs ++ kills ys := by
  induction xs with
  | nil => rfl
  | cons e xs ih => cases e <;> simp [kills, ih]

namespace Client

/-- Stop-and-wait bookkeeping of the mandatory sender, preserved by every
event: how the number of `kill` calls compares with the number of handled
acknowledgments at each point of `ft_send_bit`. -/
theorem step_flow (p : Proc) (e : Event)
    (h : (p.pc = Pc.clear → (kills p.trace).length ≤ p.acks) ∧
      (p.pc = Pc.send → (kills p.trace).length ≤ p.acks ∧
        (p.g_signal_received ≠ 0 → (kills p.trace).length + 1 ≤ p.acks)) ∧
      (p.pc = Pc.wait → p.g_signal_received ≠ 0 → (kills p.trace).length ≤ p.acks) ∧
      (kills p.trace).length ≤ p.acks + 1) :
    ((step p e).pc = Pc.clear → (kills (step p e).trace).length ≤ (step p e).acks) ∧
      ((step p e).pc = Pc.send → (kills (step p e).trace).length ≤ (step p e).acks ∧
        ((step p e).g_signal_received ≠ 0 →
          (kills (step p e).trace).length + 1 ≤ (step p e).acks)) ∧
      ((step p e).pc = Pc.wait → (step p e).g_signal_received ≠ 0 →
        (kills (step p e).trace).length ≤ (step p e).acks) ∧
      (kills (step p e).trace).length ≤ (step p e).acks + 1 := by
  obtain ⟨pc, calls, g, trace, acks⟩ := p
  obtain ⟨h1, h2, h3, h4⟩ := h
  simp only at h1 h2 h3 h4
  cases pc <;> cases e with
  | run kill_ret =>
    cases calls with
    | nil => simp_all [step]; try omega
    | cons c cs =>
      obtain ⟨pid, bit⟩ := c
      simp [step, ft_send_bit]
      try split_ifs
      all_goals simp_all [kills_append, kills]
  | signal sig =>
    cases sig <;> simp_all [step, ft_sig_handler, kills_append, kills] <;> omega

/-- The bookkeeping of `step_flow` along any sequence of events. -/
theorem exec_flow (evs : List Event) :
    ∀ p : Proc,
      ((p.pc = Pc.clear → (kills p.trace).length ≤ p.acks) ∧
        (p.pc = Pc.send → (kills p.trace).length ≤ p.acks ∧
          (p.g_signal_received ≠ 0 → (kills p.trace).length + 1 ≤ p.acks)) ∧
        (p.pc = Pc.wait → p.g_signal_received ≠ 0 → (kills p.trace).length ≤ p.acks) ∧
        (kills p.trace).length ≤ p.acks + 1) →
      (kills (exec p evs).trace).length ≤ (exec p evs).acks + 1 := by
  induction evs with
  | nil => intro p h; exact h.2.2.2
  | cons e evs ih => intro p h; exact ih (step p e) (step_flow p e h)

/-- When `main` hands over to `ft_send_message` (or returns), no `kill` has
been made and the acknowledgment flag is 0. -/
theorem main_flow (argc : Int) (argv : List (List Nat)) (sa1 sa2 : Int) :
    kills (main argc argv sa1 sa2).trace = [] ∧
      (main argc argv sa1 sa2).g_signal_received = 0 ∧
      (main argc argv sa1 sa2).acks = 0 := by
  simp only [main]
  split_ifs <;> simp [kills]

end Client

namespace ClientBonus

/-- Stop-and-wait bookkeeping of the bonus sender (see `Client.step_flow`). -/
theorem step_flow_bonus (p : Proc) (e : Client.Event)
    (h : (p.pc = Pc.clear → (kills p.trace).length ≤ p.acks) ∧
      ((p.pc = Pc.send ∨ p.pc = Pc.report) → (kills p.trace).length ≤ p.acks ∧
        (p.g_signal_received ≠ 0 → (kills p.trace).length + 1 ≤ p.acks)) ∧
      (p.pc = Pc.wait → p.g_signal_received ≠ 0 → (kills p.trace).length ≤ p.acks) ∧
      (kills p.trace).length ≤ p.acks + 1) :
    ((step p e).pc = Pc.clear → (kills (step p e).trace).length ≤ (step p e).acks) ∧
      (((step p e).pc = Pc.send ∨ (step p e).pc = Pc.report) →
        (kills (step p e).trace).length ≤ (step p e).acks ∧
        ((step p e).g_signal_received ≠ 0 →
          (kills (step p e).trace).length + 1 ≤ (step p e).acks)) ∧
      ((step p e).pc = Pc.wait → (step p e).g_signal_received ≠ 0 →
        (kills (step p e).trace).length ≤ (step p e).acks) ∧
      (kills (step p e).trace).length ≤ (step p e).acks + 1 := by
  obtain ⟨pc, calls, verbose, g, trace, acks⟩ := p
  obtain ⟨h1, h2, h3, h4⟩ := h
  simp only at h1 h2 h3 h4
  cases pc <;> cases e with
  | run kill_ret =>
    cases calls with
    | nil => simp_all [step]; try omega
    | cons c cs =>
      obtain ⟨pid, bit⟩ := c
      simp [step, ft_send_bit_bonus, ft_send_bit_signal, ft_send_bit_verbose]
      try split_ifs
      all_goals simp_all [kills_append, kills]
  | signal sig =>
    cases sig <;> simp_all [step, ft_sig_handler_bonus, kills_append, kills] <;> omega

/-- The bookkeeping of `step_flow_bonus` along any sequence of events. -/
theorem exec_flow_bonus (evs : List Client.Event) :
    ∀ p : Proc,
      ((p.pc = Pc.clear → (kills p.trace).length ≤ p.acks) ∧
        ((p.pc = Pc.send ∨ p.pc = Pc.report) → (kills p.trace).length ≤ p.acks ∧
          (p.g_signal_received ≠ 0 → (kills p.trace).length + 1 ≤ p.acks)) ∧
        (p.pc = Pc.wait → p.g_signal_received ≠ 0 → (kills p.trace).length ≤ p.acks) ∧
        (kills p.trace).length ≤ p.acks + 1) →
      (kills (exec p evs).trace).length ≤ (exec p evs).acks + 1 := by
  induction evs with
  | nil => intro p h; exact h.2.2.2
  | cons e evs ih => intro p h; exact ih (step p e) (step_flow_bonus p e h)

/-- When the bonus `main` hands over to `ft_send_message_bonus` (or returns),
no `kill` has been made. -/
theorem main_flow_bonus (argc : Int) (argv : List (List Nat)) (sa1 sa2 : Int) :
    kills (main argc argv sa1 sa2).trace = [] ∧
      (main argc argv sa1 sa2).acks = 0 ∧
      ((main argc argv sa1 sa2).pc = Pc.clear ∨ (main argc argv sa1 sa2).pc = Pc.done 1) := by
  simp only [main, ft_check_args, ft_init_signals]
  split_ifs <;> simp_all [kills, kills_append]

end ClientBonus

namespace Client

theorem exec_append (p : Proc) (xs ys : List Event) :
    exec p (xs ++ ys) = exec (exec p xs) ys := by
  induction xs generalizing p with
  | nil => rfl
  | cons e xs ih => simp [exec, ih]

/-- One delivered and acknowledged `ft_send_bit` call: exactly one `kill`,
with the signal of the bit, and the next call becomes pending. -/
theorem exec_acked_call (p : Proc) (pid : Int) (bit_val : Nat) (cs : List (Int × Nat))
    (hpc : p.pc = Pc.clear) (hcalls : p.calls = (pid, bit_val) :: cs) :
    exec p acked_call =
      { pc := Pc.clear, calls := cs, g_signal_received := 1,
        trace := p.trace ++ [Effect.kill pid (bit_signal bit_val)],
        acks := p.acks + 1 } := by
  obtain ⟨pc, calls, g, trace, acks⟩ := p
  simp only at hpc hcalls
  subst hpc hcalls
  simp [acked_call, exec, step, ft_send_bit, ft_sig_handler]

/-- All pending `ft_send_bit` calls, each delivered and acknowledged: the
notifications sent are those of the calls, in order. -/
theorem exec_acked_schedule (calls : List (Int × Nat)) :
    ∀ p : Proc, p.pc = Pc.clear → p.calls = calls →
      (exec p (acked_schedule calls.length)).pc = Pc.clear ∧
      (exec p (acked_schedule calls.length)).calls = [] ∧
      kills (exec p (acked_schedule calls.length)).trace =
        kills p.trace ++ calls.map (fun x => (x.1, bit_signal x.2)) := by
  induction calls with
  | nil => intro p hpc hcalls; simp [acked_schedule, exec, hpc, hcalls]
  | cons c cs ih =>
    intro p hpc hcalls
    obtain ⟨pid, bit_val⟩ := c
    simp only [List.length_cons, acked_schedule, exec_append,
      exec_acked_call p pid bit_val cs hpc hcalls]
    have := ih { pc := Pc.clear, calls := cs, g_signal_received := 1,
                 trace := p.trace ++ [Effect.kill pid (bit_signal bit_val)],
                 acks := p.acks + 1 } rfl rfl
    refine ⟨this.1, this.2.1, ?_⟩
    rw [this.2.2]
    simp [kills_append, kills]

/-- Once no `ft_send_bit` call is left, no event makes the sender call `kill`. -/
theorem exec_idle (evs : List Event) :
    ∀ p : Proc, p.calls = [] → kills (exec p evs).trace = kills p.trace := by
  induction evs with
  | nil => intro p _; rfl
  | cons e evs ih =>
    intro p hcalls
    obtain ⟨pc, calls, g, trace, acks⟩ := p
    simp only at hcalls
    subst hcalls
    simp only [exec]
    cases pc <;> cases e with
    | run kill_ret => simp only [step]; rw [ih _ rfl]
    | signal sig =>
      cases sig <;> simp only [step, ft_sig_handler] <;>
        rw [ih _ (by simp)] <;> simp [kills_append, kills]

/-- The notifications of `ft_send_message` for a message without zero byte:
for each byte of the message and then for one zero byte, the eight bits from
bit 7 down to bit 0. -/
theorem ft_send_message_plan (pid : Int) (m : List Nat) (h0 : ∀ b ∈ m, b ≠ 0) :
    (ft_send_message pid m).map (fun x => (x.1, bit_signal x.2)) =
      (m ++ [0]).flatMap (fun b =>
        (List.range 8).map (fun k => (pid, bit_signal ((b >>> (7 - k)) &&& 1)))) := by
  induction m with
  | nil => rfl
  | cons b rest ih =>
    rw [ft_send_message_cons pid b rest (h0 b (by simp)), List.map_append,
      ih (fun x hx => h0 x (by simp [hx]))]
    rfl

end Client

namespace ClientBonus

theorem exec_bonus_append (p : Proc) (xs ys : List Client.Event) :
    exec p (xs ++ ys) = exec (exec p xs) ys := by
  induction xs generalizing p with
  | nil => rfl
  | cons e xs ih => simp [exec, ih]

/-- One delivered and acknowledged `ft_send_bit_bonus` call: exactly one
`kill`, with the signal of the bit; what is printed depends on `verbose`. -/
theorem exec_bonus_acked_call (p : Proc) (pid : Int) (bit_val : Nat) (cs : List (Int × Nat))
    (hpc : p.pc = Pc.clear) (hcalls : p.calls = (pid, bit_val) :: cs) :
    exec p (acked_call p.verbose) =
      { pc := Pc.clear, calls := cs, verbose := p.verbose, g_signal_received := 1,
        trace := p.trace ++ (if p.verbose ≠ 0 then ft_send_bit_verbose bit_val else []) ++
          [Effect.kill pid (bit_signal bit_val)],
        acks := p.acks + 1 } := by
  obtain ⟨pc, calls, verbose, g, trace, acks⟩ := p
  simp only at hpc hcalls
  subst hpc hcalls
  by_cases hv : verbose = 0 <;>
    simp [acked_call, exec, step, ft_send_bit_bonus, ft_send_bit_signal, ft_sig_handler_bonus,
      hv]

theorem kills_ft_send_bit_verbose (bit_val : Nat) : kills (ft_send_bit_verbose bit_val) = [] :=
  rfl

/-- All pending `ft_send_bit_bonus` calls, each delivered and acknowledged. -/
theorem exec_bonus_acked_schedule (calls : List (Int × Nat)) :
    ∀ p : Proc, p.pc = Pc.clear → p.calls = calls →
      (exec p (acked_schedule p.verbose calls.length)).pc = Pc.clear ∧
      (exec p (acked_schedule p.verbose calls.length)).calls = [] ∧
      kills (exec p (acked_schedule p.verbose calls.length)).trace =
        kills p.trace ++ calls.map (fun x => (x.1, bit_signal x.2)) := by
  induction calls with
  | nil => intro p hpc hcalls; simp [acked_schedule, exec, hpc, hcalls]
  | cons c cs ih =>
    intro p hpc hcalls
    obtain ⟨pid, bit_val⟩ := c
    simp only [List.length_cons, acked_schedule, exec_bonus_append,
      exec_bonus_acked_call p pid bit_val cs hpc hcalls]
    have := ih { pc := Pc.clear, calls := cs, verbose := p.verbose, g_signal_received := 1,
                 trace := p.trace ++
                   (if p.verbose ≠ 0 then ft_send_bit_verbose bit_val else []) ++
                   [Effect.kill pid (bit_signal bit_val)],
                 acks := p.acks + 1 } rfl rfl
    simp only at this
    refine ⟨this.1, this.2.1, ?_⟩
    rw [this.2.2]
    split_ifs <;> simp [kills_append, kills, kills_ft_send_bit_verbose]

/-- Once no `ft_send_bit_bonus` call is left, no event makes the bonus sender
call `kill`. -/
theorem exec_bonus_idle (evs : List Client.Event) :
    ∀ p : Proc, p.calls = [] → kills (exec p evs).trace = kills p.trace := by
  induction evs with
  | nil => intro p _; rfl
  | cons e evs ih =>
    intro p hcalls
    obtain ⟨pc, calls, verbose, g, trace, acks⟩ := p
    simp only at hcalls
    subst hcalls
    simp only [exec]
    cases pc <;> cases e with
    | run kill_ret => simp only [step]; rw [ih _ rfl]
    | signal sig =>
      cases sig <;> simp only [step, ft_sig_handler_bonus] <;>
        rw [ih _ (by simp)] <;> simp [kills_append, kills]

theorem ft_send_message_bonus_cons (pid : Int) (b : Nat) (rest : List Nat) (hb : b ≠ 0) :
    ft_send_message_bonus pid (b :: rest) =
      ft_send_char_bonus pid b ++ ft_send_message_bonus pid rest := by
  simp [ft_send_message_bonus, hb]

/-- The notifications of `ft_send_message_bonus` for a message without zero
byte (see `Client.ft_send_message_plan`). -/
theorem ft_send_message_bonus_plan (pid : Int) (m : List Nat) (h0 : ∀ b ∈ m, b ≠ 0) :
    (ft_send_message_bonus pid m).map (fun x => (x.1, bit_signal x.2)) =
      (m ++ [0]).flatMap (fun b =>
        (List.range 8).map (fun k => (pid, bit_signal ((b >>> (7 - k)) &&& 1)))) := by
  induction m with
  | nil => rfl
  | cons b rest ih =>
    rw [ft_send_message_bonus_cons pid b rest (h0 b (by simp)), List.map_append,
      ih (fun x hx => h0 x (by simp [hx]))]
    rfl

theorem ft_send_message_bonus_length (pid : Int) (m : List Nat) (h0 : ∀ b ∈ m, b ≠ 0) :
    (ft_send_message_bonus pid m).length = 8 * (m.length + 1) := by
  induction m with
  | nil => rfl
  | cons b rest ih =>
    rw [ft_send_message_bonus_cons pid b rest (h0 b (by simp)), List.length_append,
      ft_send_char_bonus_length, ih (fun x hx => h0 x (by simp [hx]))]
    simp only [List.length_cons]
    omega

end ClientBonus

namespace Client

/-- Whatever happens, the `kill` calls made so far and the calls still
planned make up the same sequence: one event keeps this bookkeeping. -/
theorem step_planned (total : List (Int × Signal)) (p : Proc) (e : Event)
    (h : ∃ rest, kills p.trace ++ rest = total ∧
      ((p.pc = Pc.clear ∨ p.pc = Pc.send) →
        rest = p.calls.map (fun x => (x.1, bit_signal x.2))) ∧
      (p.pc = Pc.wait → rest = p.calls.tail.map (fun x => (x.1, bit_signal x.2)))) :
    ∃ rest, kills (step p e).trace ++ rest = total ∧
      (((step p e).pc = Pc.clear ∨ (step p e).pc = Pc.send) →
        rest = (step p e).calls.map (fun x => (x.1, bit_signal x.2))) ∧
      ((step p e).pc = Pc.wait →
        rest = (step p e).calls.tail.map (fun x => (x.1, bit_signal x.2))) := by
  obtain ⟨pc, calls, g, trace, acks⟩ := p
  obtain ⟨rest, h1, h2, h3⟩ := h
  simp only at h1 h2 h3
  cases e with
  | signal sig =>
    cases sig
    · cases pc <;> exact ⟨rest, h1, h2, h3⟩
    · cases pc
      case done n => exact ⟨rest, h1, h2, h3⟩
      all_goals
        exact ⟨rest, by simpa [step, ft_sig_handler, kills_append, kills] using h1,
          by simp [step, ft_sig_handler], by simp [step, ft_sig_handler]⟩
  | run kill_ret =>
    cases calls with
    | nil =>
      cases pc
      case done n => exact ⟨rest, h1, h2, h3⟩
      all_goals exact ⟨rest, h1, by simp [step], by simp [step]⟩
    | cons c cs =>
      obtain ⟨pid, bit⟩ := c
      cases pc with
      | clear => exact ⟨rest, h1, fun _ => h2 (Or.inl rfl), by simp [step, ft_send_bit]⟩
      | send =>
        have hr := h2 (Or.inr rfl)
        simp only [List.map_cons] at hr
        refine ⟨cs.map (fun x => (x.1, bit_signal x.2)), ?_, ?_, ?_⟩
        · simp only [step, ft_send_bit]
          split_ifs <;> simp [kills_append, kills, ← h1, hr]
        · simp only [step, ft_send_bit]
          split_ifs <;> simp
        · simp only [step, ft_send_bit]
          split_ifs <;> simp
      | wait =>
        have hr := h3 rfl
        simp only [List.tail_cons] at hr
        subst hr
        by_cases hg : g = 0
        · refine ⟨cs.map (fun x => (x.1, bit_signal x.2)), ?_, ?_, ?_⟩ <;>
            simp [step, ft_send_bit, hg, h1]
        · refine ⟨cs.map (fun x => (x.1, bit_signal x.2)), ?_, ?_, ?_⟩ <;>
            simp [step, ft_send_bit, hg, h1]
      | park => exact ⟨rest, h1, by simp [step, ft_send_bit], by simp [step, ft_send_bit]⟩
      | done n => exact ⟨rest, h1, h2, h3⟩

/-- Under every sequence of events, the `kill` calls of the sender are an
initial segment of the planned ones: the signals of the pending `ft_send_bit`
calls, in order. -/
theorem exec_planned (evs : List Event) :
    ∀ p : Proc, p.pc = Pc.clear →
      ∃ rest, kills (exec p evs).trace ++ rest =
        kills p.trace ++ p.calls.map (fun x => (x.1, bit_signal x.2)) := by
  have gen : ∀ (total : List (Int × Signal)) (p : Proc),
      (∃ rest, kills p.trace ++ rest = total ∧
        ((p.pc = Pc.clear ∨ p.pc = Pc.send) →
          rest = p.calls.map (fun x => (x.1, bit_signal x.2))) ∧
        (p.pc = Pc.wait → rest = p.calls.tail.map (fun x => (x.1, bit_signal x.2)))) →
      ∃ rest, kills (exec p evs).trace ++ rest = total := by
    induction evs with
    | nil => intro total p ⟨rest, h, _⟩; exact ⟨rest, h⟩
    | cons e evs ih => intro total p h; exact ih total (step p e) (step_planned total p e h)
  intro p hpc
  exact gen _ p ⟨_, rfl, fun _ => rfl, fun h => by rw [hpc] at h; cases h⟩

end Client

namespace ClientBonus

/-- The bookkeeping of `Client.step_planned` for the bonus sender. -/
theorem step_planned_bonus (total : List (Int × Signal)) (p : Proc) (e : Client.Event)
    (h : ∃ rest, kills p.trace ++ rest = total ∧
      ((p.pc = Pc.clear ∨ p.pc = Pc.report ∨ p.pc = Pc.send) →
        rest = p.calls.map (fun x => (x.1, bit_signal x.2))) ∧
      (p.pc = Pc.wait → rest = p.calls.tail.map (fun x => (x.1, bit_signal x.2)))) :
    ∃ rest, kills (step p e).trace ++ rest = total ∧
      (((step p e).pc = Pc.clear ∨ (step p e).pc = Pc.report ∨ (step p e).pc = Pc.send) →
        rest = (step p e).calls.map (fun x => (x.1, bit_signal x.2))) ∧
      ((step p e).pc = Pc.wait →
        rest = (step p e).calls.tail.map (fun x => (x.1, bit_signal x.2))) := by
  obtain ⟨pc, calls, verbose, g, trace, acks⟩ := p
  obtain ⟨rest, h1, h2, h3⟩ := h
  simp only at h1 h2 h3
  cases e with
  | signal sig =>
    cases sig
    · cases pc <;> exact ⟨rest, h1, h2, h3⟩
    · cases pc
      case done n => exact ⟨rest, h1, h2, h3⟩
      all_goals
        exact ⟨rest, by simpa [step, ft_sig_handler_bonus, kills_append, kills] using h1,
          by simp [step, ft_sig_handler_bonus], by simp [step, ft_sig_handler_bonus]⟩
  | run kill_ret =>
    cases calls with
    | nil =>
      cases pc
      case done n => exact ⟨rest, h1, h2, h3⟩
      all_goals exact ⟨rest, h1, by simp [step], by simp [step]⟩
    | cons c cs =>
      obtain ⟨pid, bit⟩ := c
      cases pc with
      | clear =>
        refine ⟨rest, h1, fun _ => h2 (Or.inl rfl), ?_⟩
        simp only [step, ft_send_bit_bonus]
        split_ifs <;> simp
      | report =>
        refine ⟨rest, ?_, fun _ => h2 (Or.inr (Or.inl rfl)), by simp [step, ft_send_bit_bonus]⟩
        simpa [step, ft_send_bit_bonus, kills_append, kills_ft_send_bit_verbose] using h1
      | send =>
        have hr := h2 (Or.inr (Or.inr rfl))
        simp only [List.map_cons] at hr
        refine ⟨cs.map (fun x => (x.1, bit_signal x.2)), ?_, ?_, ?_⟩
        · simp only [step, ft_send_bit_bonus, ft_send_bit_signal]
          split_ifs <;> simp [kills_append, kills, ← h1, hr]
        · simp only [step, ft_send_bit_bonus, ft_send_bit_signal]
          split_ifs <;> simp
        · simp only [step, ft_send_bit_bonus, ft_send_bit_signal]
          split_ifs <;> simp
      | wait =>
        have hr := h3 rfl
        simp only [List.tail_cons] at hr
        subst hr
        by_cases hg : g = 0
        · refine ⟨cs.map (fun x => (x.1, bit_signal x.2)), ?_, ?_, ?_⟩ <;>
            simp [step, ft_send_bit_bonus, hg, h1]
        · refine ⟨cs.map (fun x => (x.1, bit_signal x.2)), ?_, ?_, ?_⟩ <;>
            simp [step, ft_send_bit_bonus, hg, h1]
      | park =>
        exact ⟨rest, h1, by simp [step, ft_send_bit_bonus], by simp [step, ft_send_bit_bonus]⟩
      | done n => exact ⟨rest, h1, h2, h3⟩

/-- Under every sequence of events, the `kill` calls of the bonus sender are
an initial segment of the planned ones. -/
theorem exec_planned_bonus (evs : List Client.Event) :
    ∀ p : Proc, p.pc = Pc.clear →
      ∃ rest, kills (exec p evs).trace ++ rest =
        kills p.trace ++ p.calls.map (fun x => (x.1, bit_signal x.2)) := by
  have gen : ∀ (total : List (Int × Signal)) (p : Proc),
      (∃ rest, kills p.trace ++ rest = total ∧
        ((p.pc = Pc.clear ∨ p.pc = Pc.report ∨ p.pc = Pc.send) →
          rest = p.calls.map (fun x => (x.1, bit_signal x.2))) ∧
        (p.pc = Pc.wait → rest = p.calls.tail.map (fun x => (x.1, bit_signal x.2)))) →
      ∃ rest, kills (exec p evs).trace ++ rest = total := by
    induction evs with
    | nil => intro total p ⟨rest, h, _⟩; exact ⟨rest, h⟩
    | cons e evs ih =>
      intro total p h; exact ih total (step p e) (step_planned_bonus total p e h)
  intro p hpc
  exact gen _ p ⟨_, rfl, fun _ => rfl, fun h => by rw [hpc] at h; cases h⟩

end ClientBonus

/-! ## The sender between two acknowledgments -/

namespace Client

/-- A sender that is waiting with the flag at 0, parked or gone: an event other
than the delivery of `SIGUSR1` leaves it so and makes no `kill`. -/
theorem step_waiting (p : Proc) (e : Event) (he : e ≠ Event.signal Signal.SIGUSR1)
    (h1 : p.pc ≠ Pc.clear) (h2 : p.pc ≠ Pc.send)
    (h3 : p.pc = Pc.wait → p.g_signal_received = 0) :
    ((step p e).pc ≠ Pc.clear ∧ (step p e).pc ≠ Pc.send ∧
        ((step p e).pc = Pc.wait → (step p e).g_signal_received = 0)) ∧
      kills (step p e).trace = kills p.trace := by
  obtain ⟨pc, calls, g, trace, acks⟩ := p
  simp only at h1 h2 h3
  cases pc <;> cases e with
  | run kill_ret =>
    cases calls with
    | nil => simp_all [step]
    | cons c cs =>
      obtain ⟨pid, bit⟩ := c
      simp_all [step, ft_send_bit]
  | signal sig =>
    cases sig <;> simp_all [step, ft_sig_handler, kills_append, kills]

theorem exec_waiting (evs : List Event) :
    ∀ p : Proc, p.pc ≠ Pc.clear → p.pc ≠ Pc.send →
      (p.pc = Pc.wait → p.g_signal_received = 0) →
      Event.signal Signal.SIGUSR1 ∉ evs →
      kills (exec p evs).trace = kills p.trace := by
  induction evs with
  | nil => intro p _ _ _ _; rfl
  | cons e evs ih =>
    intro p h1 h2 h3 hno
    have he : e ≠ Event.signal Signal.SIGUSR1 := fun h => hno (by simp [h])
    have hs := step_waiting p e he h1 h2 h3
    simp only [exec]
    rw [ih (step p e) hs.1.1 hs.1.2.1 hs.1.2.2 (fun h => hno (by simp [h])), hs.2]

/-- From the `kill` statement with the flag at 0, without a `SIGUSR1`, at most
the one `kill` of this call is made. -/
theorem exec_from_send (evs : List Event) (p : Proc) (hpc : p.pc = Pc.send)
    (hg : p.g_signal_received = 0) (hno : Event.signal Signal.SIGUSR1 ∉ evs) :
    (kills (exec p evs).trace).length ≤ (kills p.trace).length + 1 := by
  cases evs with
  | nil => simp [exec]
  | cons e evs =>
    have he : e ≠ Event.signal Signal.SIGUSR1 := fun h => hno (by simp [h])
    have hrest : Event.signal Signal.SIGUSR1 ∉ evs := fun h => hno (by simp [h])
    have hs : ((step p e).pc ≠ Pc.clear ∧ (step p e).pc ≠ Pc.send ∧
        ((step p e).pc = Pc.wait → (step p e).g_signal_received = 0)) ∧
        (kills (step p e).trace).length ≤ (kills p.trace).length + 1 := by
      obtain ⟨pc, calls, g, trace, acks⟩ := p
      simp only at hpc hg
      subst hpc hg
      cases e with
      | run kill_ret =>
        cases calls with
        | nil => simp [step]
        | cons c cs =>
          obtain ⟨pid, bit⟩ := c
          simp only [step, ft_send_bit]
          split_ifs <;> simp [kills_append, kills]
      | signal sig =>
        cases sig
        · exact absurd rfl he
        · simp [step, ft_sig_handler, kills_append, kills]
    simp only [exec]
    rw [exec_waiting evs (step p e) hs.1.1 hs.1.2.1 hs.1.2.2 hrest]
    exact hs.2

/-- From the start of an `ft_send_bit` call, without a `SIGUSR1`, at most the
one `kill` of this call is made: the next call does not get to its `kill`. -/
theorem exec_from_clear (evs : List Event) (p : Proc) (hpc : p.pc = Pc.clear)
    (hno : Event.signal Signal.SIGUSR1 ∉ evs) :
    (kills (exec p evs).trace).length ≤ (kills p.trace).length + 1 := by
  cases evs with
  | nil => simp [exec]
  | cons e evs =>
    have he : e ≠ Event.signal Signal.SIGUSR1 := fun h => hno (by simp [h])
    have hrest : Event.signal Signal.SIGUSR1 ∉ evs := fun h => hno (by simp [h])
    obtain ⟨pc, calls, g, trace, acks⟩ := p
    simp only at hpc
    subst hpc
    simp only [exec]
    cases e with
    | run kill_ret =>
      cases calls with
      | nil =>
        rw [exec_waiting evs _ (by simp [step]) (by simp [step]) (by simp [step]) hrest]
        simp [step]
      | cons c cs =>
        obtain ⟨pid, bit⟩ := c
        have h := exec_from_send evs
          (step { pc := Pc.clear, calls := (pid, bit) :: cs, g_signal_received := g,
                  trace := trace, acks := acks } (Event.run kill_ret))
          (by simp [step, ft_send_bit]) (by simp [step, ft_send_bit]) hrest
        simpa [step, ft_send_bit] using h
    | signal sig =>
      cases sig
      · exact absurd rfl he
      · rw [exec_waiting evs _ (by simp [step, ft_sig_handler])
          (by simp [step, ft_sig_handler]) (by simp [step, ft_sig_handler]) hrest]
        simp [step, ft_sig_handler, kills_append, kills]

end Client

namespace ClientBonus

/-- A bonus sender that is waiting with the flag at 0, parked or gone (see
`Client.step_waiting`). -/
theorem step_waiting_bonus (p : Proc) (e : Client.Event)
    (he : e ≠ Client.Event.signal Signal.SIGUSR1)
    (h1 : p.pc ≠ Pc.clear) (h2 : p.pc ≠ Pc.report) (h3 : p.pc ≠ Pc.send)
    (h4 : p.pc = Pc.wait → p.g_signal_received = 0) :
    ((step p e).pc ≠ Pc.clear ∧ (step p e).pc ≠ Pc.report ∧ (step p e).pc ≠ Pc.send ∧
        ((step p e).pc = Pc.wait → (step p e).g_signal_received = 0)) ∧
      kills (step p e).trace = kills p.trace := by
  obtain ⟨pc, calls, verbose, g, trace, acks⟩ := p
  simp only at h1 h2 h3 h4
  cases pc <;> cases e with
  | run kill_ret =>
    cases calls with
    | nil => simp_all [step]
    | cons c cs =>
      obtain ⟨pid, bit⟩ := c
      simp_all [step, ft_send_bit_bonus]
  | signal sig =>
    cases sig <;> simp_all [step, ft_sig_handler_bonus, kills_append, kills]

theorem exec_waiting_bonus (evs : List Client.Event) :
    ∀ p : Proc, p.pc ≠ Pc.clear → p.pc ≠ Pc.report → p.pc ≠ Pc.send →
      (p.pc = Pc.wait → p.g_signal_received = 0) →
      Client.Event.signal Signal.SIGUSR1 ∉ evs →
      kills (exec p evs).trace = kills p.trace := by
  induction evs with
  | nil => intro p _ _ _ _ _; rfl
  | cons e evs ih =>
    intro p h1 h2 h3 h4 hno
    have he : e ≠ Client.Event.signal Signal.SIGUSR1 := fun h => hno (by simp [h])
    have hs := step_waiting_bonus p e he h1 h2 h3 h4
    simp only [exec]
    rw [ih (step p e) hs.1.1 hs.1.2.1 hs.1.2.2.1 hs.1.2.2.2 (fun h => hno (by simp [h])),
      hs.2]

/-- From the `kill` statement of the bonus sender with the flag at 0 (see
`Client.exec_from_send`). -/
theorem exec_from_send_bonus (evs : List Client.Event) (p : Proc) (hpc : p.pc = Pc.send)
    (hg : p.g_signal_received = 0) (hno : Client.Event.signal Signal.SIGUSR1 ∉ evs) :
    (kills (exec p evs).trace).length ≤ (kills p.trace).length + 1 := by
  cases evs with
  | nil => simp [exec]
  | cons e evs =>
    have he : e ≠ Client.Event.signal Signal.SIGUSR1 := fun h => hno (by simp [h])
    have hrest : Client.Event.signal Signal.SIGUSR1 ∉ evs := fun h => hno (by simp [h])
    have hs : ((step p e).pc ≠ Pc.clear ∧ (step p e).pc ≠ Pc.report ∧
        (step p e).pc ≠ Pc.send ∧
        ((step p e).pc = Pc.wait → (step p e).g_signal_received = 0)) ∧
        (kills (step p e).trace).length ≤ (kills p.trace).length + 1 := by
      obtain ⟨pc, calls, verbose, g, trace, acks⟩ := p
      simp only at hpc hg
      subst hpc hg
      cases e with
      | run kill_ret =>
        cases calls with
        | nil => simp [step]
        | cons c cs =>
          obtain ⟨pid, bit⟩ := c
          simp only [step, ft_send_bit_bonus, ft_send_bit_signal]
          split_ifs <;> simp [kills_append, kills]
      | signal sig =>
        cases sig
        · exact absurd rfl he
        · simp [step, ft_sig_handler_bonus, kills_append, kills]
    simp only [exec]
    rw [exec_waiting_bonus evs (step p e) hs.1.1 hs.1.2.1 hs.1.2.2.1 hs.1.2.2.2 hrest]
    exact hs.2

/-- From the report of the bit, with the flag at 0. -/
theorem exec_from_report_bonus (evs : List Client.Event) (p : Proc) (hpc : p.pc = Pc.report)
    (hg : p.g_signal_received = 0) (hno : Client.Event.signal Signal.SIGUSR1 ∉ evs) :
    (kills (exec p evs).trace).length ≤ (kills p.trace).length + 1 := by
  cases evs with
  | nil => simp [exec]
  | cons e evs =>
    have he : e ≠ Client.Event.signal Signal.SIGUSR1 := fun h => hno (by simp [h])
    have hrest : Client.Event.signal Signal.SIGUSR1 ∉ evs := fun h => hno (by simp [h])
    obtain ⟨pc, calls, verbose, g, trace, acks⟩ := p
    simp only at hpc hg
    subst hpc hg
    simp only [exec]
    cases e with
    | run kill_ret =>
      cases calls with
      | nil =>
        rw [exec_waiting_bonus evs _ (by simp [step]) (by simp [step]) (by simp [step])
          (by simp [step]) hrest]
        simp [step]
      | cons c cs =>
        obtain ⟨pid, bit⟩ := c
        have h := exec_from_send_bonus evs
          (step { pc := Pc.report, calls := (pid, bit) :: cs, verbose := verbose,
                  g_signal_received := 0, trace := trace, acks := acks }
            (Client.Event.run kill_ret))
          (by simp [step, ft_send_bit_bonus]) (by simp [step, ft_send_bit_bonus]) hrest
        simpa [step, ft_send_bit_bonus, kills_append, kills_ft_send_bit_verbose] using h
    | signal sig =>
      cases sig
      · exact absurd rfl he
      · rw [exec_waiting_bonus evs _ (by simp [step, ft_sig_handler_bonus])
          (by simp [step, ft_sig_handler_bonus]) (by simp [step, ft_sig_handler_bonus])
          (by simp [step, ft_sig_handler_bonus]) hrest]
        simp [step, ft_sig_handler_bonus, kills_append, kills]

/-- From the start of an `ft_send_bit_bonus` call (see `Client.exec_from_clear`). -/
theorem exec_from_clear_bonus (evs : List Client.Event) (p : Proc) (hpc : p.pc = Pc.clear)
    (hno : Client.Event.signal Signal.SIGUSR1 ∉ evs) :
    (kills (exec p evs).trace).length ≤ (kills p.trace).length + 1 := by
  cases evs with
  | nil => simp [exec]
  | cons e evs =>
    have he : e ≠ Client.Event.signal Signal.SIGUSR1 := fun h => hno (by simp [h])
    have hrest : Client.Event.signal Signal.SIGUSR1 ∉ evs := fun h => hno (by simp [h])
    obtain ⟨pc, calls, verbose, g, trace, acks⟩ := p
    simp only at hpc
    subst hpc
    simp only [exec]
    cases e with
    | run kill_ret =>
      cases calls with
      | nil =>
        rw [exec_waiting_bonus evs _ (by simp [step]) (by simp [step]) (by simp [step])
          (by simp [step]) hrest]
        simp [step]
      | cons c cs =>
        obtain ⟨pid, bit⟩ := c
        by_cases hv : verbose = 0
        · have h := exec_from_send_bonus evs
            (step { pc := Pc.clear, calls := (pid, bit) :: cs, verbose := verbose,
                    g_signal_received := g, trace := trace, acks := acks }
              (Client.Event.run kill_ret))
            (by simp [step, ft_send_bit_bonus, hv]) (by simp [step, ft_send_bit_bonus]) hrest
          simpa [step, ft_send_bit_bonus] using h
        · have h := exec_from_report_bonus evs
            (step { pc := Pc.clear, calls := (pid, bit) :: cs, verbose := verbose,
                    g_signal_received := g, trace := trace, acks := acks }
              (Client.Event.run kill_ret))
            (by simp [step, ft_send_bit_bonus, hv]) (by simp [step, ft_send_bit_bonus]) hrest
          simpa [step, ft_send_bit_bonus] using h
    | signal sig =>
      cases sig
      · exact absurd rfl he
      · rw [exec_waiting_bonus evs _ (by simp [step, ft_sig_handler_bonus])
          (by simp [step, ft_sig_handler_bonus]) (by simp [step, ft_sig_handler_bonus])
          (by simp [step, ft_sig_handler_bonus]) hrest]
        simp [step, ft_sig_handler_bonus, kills_append, kills]

end ClientBonus

/-- C5, the claim fails when an acknowledgment is delivered between the clear
of the flag and the `kill` of a bit. Sender `./c 4242 Hi`: the flag is cleared,
a `SIGUSR1` is delivered (the flag is 1 before anything was sent), the first
bit is sent; then the main flow goes on with no further signal: the wait loop
finds the flag set, the flag is cleared and the second bit is sent. Two bits
are sent and no acknowledgment was delivered after the first one was sent.
Both senders. -/
theorem ack_before_kill_admits_next_bit :
    ((kills (Client.exec (Client.main 3 [[46, 47, 99], [52, 50, 52, 50], [72, 105]] 0 0)
          [Client.Event.run 0, Client.Event.signal Signal.SIGUSR1]).trace).length = 0 ∧
      (Client.exec (Client.main 3 [[46, 47, 99], [52, 50, 52, 50], [72, 105]] 0 0)
          [Client.Event.run 0, Client.Event.signal Signal.SIGUSR1]).g_signal_received = 1 ∧
      (kills (Client.exec (Client.main 3 [[46, 47, 99], [52, 50, 52, 50], [72, 105]] 0 0)
          [Client.Event.run 0, Client.Event.signal Signal.SIGUSR1,
           Client.Event.run 0]).trace).length = 1 ∧
      Client.Event.signal Signal.SIGUSR1 ∉
        [Client.Event.run 0, Client.Event.run 0, Client.Event.run 0] ∧
      (kills (Client.exec (Client.main 3 [[46, 47, 99], [52, 50, 52, 50], [72, 105]] 0 0)
          ([Client.Event.run 0, Client.Event.signal Signal.SIGUSR1, Client.Event.run 0] ++
            [Client.Event.run 0, Client.Event.run 0, Client.Event.run 0])).trace).length = 2) ∧
    ((kills (ClientBonus.exec
          (ClientBonus.main 3 [[46, 47, 99], [52, 50, 52, 50], [72, 105]] 0 0)
          [Client.Event.run 0, Client.Event.signal Signal.SIGUSR1]).trace).length = 0 ∧
      (ClientBonus.exec (ClientBonus.main 3 [[46, 47, 99], [52, 50, 52, 50], [72, 105]] 0 0)
          [Client.Event.run 0, Client.Event.signal Signal.SIGUSR1]).g_signal_received = 1 ∧
      (kills (ClientBonus.exec
          (ClientBonus.main 3 [[46, 47, 99], [52, 50, 52, 50], [72, 105]] 0 0)
          [Client.Event.run 0, Client.Event.signal Signal.SIGUSR1,
           Client.Event.run 0]).trace).length = 1 ∧
      (kills (ClientBonus.exec
          (ClientBonus.main 3 [[46, 47, 99], [52, 50, 52, 50], [72, 105]] 0 0)
          ([Client.Event.run 0, Client.Event.signal Signal.SIGUSR1, Client.Event.run 0] ++
            [Client.Event.run 0, Client.Event.run 0, Client.Event.run 0])).trace).length = 2) := by
  decide

/-- C5 as amended: the sender is stop-and-wait from the clear of the flag.
From the start of `main` and under every interleaving of main-flow steps and
signal deliveries, the number of `kill` calls made never exceeds the number of
acknowledgments (`SIGUSR1`) handled plus one. From the start of a per-bit call
(where the flag is cleared, just before the bit is sent), as long as no
`SIGUSR1` is delivered, at most the `kill` of this call is made: the next bit
is not sent before the flag has been set after it was cleared for this bit.
Once the bit is sent and the flag is still 0, nothing is sent until a
`SIGUSR1` is delivered. Inside the per-bit call the first statement clears
`g_signal_received` without sending, the `kill` statement makes exactly one
`kill`, and the wait loop lets the call return exactly when the flag is
non-zero, which only the handler brings about, by setting it to 1. All of this
in the mandatory sender (`p`) and in the bonus sender (`pb`), whose report of
the bit sends nothing. -/
theorem stop_and_wait (argc : Int) (argv : List (List Nat)) (sa1 sa2 : Int)
    (evs evs2 : List Client.Event) (p : Client.Proc) (pb : ClientBonus.Proc) (pid : Int)
    (bit_val : Nat) (kill_ret : Int) :
    ((kills (Client.exec (Client.main argc argv sa1 sa2) evs).trace).length ≤
        (Client.exec (Client.main argc argv sa1 sa2) evs).acks + 1 ∧
      (kills (ClientBonus.exec (ClientBonus.main argc argv sa1 sa2) evs).trace).length ≤
        (ClientBonus.exec (ClientBonus.main argc argv sa1 sa2) evs).acks + 1) ∧
    (Client.Event.signal Signal.SIGUSR1 ∉ evs2 →
      ((kills (Client.exec { p with pc := Client.Pc.clear } evs2).trace).length ≤
          (kills p.trace).length + 1 ∧
        kills (Client.exec { p with pc := Client.Pc.wait, g_signal_received := 0 }
          evs2).trace = kills p.trace) ∧
      ((kills (ClientBonus.exec { pb with pc := ClientBonus.Pc.clear } evs2).trace).length ≤
          (kills pb.trace).length + 1 ∧
        kills (ClientBonus.exec { pb with pc := ClientBonus.Pc.wait, g_signal_received := 0 }
          evs2).trace = kills pb.trace)) ∧
    (((Client.ft_send_bit { p with pc := Client.Pc.clear } pid bit_val
          kill_ret).g_signal_received = 0 ∧
      (Client.ft_send_bit { p with pc := Client.Pc.clear } pid bit_val kill_ret).trace =
        p.trace) ∧
    kills (Client.ft_send_bit { p with pc := Client.Pc.send } pid bit_val kill_ret).trace =
      kills p.trace ++ [(pid, Client.bit_signal bit_val)] ∧
    (((Client.ft_send_bit { p with pc := Client.Pc.wait } pid bit_val kill_ret).pc =
        Client.Pc.clear ↔ p.g_signal_received ≠ 0) ∧
      (Client.ft_send_bit { p with pc := Client.Pc.wait } pid bit_val kill_ret).trace =
        p.trace) ∧
    (Client.ft_sig_handler p Signal.SIGUSR1).g_signal_received = 1) ∧
    (((ClientBonus.ft_send_bit_bonus { pb with pc := ClientBonus.Pc.clear } pid bit_val
          kill_ret).g_signal_received = 0 ∧
      (ClientBonus.ft_send_bit_bonus { pb with pc := ClientBonus.Pc.clear } pid bit_val
          kill_ret).trace = pb.trace) ∧
    (kills (ClientBonus.ft_send_bit_bonus { pb with pc := ClientBonus.Pc.report } pid bit_val
          kill_ret).trace = kills pb.trace ∧
      (ClientBonus.ft_send_bit_bonus { pb with pc := ClientBonus.Pc.report } pid bit_val
          kill_ret).g_signal_received = pb.g_signal_received) ∧
    kills (ClientBonus.ft_send_bit_bonus { pb with pc := ClientBonus.Pc.send } pid bit_val
        kill_ret).trace = kills pb.trace ++ [(pid, ClientBonus.bit_signal bit_val)] ∧
    (((ClientBonus.ft_send_bit_bonus { pb with pc := ClientBonus.Pc.wait } pid bit_val
          kill_ret).pc = ClientBonus.Pc.clear ↔ pb.g_signal_received ≠ 0) ∧
      (ClientBonus.ft_send_bit_bonus { pb with pc := ClientBonus.Pc.wait } pid bit_val
          kill_ret).trace = pb.trace) ∧
    (ClientBonus.ft_sig_handler_bonus pb Signal.SIGUSR1).g_signal_received = 1) := by
  refine ⟨⟨?_, ?_⟩, ?_, ⟨⟨rfl, rfl⟩, ?_, ⟨?_, ?_⟩, rfl⟩, ⟨⟨rfl, rfl⟩, ⟨?_, rfl⟩, ?_, ⟨?_, ?_⟩, rfl⟩⟩
  · have h := Client.main_flow argc argv sa1 sa2
    apply Client.exec_flow
    simp [h.1, h.2.1, h.2.2]
  · have h := ClientBonus.main_flow_bonus argc argv sa1 sa2
    apply ClientBonus.exec_flow_bonus
    rcases h.2.2 with hpc | hpc <;> simp [h.1, h.2.1, hpc]
  · intro hno
    refine ⟨⟨?_, ?_⟩, ⟨?_, ?_⟩⟩
    · exact Client.exec_from_clear evs2 { p with pc := Client.Pc.clear } rfl hno
    · exact Client.exec_waiting evs2 { p with pc := Client.Pc.wait, g_signal_received := 0 }
        (by simp) (by simp) (fun _ => rfl) hno
    · exact ClientBonus.exec_from_clear_bonus evs2 { pb with pc := ClientBonus.Pc.clear } rfl
        hno
    · exact ClientBonus.exec_waiting_bonus evs2
        { pb with pc := ClientBonus.Pc.wait, g_signal_received := 0 }
        (by simp) (by simp) (by simp) (fun _ => rfl) hno
  · simp only [Client.ft_send_bit]
    split_ifs <;> simp [kills_append, kills]
  · simp only [Client.ft_send_bit]
    split_ifs <;> simp_all
  · simp only [Client.ft_send_bit]
    split_ifs <;> rfl
  · simp [ClientBonus.ft_send_bit_bonus, kills_append, ClientBonus.kills_ft_send_bit_verbose]
  · simp only [ClientBonus.ft_send_bit_bonus, ClientBonus.ft_send_bit_signal]
    split_ifs <;> simp [kills_append, kills]
  · simp only [ClientBonus.ft_send_bit_bonus]
    split_ifs <;> simp_all
  · simp only [ClientBonus.ft_send_bit_bonus]
    split_ifs <;> rfl

/-- The sender `./c 4242 Hi` from the start of its first per-bit call: with
main-flow steps only, one bit is sent and no more. -/
theorem stop_and_wait_witness :
    Client.Event.signal Signal.SIGUSR1 ∉
        [Client.Event.run 0, Client.Event.run 0, Client.Event.run 0, Client.Event.run 0] ∧
    (kills (Client.exec
        { Client.main 3 [[46, 47, 99], [52, 50, 52, 50], [72, 105]] 0 0 with
          pc := Client.Pc.clear }
        [Client.Event.run 0, Client.Event.run 0, Client.Event.run 0,
         Client.Event.run 0]).trace).length ≤
      (kills (Client.main 3 [[46, 47, 99], [52, 50, 52, 50], [72, 105]] 0 0).trace).length
        + 1 ∧
    kills (Client.exec (Client.main 3 [[46, 47, 99], [52, 50, 52, 50], [72, 105]] 0 0)
        [Client.Event.run 0, Client.Event.run 0, Client.Event.run 0,
         Client.Event.run 0]).trace = [(4242, Signal.SIGUSR1)] :=
  ⟨by decide,
    ((stop_and_wait 3 [[46, 47, 99], [52, 50, 52, 50], [72, 105]] 0 0 []
      [Client.Event.run 0, Client.Event.run 0, Client.Event.run 0, Client.Event.run 0]
      (Client.main 3 [[46, 47, 99], [52, 50, 52, 50], [72, 105]] 0 0)
      (ClientBonus.main 3 [[46, 47, 99], [52, 50, 52, 50], [72, 105]] 0 0) 4242 0 0).2.1
      (by decide)).1.1,
    by decide⟩

/-- C6: `ft_send_char` and `ft_send_char_bonus` make exactly eight per-bit
calls, the `k`-th (from 0) with the bit value `(c >> (7 - k)) & 1`, and the
per-bit sender delivers the value 1 as `SIGUSR2` and the value 0 as `SIGUSR1`,
to the given pid. -/
theorem send_char_msb_first (pid : Int) (c : Nat) (p : Client.Proc)
    (pb : ClientBonus.Proc) (kill_ret : Int) :
    (Client.ft_send_char pid c =
        (List.range 8).map (fun k => (pid, (c >>> (7 - k)) &&& 1)) ∧
      ClientBonus.ft_send_char_bonus pid c =
        (List.range 8).map (fun k => (pid, (c >>> (7 - k)) &&& 1))) ∧
    (kills (Client.ft_send_bit { p with pc := Client.Pc.send } pid 1 kill_ret).trace =
        kills p.trace ++ [(pid, Signal.SIGUSR2)] ∧
      kills (Client.ft_send_bit { p with pc := Client.Pc.send } pid 0 kill_ret).trace =
        kills p.trace ++ [(pid, Signal.SIGUSR1)]) ∧
    (kills (ClientBonus.ft_send_bit_bonus { pb with pc := ClientBonus.Pc.send } pid 1
          kill_ret).trace = kills pb.trace ++ [(pid, Signal.SIGUSR2)] ∧
      kills (ClientBonus.ft_send_bit_bonus { pb with pc := ClientBonus.Pc.send } pid 0
          kill_ret).trace = kills pb.trace ++ [(pid, Signal.SIGUSR1)]) := by
  refine ⟨⟨rfl, rfl⟩, ⟨?_, ?_⟩, ⟨?_, ?_⟩⟩
  · simp only [Client.ft_send_bit, Client.bit_signal]
    split_ifs <;> simp_all [kills_append, kills]
  · simp only [Client.ft_send_bit, Client.bit_signal]
    split_ifs <;> simp_all [kills_append, kills]
  · simp only [ClientBonus.ft_send_bit_bonus, ClientBonus.ft_send_bit_signal,
      ClientBonus.bit_signal]
    split_ifs <;> simp_all [kills_append, kills]
  · simp only [ClientBonus.ft_send_bit_bonus, ClientBonus.ft_send_bit_signal,
      ClientBonus.bit_signal]
    split_ifs <;> simp_all [kills_append, kills]

/-- C7: for a message of `n` non-zero bytes, when every delivery succeeds and
is acknowledged, `ft_send_message` (and `ft_send_message_bonus`, with or
without `verbose`) makes exactly `8 * (n + 1)` `kill` calls: the eight bits of
each message byte in message order, most significant first, then the eight
bits of one zero byte, all of them `SIGUSR1`; whatever happens afterwards, it
makes no further `kill` call. Under every other sequence of events the `kill`
calls made are an initial segment of that same list. -/
theorem send_message_notifications (pid : Int) (m : List Nat) (h0 : ∀ b ∈ m, b ≠ 0)
    (t0 : List Effect) (verbose : Int) (evs : List Client.Event) :
    (kills (Client.exec
          { pc := Client.Pc.clear, calls := Client.ft_send_message pid m,
            g_signal_received := 0, trace := t0, acks := 0 }
          (Client.acked_schedule (8 * (m.length + 1)))).trace =
        kills t0 ++ (m ++ [0]).flatMap (fun b =>
          (List.range 8).map (fun k => (pid, Client.bit_signal ((b >>> (7 - k)) &&& 1)))) ∧
      kills (Client.exec (Client.exec
          { pc := Client.Pc.clear, calls := Client.ft_send_message pid m,
            g_signal_received := 0, trace := t0, acks := 0 }
          (Client.acked_schedule (8 * (m.length + 1)))) evs).trace =
        kills t0 ++ (m ++ [0]).flatMap (fun b =>
          (List.range 8).map (fun k => (pid, Client.bit_signal ((b >>> (7 - k)) &&& 1))))) ∧
    (kills (ClientBonus.exec
          { pc := ClientBonus.Pc.clear, calls := ClientBonus.ft_send_message_bonus pid m,
            verbose := verbose, g_signal_received := 0, trace := t0, acks := 0 }
          (ClientBonus.acked_schedule verbose (8 * (m.length + 1)))).trace =
        kills t0 ++ (m ++ [0]).flatMap (fun b =>
          (List.range 8).map
            (fun k => (pid, ClientBonus.bit_signal ((b >>> (7 - k)) &&& 1)))) ∧
      kills (ClientBonus.exec (ClientBonus.exec
          { pc := ClientBonus.Pc.clear, calls := ClientBonus.ft_send_message_bonus pid m,
            verbose := verbose, g_signal_received := 0, trace := t0, acks := 0 }
          (ClientBonus.acked_schedule verbose (8 * (m.length + 1)))) evs).trace =
        kills t0 ++ (m ++ [0]).flatMap (fun b =>
          (List.range 8).map
            (fun k => (pid, ClientBonus.bit_signal ((b >>> (7 - k)) &&& 1))))) ∧
    ((∃ rest, kills (Client.exec
          { pc := Client.Pc.clear, calls := Client.ft_send_message pid m,
            g_signal_received := 0, trace := t0, acks := 0 } evs).trace ++ rest =
        kills t0 ++ (m ++ [0]).flatMap (fun b =>
          (List.range 8).map (fun k => (pid, Client.bit_signal ((b >>> (7 - k)) &&& 1))))) ∧
      (∃ rest, kills (ClientBonus.exec
          { pc := ClientBonus.Pc.clear, calls := ClientBonus.ft_send_message_bonus pid m,
            verbose := verbose, g_signal_received := 0, trace := t0, acks := 0 }
          evs).trace ++ rest =
        kills t0 ++ (m ++ [0]).flatMap (fun b =>
          (List.range 8).map
            (fun k => (pid, ClientBonus.bit_signal ((b >>> (7 - k)) &&& 1)))))) ∧
    (((m ++ [0]).flatMap (fun b =>
        (List.range 8).map
          (fun k => (pid, Client.bit_signal ((b >>> (7 - k)) &&& 1))))).length =
        8 * (m.length + 1) ∧
      (List.range 8).map (fun k => (pid, Client.bit_signal ((0 >>> (7 - k)) &&& 1))) =
        List.replicate 8 (pid, Signal.SIGUSR1) ∧
      (List.range 8).map (fun k => (pid, ClientBonus.bit_signal ((0 >>> (7 - k)) &&& 1))) =
        List.replicate 8 (pid, Signal.SIGUSR1)) := by
  have hlen := Client.ft_send_message_length pid m h0
  have hlenb := ClientBonus.ft_send_message_bonus_length pid m h0
  have h := Client.exec_acked_schedule (Client.ft_send_message pid m)
    { pc := Client.Pc.clear, calls := Client.ft_send_message pid m,
      g_signal_received := 0, trace := t0, acks := 0 } rfl rfl
  have hb := ClientBonus.exec_bonus_acked_schedule (ClientBonus.ft_send_message_bonus pid m)
    { pc := ClientBonus.Pc.clear, calls := ClientBonus.ft_send_message_bonus pid m,
      verbose := verbose, g_signal_received := 0, trace := t0, acks := 0 } rfl rfl
  rw [hlen, Client.ft_send_message_plan pid m h0] at h
  rw [hlenb, ClientBonus.ft_send_message_bonus_plan pid m h0] at hb
  have hp := Client.exec_planned evs
    { pc := Client.Pc.clear, calls := Client.ft_send_message pid m,
      g_signal_received := 0, trace := t0, acks := 0 } rfl
  have hpb := ClientBonus.exec_planned_bonus evs
    { pc := ClientBonus.Pc.clear, calls := ClientBonus.ft_send_message_bonus pid m,
      verbose := verbose, g_signal_received := 0, trace := t0, acks := 0 } rfl
  rw [Client.ft_send_message_plan pid m h0] at hp
  rw [ClientBonus.ft_send_message_bonus_plan pid m h0] at hpb
  refine ⟨⟨h.2.2, ?_⟩, ⟨hb.2.2, ?_⟩, ⟨hp, hpb⟩, ?_, ?_, ?_⟩
  · rw [Client.exec_idle evs _ h.2.1, h.2.2]
  · rw [ClientBonus.exec_bonus_idle evs _ hb.2.1, hb.2.2]
  · rw [← Client.ft_send_message_plan pid m h0, List.length_map, hlen]
  · rfl
  · rfl

/-- The sixteen notifications of the message `H`, every one delivered and
acknowledged. -/
theorem send_message_notifications_witness :
    kills (Client.exec
        { pc := Client.Pc.clear, calls := Client.ft_send_message 4242 [72],
          g_signal_received := 0, trace := [], acks := 0 }
        (Client.acked_schedule 16)).trace =
      [(4242, Signal.SIGUSR1), (4242, Signal.SIGUSR2), (4242, Signal.SIGUSR1),
       (4242, Signal.SIGUSR1), (4242, Signal.SIGUSR2), (4242, Signal.SIGUSR1),
       (4242, Signal.SIGUSR1), (4242, Signal.SIGUSR1),
       (4242, Signal.SIGUSR1), (4242, Signal.SIGUSR1), (4242, Signal.SIGUSR1),
       (4242, Signal.SIGUSR1), (4242, Signal.SIGUSR1), (4242, Signal.SIGUSR1),
       (4242, Signal.SIGUSR1), (4242, Signal.SIGUSR1)] :=
  (send_message_notifications 4242 [72] (by decide) [] 1 []).1.1

/-- C8: for every bit handled by `ft_receive` while the session belongs, or
comes to belong on this bit, to a non-zero pid `p`, exactly one notification
is sent, to `p`: `SIGUSR2` when the bit completes a zero byte, and then
`g_data` is left as it was; `SIGUSR1` otherwise, and then `g_data` is 1. -/
theorem one_notification_per_bit (s : Server.State) (sig : Signal) (si_pid : Int)
    (hp : (if s.client_pid = 0 then si_pid else s.client_pid) ≠ 0) :
    (s.i + 1 = 8 ∧ (2 * s.c + signal_bit sig) % 256 = 0 →
      kills (Server.ft_receive s sig si_pid).2 =
          [(if s.client_pid = 0 then si_pid else s.client_pid, Signal.SIGUSR2)] ∧
        (Server.ft_receive s sig si_pid).1.g_data = s.g_data) ∧
    (¬ (s.i + 1 = 8 ∧ (2 * s.c + signal_bit sig) % 256 = 0) →
      kills (Server.ft_receive s sig si_pid).2 =
          [(if s.client_pid = 0 then si_pid else s.client_pid, Signal.SIGUSR1)] ∧
        (Server.ft_receive s sig si_pid).1.g_data = 1) := by
  obtain ⟨i, c, cp, g⟩ := s
  simp only at hp ⊢
  by_cases h1 : cp = 0 <;> by_cases h2 : i + 1 = 8 <;> cases sig <;>
    simp_all [Server.ft_receive, Server.ft_handle_char, signal_bit, shl_byte, lor_one_byte,
      kills]

/-- The notification for the last bit of a terminator, and for the first bit of
a session. -/
theorem one_notification_per_bit_witness :
    (kills (Server.ft_receive { i := 7, c := 0, client_pid := 77, g_data := 0 }
          Signal.SIGUSR1 99).2 = [(77, Signal.SIGUSR2)] ∧
      (Server.ft_receive { i := 7, c := 0, client_pid := 77, g_data := 0 }
          Signal.SIGUSR1 99).1.g_data = 0) ∧
    (kills (Server.ft_receive Server.init Signal.SIGUSR2 77).2 = [(77, Signal.SIGUSR1)] ∧
      (Server.ft_receive Server.init Signal.SIGUSR2 77).1.g_data = 1) :=
  ⟨(one_notification_per_bit { i := 7, c := 0, client_pid := 77, g_data := 0 }
      Signal.SIGUSR1 99 (by decide)).1 (by decide),
    (one_notification_per_bit Server.init Signal.SIGUSR2 77 (by decide)).2 (by decide)⟩

/-! ## Argument checking of the senders -/

/-- A process that has exited stays as it is. -/
theorem Client.exec_done (evs : List Client.Event) (p : Client.Proc) (n : Nat)
    (h : p.pc = Client.Pc.done n) : Client.exec p evs = p := by
  induction evs with
  | nil => rfl
  | cons e evs ih => simp only [Client.exec, Client.step, h, ih]

/-- A bonus process that has exited stays as it is. -/
theorem ClientBonus.exec_bonus_done (evs : List Client.Event) (p : ClientBonus.Proc) (n : Nat)
    (h : p.pc = ClientBonus.Pc.done n) : ClientBonus.exec p evs = p := by
  induction evs with
  | nil => rfl
  | cons e evs ih => simp only [ClientBonus.exec, ClientBonus.step, h, ih]

/-- Function `main` of client.c with three arguments, by the value `ft_atoi` gives the
second one. -/
theorem Client.main_three (argv : List (List Nat)) (sa1 sa2 : Int) :
    (ft_atoi (argv.getD 1 []) ≤ 0 →
      Client.main 3 argv sa1 sa2 =
        { pc := Client.Pc.done 1, calls := [], g_signal_received := 0,
          trace := [Effect.write 2 "Error: Invalid PID\n" 18], acks := 0 }) ∧
    (0 < ft_atoi (argv.getD 1 []) → sa1 ≠ -1 → sa2 ≠ -1 →
      Client.main 3 argv sa1 sa2 =
        { pc := Client.Pc.clear,
          calls := Client.ft_send_message (ft_atoi (argv.getD 1 [])) (argv.getD 2 []),
          g_signal_received := 0,
          trace := [Effect.sigaction Signal.SIGUSR1, Effect.sigaction Signal.SIGUSR2],
          acks := 0 }) := by
  constructor
  · intro h
    simp only [Client.main, ne_eq, not_true_eq_false, if_false, if_pos h]
  · intro h h1 h2
    simp only [Client.main, ne_eq, not_true_eq_false, if_false, if_neg (not_le.mpr h),
      if_neg h1, if_neg h2]

/-- Function `main` of bonus/client_bonus.c with three or four arguments whose pid
argument `ft_atoi_bonus` reads as zero or less. -/
theorem ClientBonus.main_rejects (argc : Int) (argv : List (List Nat)) (sa1 sa2 : Int)
    (hargc : argc = 3 ∨ argc = 4) (h : ft_atoi_bonus (argv.getD 1 []) ≤ 0) :
    (ClientBonus.main argc argv sa1 sa2).pc = ClientBonus.Pc.done 1 ∧
      (ClientBonus.main argc argv sa1 sa2).trace =
        [Effect.print_colored "Erreur: PID invalide" COLOR_RED] := by
  have hc : ¬ (argc < 3 ∨ argc > 4) := by omega
  simp only [ClientBonus.main, ClientBonus.ft_check_args, if_neg hc, if_pos h, if_true,
    and_self]

/-- C9: when the argument count is accepted and the pid argument is read by
`ft_atoi` (`ft_atoi_bonus` in the bonus sender) as a value of zero or less, as
the argument `0` is, `main` returns 1 having only printed the invalid-pid
message: no `sigaction` call, no `kill`, and nothing happens afterwards. -/
theorem nonpositive_pid_rejected (argv : List (List Nat)) (argc_bonus : Int)
    (argv_bonus : List (List Nat)) (sa1 sa2 : Int) (evs : List Client.Event)
    (h : ft_atoi (argv.getD 1 []) ≤ 0)
    (hargc : argc_bonus = 3 ∨ argc_bonus = 4)
    (hb : ft_atoi_bonus (argv_bonus.getD 1 []) ≤ 0) :
    (Client.exec (Client.main 3 argv sa1 sa2) evs =
        { pc := Client.Pc.done 1, calls := [], g_signal_received := 0,
          trace := [Effect.write 2 "Error: Invalid PID\n" 18], acks := 0 } ∧
      (ClientBonus.exec (ClientBonus.main argc_bonus argv_bonus sa1 sa2) evs).pc =
        ClientBonus.Pc.done 1 ∧
      (ClientBonus.exec (ClientBonus.main argc_bonus argv_bonus sa1 sa2) evs).trace =
        [Effect.print_colored "Erreur: PID invalide" COLOR_RED]) ∧
    (ft_atoi [48] = 0 ∧ ft_atoi_bonus [48] = 0) := by
  have hm := (Client.main_three argv sa1 sa2).1 h
  have hmb := ClientBonus.main_rejects argc_bonus argv_bonus sa1 sa2 hargc hb
  refine ⟨⟨?_, ?_, ?_⟩, by decide, by decide⟩
  · rw [Client.exec_done evs _ 1 (by rw [hm]), hm]
  · rw [ClientBonus.exec_bonus_done evs _ 1 hmb.1, hmb.1]
  · rw [ClientBonus.exec_bonus_done evs _ 1 hmb.1, hmb.2]

/-- The command lines `./c 0 Hi` of the mandatory sender and `./c 0 Hi -v` of
the bonus sender: both stop with status 1 and send nothing. -/
theorem nonpositive_pid_rejected_witness :
    (Client.exec (Client.main 3 [[46, 47, 99], [48], [72, 105]] 0 0)
        [Client.Event.run 0, Client.Event.signal Signal.SIGUSR1] =
        { pc := Client.Pc.done 1, calls := [], g_signal_received := 0,
          trace := [Effect.write 2 "Error: Invalid PID\n" 18], acks := 0 } ∧
      (ClientBonus.exec (ClientBonus.main 4 [[46, 47, 99], [48], [72, 105], [45, 118]] 0 0)
        [Client.Event.run 0, Client.Event.signal Signal.SIGUSR1]).pc =
        ClientBonus.Pc.done 1 ∧
      (ClientBonus.exec (ClientBonus.main 4 [[46, 47, 99], [48], [72, 105], [45, 118]] 0 0)
        [Client.Event.run 0, Client.Event.signal Signal.SIGUSR1]).trace =
        [Effect.print_colored "Erreur: PID invalide" COLOR_RED]) ∧
    (ft_atoi [48] = 0 ∧ ft_atoi_bonus [48] = 0) :=
  nonpositive_pid_rejected [[46, 47, 99], [48], [72, 105]] 4
    [[46, 47, 99], [48], [72, 105], [45, 118]] 0 0
    [Client.Event.run 0, Client.Event.signal Signal.SIGUSR1] (by decide) (by decide)
    (by decide)

/-- The digit loop ignores whatever follows the first non-digit. -/
theorem ft_atoi_digits_append (d r : List Nat) (hd : ∀ c ∈ d, 48 ≤ c ∧ c ≤ 57)
    (hr : ∀ c, r.head? = some c → ¬ (48 ≤ c ∧ c ≤ 57)) :
    ∀ result : Int, ft_atoi_digits result (d ++ r) = ft_atoi_digits result d := by
  induction d with
  | nil =>
    intro result
    cases r with
    | nil => rfl
    | cons c r => simp only [List.nil_append, ft_atoi_digits, if_neg (hr c rfl)]
  | cons c d ih =>
    intro result
    simp only [List.cons_append, ft_atoi_digits, if_pos (hd c (by simp))]
    exact ih (fun x hx => hd x (by simp [hx])) _

/-- On a string that starts with a digit, `ft_atoi` is the digit loop. -/
theorem ft_atoi_of_digit (c : Nat) (rest : List Nat) (hc : 48 ≤ c ∧ c ≤ 57) :
    ft_atoi (c :: rest) = wrap_int (1 * ft_atoi_digits 0 (c :: rest)) := by
  have hs : ft_isspace c = false := by
    simp only [ft_isspace, Bool.or_eq_false_iff, decide_eq_false_iff_not]
    omega
  have hsign : ¬ (c = 45 ∨ c = 43) := by omega
  simp only [ft_atoi, ft_atoi_spaces, hs, ft_atoi_sign, if_neg hsign, Bool.false_eq_true,
    if_false]

/-- On a string whose first character is neither whitespace, nor a sign, nor
a digit, `ft_atoi` is 0. -/
theorem ft_atoi_of_other (c : Nat) (rest : List Nat) (hs : ft_isspace c = false)
    (hsign : ¬ (c = 45 ∨ c = 43)) (hc : ¬ (48 ≤ c ∧ c ≤ 57)) :
    ft_atoi (c :: rest) = 0 := by
  simp only [ft_atoi, ft_atoi_spaces, hs, ft_atoi_sign, if_neg hsign, Bool.false_eq_true,
    if_false, ft_atoi_digits, if_neg hc]
  rfl

/-- C10, the claim fails on the argument `12abc`: `main` does not return 1,
it installs the handlers and the first notification goes to pid 12. -/
theorem malformed_pid_accepted :
    (Client.main 3 [[46, 47, 99], [49, 50, 97, 98, 99], [72, 105]] 0 0).pc = Client.Pc.clear ∧
      kills (Client.exec (Client.main 3 [[46, 47, 99], [49, 50, 97, 98, 99], [72, 105]] 0 0)
        [Client.Event.run 0, Client.Event.run 0]).trace = [(12, Signal.SIGUSR1)] := by
  decide

/-- C10 as amended: `ft_atoi` stops at the first character that is not a
digit and reports no error, so a pid argument made of a non-empty digit run `d`
followed by other characters is handled by `main` exactly as the numeral `d`
alone: rejected (return 1 before any `sigaction` or `kill`) when the value read
is zero or less, accepted when it is positive. A pid argument that begins with
a character that is neither whitespace, a sign nor a digit reads as 0 and is
rejected. -/
theorem malformed_pid_as_numeral (prog d r msg : List Nat) (sa1 sa2 : Int)
    (hd : ∀ c ∈ d, 48 ≤ c ∧ c ≤ 57) (hne : d ≠ [])
    (hr : ∀ c, r.head? = some c → ¬ (48 ≤ c ∧ c ≤ 57)) :
    (ft_atoi (d ++ r) = ft_atoi d ∧
      Client.main 3 [prog, d ++ r, msg] sa1 sa2 = Client.main 3 [prog, d, msg] sa1 sa2) ∧
    (ft_atoi d ≤ 0 →
      Client.main 3 [prog, d ++ r, msg] sa1 sa2 =
        { pc := Client.Pc.done 1, calls := [], g_signal_received := 0,
          trace := [Effect.write 2 "Error: Invalid PID\n" 18], acks := 0 }) ∧
    (0 < ft_atoi d → sa1 ≠ -1 → sa2 ≠ -1 →
      Client.main 3 [prog, d ++ r, msg] sa1 sa2 =
        { pc := Client.Pc.clear, calls := Client.ft_send_message (ft_atoi d) msg,
          g_signal_received := 0,
          trace := [Effect.sigaction Signal.SIGUSR1, Effect.sigaction Signal.SIGUSR2],
          acks := 0 }) ∧
    (∀ (c : Nat) (rest : List Nat), ft_isspace c = false → ¬ (c = 45 ∨ c = 43) →
      ¬ (48 ≤ c ∧ c ≤ 57) →
      Client.main 3 [prog, c :: rest, msg] sa1 sa2 =
        { pc := Client.Pc.done 1, calls := [], g_signal_received := 0,
          trace := [Effect.write 2 "Error: Invalid PID\n" 18], acks := 0 }) := by
  have hval : ft_atoi (d ++ r) = ft_atoi d := by
    cases d with
    | nil => exact absurd rfl hne
    | cons c d =>
      have hc := hd c (by simp)
      rw [List.cons_append, ft_atoi_of_digit c (d ++ r) hc, ft_atoi_of_digit c d hc,
        ← List.cons_append, ft_atoi_digits_append (c :: d) r hd hr]
  have hmain : Client.main 3 [prog, d ++ r, msg] sa1 sa2 =
      Client.main 3 [prog, d, msg] sa1 sa2 := by
    simp only [Client.main, List.getD_cons_succ, List.getD_cons_zero, hval]
  refine ⟨⟨hval, hmain⟩, ?_, ?_, ?_⟩
  · intro h
    rw [hmain]
    exact (Client.main_three [prog, d, msg] sa1 sa2).1 h
  · intro h h1 h2
    rw [hmain]
    exact (Client.main_three [prog, d, msg] sa1 sa2).2 h h1 h2
  · intro c rest hs hsign hc
    exact (Client.main_three [prog, c :: rest, msg] sa1 sa2).1
      (le_of_eq (ft_atoi_of_other c rest hs hsign hc))

/-- The pid arguments `12abc`, handled as `12`, and `abc`, rejected. -/
theorem malformed_pid_as_numeral_witness :
    (ft_atoi ([49, 50] ++ [97, 98, 99]) = ft_atoi [49, 50] ∧
      Client.main 3 [[46, 47, 99], [49, 50] ++ [97, 98, 99], [72, 105]] 0 0 =
        Client.main 3 [[46, 47, 99], [49, 50], [72, 105]] 0 0) ∧
    Client.main 3 [[46, 47, 99], [49, 50] ++ [97, 98, 99], [72, 105]] 0 0 =
      { pc := Client.Pc.clear, calls := Client.ft_send_message 12 [72, 105],
        g_signal_received := 0,
        trace := [Effect.sigaction Signal.SIGUSR1, Effect.sigaction Signal.SIGUSR2],
        acks := 0 } ∧
    Client.main 3 [[46, 47, 99], [97, 98, 99], [72, 105]] 0 0 =
      { pc := Client.Pc.done 1, calls := [], g_signal_received := 0,
        trace := [Effect.write 2 "Error: Invalid PID\n" 18], acks := 0 } :=
  ⟨(malformed_pid_as_numeral [46, 47, 99] [49, 50] [97, 98, 99] [72, 105] 0 0
      (by decide) (by decide) (by decide)).1,
    (malformed_pid_as_numeral [46, 47, 99] [49, 50] [97, 98, 99] [72, 105] 0 0
      (by decide) (by decide) (by decide)).2.2.1 (by decide) (by decide) (by decide),
    (malformed_pid_as_numeral [46, 47, 99] [49, 50] [97, 98, 99] [72, 105] 0 0
      (by decide) (by decide) (by decide)).2.2.2 97 [98, 99] (by decide) (by decide)
      (by decide)⟩

namespace Client

/-- The first pending `ft_send_bit` calls, each delivered and acknowledged:
their notifications are sent, in order, and the remaining calls stay pending. -/
theorem exec_acked_front (front : List (Int × Nat)) :
    ∀ (p : Proc) (back : List (Int × Nat)), p.pc = Pc.clear → p.calls = front ++ back →
      (exec p (acked_schedule front.length)).pc = Pc.clear ∧
      (exec p (acked_schedule front.length)).calls = back ∧
      kills (exec p (acked_schedule front.length)).trace =
        kills p.trace ++ front.map (fun x => (x.1, bit_signal x.2)) ∧
      (exec p (acked_schedule front.length)).acks = p.acks + front.length := by
  induction front with
  | nil => intro p back hpc hcalls; simp [acked_schedule, exec, hpc, hcalls]
  | cons c cs ih =>
    intro p back hpc hcalls
    obtain ⟨pid, bit_val⟩ := c
    simp only [List.length_cons, acked_schedule, exec_append,
      exec_acked_call p pid bit_val (cs ++ back) hpc (by simpa using hcalls)]
    have := ih { pc := Pc.clear, calls := cs ++ back, g_signal_received := 1,
                 trace := p.trace ++ [Effect.kill pid (bit_signal bit_val)],
                 acks := p.acks + 1 } back rfl rfl
    refine ⟨this.1, this.2.1, ?_, ?_⟩
    · rw [this.2.2.1]
      simp [kills_append, kills]
    · rw [this.2.2.2]
      simp only []
      omega

/-- A failed delivery: the `kill` is attempted, the error message is written
and the process exits with status 1. -/
theorem exec_failed_call (p : Proc) (pid : Int) (bit_val : Nat) (cs : List (Int × Nat))
    (hpc : p.pc = Pc.clear) (hcalls : p.calls = (pid, bit_val) :: cs) :
    exec p failed_call =
      { pc := Pc.done 1, calls := (pid, bit_val) :: cs, g_signal_received := 0,
        trace := p.trace ++ [Effect.kill pid (bit_signal bit_val),
          Effect.write 2 "Error: Failed to send signal\n" 28],
        acks := p.acks } := by
  obtain ⟨pc, calls, g, trace, acks⟩ := p
  simp only at hpc hcalls
  subst hpc hcalls
  simp [failed_call, exec, step, ft_send_bit]

end Client

namespace ClientBonus

/-- The first pending `ft_send_bit_bonus` calls, each delivered and
acknowledged (see `Client.exec_acked_front`). -/
theorem exec_bonus_acked_front (front : List (Int × Nat)) :
    ∀ (p : Proc) (back : List (Int × Nat)), p.pc = Pc.clear → p.calls = front ++ back →
      (exec p (acked_schedule p.verbose front.length)).pc = Pc.clear ∧
      (exec p (acked_schedule p.verbose front.length)).calls = back ∧
      (exec p (acked_schedule p.verbose front.length)).verbose = p.verbose ∧
      kills (exec p (acked_schedule p.verbose front.length)).trace =
        kills p.trace ++ front.map (fun x => (x.1, bit_signal x.2)) ∧
      (exec p (acked_schedule p.verbose front.length)).acks = p.acks + front.length := by
  induction front with
  | nil => intro p back hpc hcalls; simp [acked_schedule, exec, hpc, hcalls]
  | cons c cs ih =>
    intro p back hpc hcalls
    obtain ⟨pid, bit_val⟩ := c
    simp only [List.length_cons, acked_schedule, exec_bonus_append,
      exec_bonus_acked_call p pid bit_val (cs ++ back) hpc (by simpa using hcalls)]
    have := ih { pc := Pc.clear, calls := cs ++ back, verbose := p.verbose,
                 g_signal_received := 1,
                 trace := p.trace ++
                   (if p.verbose ≠ 0 then ft_send_bit_verbose bit_val else []) ++
                   [Effect.kill pid (bit_signal bit_val)],
                 acks := p.acks + 1 } back rfl rfl
    simp only at this
    refine ⟨this.1, this.2.1, this.2.2.1, ?_, ?_⟩
    · rw [this.2.2.2.1]
      split_ifs <;> simp [kills_append, kills, kills_ft_send_bit_verbose]
    · rw [this.2.2.2.2]
      omega

/-- A failed delivery of the bonus sender: the `kill` is attempted and the
process exits with status 1. -/
theorem exec_bonus_failed_call (p : Proc) (pid : Int) (bit_val : Nat)
    (cs : List (Int × Nat)) (hpc : p.pc = Pc.clear) (hcalls : p.calls = (pid, bit_val) :: cs) :
    (exec p (failed_call p.verbose)).pc = Pc.done 1 ∧
      kills (exec p (failed_call p.verbose)).trace =
        kills p.trace ++ [(pid, bit_signal bit_val)] ∧
      (exec p (failed_call p.verbose)).acks = p.acks := by
  obtain ⟨pc, calls, verbose, g, trace, acks⟩ := p
  simp only at hpc hcalls
  subst hpc hcalls
  by_cases hv : verbose = 0 <;>
    simp [failed_call, exec, step, ft_send_bit_bonus, ft_send_bit_signal, hv, kills_append,
      kills, kills_ft_send_bit_verbose]

end ClientBonus

/-- A list cut at a position inside it. -/
theorem split_at_index {α : Type} (l : List α) (k : Nat) (hk : k < l.length) :
    ∃ front c back, l = front ++ c :: back ∧ front.length = k := by
  refine ⟨l.take k, l[k], l.drop (k + 1), ?_, ?_⟩
  · rw [← List.drop_eq_getElem_cons hk, List.take_append_drop]
  · simp [List.length_take]; omega

theorem take_succ_of_split {α β : Type} (f : α → β) (front : List α) (c : α)
    (back : List α) :
    ((front ++ c :: back).map f).take (front.length + 1) = front.map f ++ [f c] := by
  induction front with
  | nil => simp
  | cons a front ih => simpa using ih

/-- C12: whichever bit of whichever message it is, when the `kill` that
delivers it fails, the sender (mandatory or bonus) exits with status 1 and
makes no further `kill` call, whatever happens next: after `k` delivered and
acknowledged bits and a failed one, the `kill` calls are the first `k + 1`
planned ones and `k` acknowledgments were handled. When the first delivery
fails, that is one attempt, no acknowledgment and status 1. More generally, in
any state in which the sender is about to call `kill`, a `kill` that returns
-1 is the last one and the status is 1. -/
theorem delivery_failure_fatal (pid : Int) (m : List Nat) (t0 : List Effect)
    (verbose : Int) (k : Nat) (evs : List Client.Event)
    (p : Client.Proc) (pb : ClientBonus.Proc)
    (hk : k < (Client.ft_send_message pid m).length)
    (hkb : k < (ClientBonus.ft_send_message_bonus pid m).length) :
    ((Client.exec
          { pc := Client.Pc.clear, calls := Client.ft_send_message pid m,
            g_signal_received := 0, trace := t0, acks := 0 }
          (Client.acked_schedule k ++ Client.failed_call ++ evs)).pc = Client.Pc.done 1 ∧
      kills (Client.exec
          { pc := Client.Pc.clear, calls := Client.ft_send_message pid m,
            g_signal_received := 0, trace := t0, acks := 0 }
          (Client.acked_schedule k ++ Client.failed_call ++ evs)).trace =
        kills t0 ++ ((Client.ft_send_message pid m).map
          (fun x => (x.1, Client.bit_signal x.2))).take (k + 1) ∧
      (Client.exec
          { pc := Client.Pc.clear, calls := Client.ft_send_message pid m,
            g_signal_received := 0, trace := t0, acks := 0 }
          (Client.acked_schedule k ++ Client.failed_call ++ evs)).acks = k) ∧
    ((ClientBonus.exec
          { pc := ClientBonus.Pc.clear, calls := ClientBonus.ft_send_message_bonus pid m,
            verbose := verbose, g_signal_received := 0, trace := t0, acks := 0 }
          (ClientBonus.acked_schedule verbose k ++ ClientBonus.failed_call verbose ++
            evs)).pc = ClientBonus.Pc.done 1 ∧
      kills (ClientBonus.exec
          { pc := ClientBonus.Pc.clear, calls := ClientBonus.ft_send_message_bonus pid m,
            verbose := verbose, g_signal_received := 0, trace := t0, acks := 0 }
          (ClientBonus.acked_schedule verbose k ++ ClientBonus.failed_call verbose ++
            evs)).trace =
        kills t0 ++ ((ClientBonus.ft_send_message_bonus pid m).map
          (fun x => (x.1, ClientBonus.bit_signal x.2))).take (k + 1) ∧
      (ClientBonus.exec
          { pc := ClientBonus.Pc.clear, calls := ClientBonus.ft_send_message_bonus pid m,
            verbose := verbose, g_signal_received := 0, trace := t0, acks := 0 }
          (ClientBonus.acked_schedule verbose k ++ ClientBonus.failed_call verbose ++
            evs)).acks = k) ∧
    (p.pc = Client.Pc.send → p.calls ≠ [] →
      (Client.exec p (Client.Event.run (-1) :: evs)).pc = Client.Pc.done 1 ∧
      (kills (Client.exec p (Client.Event.run (-1) :: evs)).trace).length =
        (kills p.trace).length + 1) ∧
    (pb.pc = ClientBonus.Pc.send → pb.calls ≠ [] →
      (ClientBonus.exec pb (Client.Event.run (-1) :: evs)).pc = ClientBonus.Pc.done 1 ∧
      (kills (ClientBonus.exec pb (Client.Event.run (-1) :: evs)).trace).length =
        (kills pb.trace).length + 1) := by
  refine ⟨?_, ?_, ?_, ?_⟩
  · generalize Client.ft_send_message pid m = calls at hk ⊢
    obtain ⟨front, c, back, hsplit, hlen⟩ := split_at_index calls k hk
    obtain ⟨cpid, cbit⟩ := c
    subst hsplit hlen
    have h1 := Client.exec_acked_front front
      { pc := Client.Pc.clear, calls := front ++ (cpid, cbit) :: back,
        g_signal_received := 0, trace := t0, acks := 0 } ((cpid, cbit) :: back) rfl rfl
    have h2 := Client.exec_failed_call _ cpid cbit back h1.1 h1.2.1
    have h3 := Client.exec_done evs _ 1 (show (Client.exec _ Client.failed_call).pc = _ by
      rw [h2])
    rw [Client.exec_append, Client.exec_append, h3, h2, take_succ_of_split]
    refine ⟨rfl, ?_, ?_⟩
    · simp only [kills_append, kills, h1.2.2.1, List.append_assoc]
    · simp only [h1.2.2.2, Nat.zero_add]
  · generalize ClientBonus.ft_send_message_bonus pid m = calls at hkb ⊢
    obtain ⟨front, c, back, hsplit, hlen⟩ := split_at_index calls k hkb
    obtain ⟨cpid, cbit⟩ := c
    subst hsplit hlen
    have h1 := ClientBonus.exec_bonus_acked_front front
      { pc := ClientBonus.Pc.clear, calls := front ++ (cpid, cbit) :: back,
        verbose := verbose, g_signal_received := 0, trace := t0, acks := 0 }
      ((cpid, cbit) :: back) rfl rfl
    simp only at h1
    have h2 := ClientBonus.exec_bonus_failed_call _ cpid cbit back h1.1 h1.2.1
    rw [h1.2.2.1] at h2
    have h3 := ClientBonus.exec_bonus_done evs _ 1 h2.1
    rw [ClientBonus.exec_bonus_append, ClientBonus.exec_bonus_append, h3, take_succ_of_split]
    refine ⟨h2.1, ?_, ?_⟩
    · rw [h2.2.1, h1.2.2.2.1, List.append_assoc]
    · rw [h2.2.2, h1.2.2.2.2, Nat.zero_add]
  · intro hpc hcalls
    obtain ⟨c, cs, hc⟩ := List.exists_cons_of_ne_nil hcalls
    have hs : (Client.step p (Client.Event.run (-1))).pc = Client.Pc.done 1 := by
      simp [Client.step, Client.ft_send_bit, hpc, hc]
    simp only [Client.exec, Client.exec_done evs _ 1 hs]
    simp [Client.step, Client.ft_send_bit, kills_append, kills, hpc, hc]
  · intro hpc hcalls
    obtain ⟨c, cs, hc⟩ := List.exists_cons_of_ne_nil hcalls
    have hs : (ClientBonus.step pb (Client.Event.run (-1))).pc = ClientBonus.Pc.done 1 := by
      simp [ClientBonus.step, ClientBonus.ft_send_bit_bonus, ClientBonus.ft_send_bit_signal,
        hpc, hc]
    simp only [ClientBonus.exec, ClientBonus.exec_bonus_done evs _ 1 hs]
    simp [ClientBonus.step, ClientBonus.ft_send_bit_bonus, ClientBonus.ft_send_bit_signal,
      kills_append, kills, hpc, hc]

/-- The message `H` whose first delivery fails: one `kill` was attempted, no
acknowledgment was handled, and both senders exit with status 1. -/
theorem delivery_failure_fatal_witness :
    ((Client.exec
          { pc := Client.Pc.clear, calls := Client.ft_send_message 4242 [72],
            g_signal_received := 0, trace := [], acks := 0 }
          (Client.acked_schedule 0 ++ Client.failed_call ++
            [Client.Event.signal Signal.SIGUSR1, Client.Event.run 0])).pc =
        Client.Pc.done 1 ∧
      kills (Client.exec
          { pc := Client.Pc.clear, calls := Client.ft_send_message 4242 [72],
            g_signal_received := 0, trace := [], acks := 0 }
          (Client.acked_schedule 0 ++ Client.failed_call ++
            [Client.Event.signal Signal.SIGUSR1, Client.Event.run 0])).trace =
        [(4242, Signal.SIGUSR1)] ∧
      (Client.exec
          { pc := Client.Pc.clear, calls := Client.ft_send_message 4242 [72],
            g_signal_received := 0, trace := [], acks := 0 }
          (Client.acked_schedule 0 ++ Client.failed_call ++
            [Client.Event.signal Signal.SIGUSR1, Client.Event.run 0])).acks = 0) ∧
    ((ClientBonus.exec
          { pc := ClientBonus.Pc.clear, calls := ClientBonus.ft_send_message_bonus 4242 [72],
            verbose := 1, g_signal_received := 0, trace := [], acks := 0 }
          (ClientBonus.acked_schedule 1 0 ++ ClientBonus.failed_call 1 ++
            [Client.Event.signal Signal.SIGUSR1, Client.Event.run 0])).pc =
        ClientBonus.Pc.done 1 ∧
      kills (ClientBonus.exec
          { pc := ClientBonus.Pc.clear, calls := ClientBonus.ft_send_message_bonus 4242 [72],
            verbose := 1, g_signal_received := 0, trace := [], acks := 0 }
          (ClientBonus.acked_schedule 1 0 ++ ClientBonus.failed_call 1 ++
            [Client.Event.signal Signal.SIGUSR1, Client.Event.run 0])).trace =
        [(4242, Signal.SIGUSR1)] ∧
      (ClientBonus.exec
          { pc := ClientBonus.Pc.clear, calls := ClientBonus.ft_send_message_bonus 4242 [72],
            verbose := 1, g_signal_received := 0, trace := [], acks := 0 }
          (ClientBonus.acked_schedule 1 0 ++ ClientBonus.failed_call 1 ++
            [Client.Event.signal Signal.SIGUSR1, Client.Event.run 0])).acks = 0) :=
  ⟨(delivery_failure_fatal 4242 [72] [] 1 0
      [Client.Event.signal Signal.SIGUSR1, Client.Event.run 0]
      { pc := Client.Pc.park, calls := [], g_signal_received := 0, trace := [], acks := 0 }
      { pc := ClientBonus.Pc.park, calls := [], verbose := 0, g_signal_received := 0,
        trace := [], acks := 0 }
      (by decide) (by decide)).1,
    (delivery_failure_fatal 4242 [72] [] 1 0
      [Client.Event.signal Signal.SIGUSR1, Client.Event.run 0]
      { pc := Client.Pc.park, calls := [], g_signal_received := 0, trace := [], acks := 0 }
      { pc := ClientBonus.Pc.park, calls := [], verbose := 0, g_signal_received := 0,
        trace := [], acks := 0 }
      (by decide) (by decide)).2.1⟩

/-- C13: with an argument count other than 3 the mandatory `main` returns 1
having only printed the usage message, and with fewer than 3 or more than 4
arguments the bonus `ft_check_args` returns 0, so that the bonus `main`
returns 1 having only printed its usage message: no `sigaction`, no `kill`,
and nothing happens afterwards. -/
theorem wrong_argument_count (argc : Int) (argv : List (List Nat)) (argc_bonus : Int)
    (argv_bonus : List (List Nat)) (sa1 sa2 : Int) (evs : List Client.Event)
    (h : argc ≠ 3) (hb : argc_bonus < 3 ∨ argc_bonus > 4) :
    Client.exec (Client.main argc argv sa1 sa2) evs =
        { pc := Client.Pc.done 1, calls := [], g_signal_received := 0,
          trace := [Effect.write 2 "Usage: ./client [server_pid] [message]\n" 38],
          acks := 0 } ∧
      (ClientBonus.ft_check_args argc_bonus argv_bonus).1 = 0 ∧
      (ClientBonus.exec (ClientBonus.main argc_bonus argv_bonus sa1 sa2) evs).pc =
        ClientBonus.Pc.done 1 ∧
      (ClientBonus.exec (ClientBonus.main argc_bonus argv_bonus sa1 sa2) evs).trace =
        [Effect.print_colored "Usage: ./client_bonus [pid] [msg] [-v]" COLOR_RED] := by
  have hm : Client.main argc argv sa1 sa2 =
      { pc := Client.Pc.done 1, calls := [], g_signal_received := 0,
        trace := [Effect.write 2 "Usage: ./client [server_pid] [message]\n" 38],
        acks := 0 } := by
    simp only [Client.main, if_pos h]
  have hc : ClientBonus.ft_check_args argc_bonus argv_bonus =
      (0, 0, 0, [Effect.print_colored "Usage: ./client_bonus [pid] [msg] [-v]" COLOR_RED]) := by
    simp only [ClientBonus.ft_check_args, if_pos hb]
  have hpc : (ClientBonus.main argc_bonus argv_bonus sa1 sa2).pc = ClientBonus.Pc.done 1 := by
    simp only [ClientBonus.main, hc, if_true]
  have htr : (ClientBonus.main argc_bonus argv_bonus sa1 sa2).trace =
      [Effect.print_colored "Usage: ./client_bonus [pid] [msg] [-v]" COLOR_RED] := by
    simp only [ClientBonus.main, hc, if_true]
  refine ⟨?_, by rw [hc], ?_, ?_⟩
  · rw [Client.exec_done evs _ 1 (by rw [hm]), hm]
  · rw [ClientBonus.exec_bonus_done evs _ 1 hpc, hpc]
  · rw [ClientBonus.exec_bonus_done evs _ 1 hpc, htr]

/-- The command lines `./c 4242` (two arguments) of the mandatory sender and
`./c 4242 Hi -v x` (five arguments) of the bonus sender. -/
theorem wrong_argument_count_witness :
    Client.exec (Client.main 2 [[46, 47, 99], [52, 50, 52, 50]] 0 0)
        [Client.Event.run 0, Client.Event.signal Signal.SIGUSR1] =
        { pc := Client.Pc.done 1, calls := [], g_signal_received := 0,
          trace := [Effect.write 2 "Usage: ./client [server_pid] [message]\n" 38],
          acks := 0 } ∧
      (ClientBonus.ft_check_args 5
        [[46, 47, 99], [52, 50, 52, 50], [72, 105], [45, 118], [120]]).1 = 0 ∧
      (ClientBonus.exec (ClientBonus.main 5
          [[46, 47, 99], [52, 50, 52, 50], [72, 105], [45, 118], [120]] 0 0)
        [Client.Event.run 0, Client.Event.signal Signal.SIGUSR1]).pc =
        ClientBonus.Pc.done 1 ∧
      (ClientBonus.exec (ClientBonus.main 5
          [[46, 47, 99], [52, 50, 52, 50], [72, 105], [45, 118], [120]] 0 0)
        [Client.Event.run 0, Client.Event.signal Signal.SIGUSR1]).trace =
        [Effect.print_colored "Usage: ./client_bonus [pid] [msg] [-v]" COLOR_RED] :=
  wrong_argument_count 2 [[46, 47, 99], [52, 50, 52, 50]] 5
    [[46, 47, 99], [52, 50, 52, 50], [72, 105], [45, 118], [120]] 0 0
    [Client.Event.run 0, Client.Event.signal Signal.SIGUSR1] (by decide) (by decide)

namespace Client

/-- Only the handler, run for `SIGUSR2`, brings the sender to exit status 0. -/
theorem step_done_zero (p : Proc) (e : Event) (hp : p.pc ≠ Pc.done 0)
    (h : (step p e).pc = Pc.done 0) : e = Event.signal Signal.SIGUSR2 := by
  obtain ⟨pc, calls, g, tr, acks⟩ := p
  simp only at hp
  cases e with
  | signal sig =>
    cases sig
    · cases pc <;> simp_all [step, ft_sig_handler]
    · rfl
  | run kill_ret =>
    cases pc <;> cases calls <;> simp_all [step, ft_send_bit]
    all_goals split_ifs at h <;> simp_all

/-- A run of the sender that ends with exit status 0 contains the delivery of
`SIGUSR2`. -/
theorem exec_done_zero (evs : List Event) :
    ∀ p : Proc, p.pc ≠ Pc.done 0 → (exec p evs).pc = Pc.done 0 →
      Event.signal Signal.SIGUSR2 ∈ evs := by
  induction evs with
  | nil => intro p hp h; exact absurd h hp
  | cons e evs ih =>
    intro p hp h
    by_cases hs : (step p e).pc = Pc.done 0
    · rw [step_done_zero p e hp hs]; exact List.mem_cons_self _ _
    · exact List.mem_cons_of_mem _ (ih (step p e) hs h)

end Client

namespace ClientBonus

/-- Only the handler, run for `SIGUSR2`, brings the bonus sender to exit
status 0. -/
theorem step_done_zero_bonus (p : Proc) (e : Client.Event) (hp : p.pc ≠ Pc.done 0)
    (h : (step p e).pc = Pc.done 0) : e = Client.Event.signal Signal.SIGUSR2 := by
  obtain ⟨pc, calls, vb, g, tr, acks⟩ := p
  simp only at hp
  cases e with
  | signal sig =>
    cases sig
    · cases pc <;> simp_all [step, ft_sig_handler_bonus]
    · rfl
  | run kill_ret =>
    cases pc <;> cases calls <;> simp_all [step, ft_send_bit_bonus, ft_send_bit_signal]
    all_goals split_ifs at h <;> simp_all

/-- A run of the bonus sender that ends with exit status 0 contains the
delivery of `SIGUSR2`. -/
theorem exec_done_zero_bonus (evs : List Client.Event) :
    ∀ p : Proc, p.pc ≠ Pc.done 0 → (exec p evs).pc = Pc.done 0 →
      Client.Event.signal Signal.SIGUSR2 ∈ evs := by
  induction evs with
  | nil => intro p hp h; exact absurd h hp
  | cons e evs ih =>
    intro p hp h
    by_cases hs : (step p e).pc = Pc.done 0
    · rw [step_done_zero_bonus p e hp hs]; exact List.mem_cons_self _ _
    · exact List.mem_cons_of_mem _ (ih (step p e) hs h)

end ClientBonus

/-- C14: the sender ends with exit status 0 only after the completion
notification: every run from the start of `main` that ends with status 0
contains the delivery of `SIGUSR2`, in the mandatory and in the bonus sender;
the handler run for the acknowledgment `SIGUSR1` only sets
`g_signal_received` to 1 and leaves the process where it was. -/
theorem exit_zero_only_on_completion (argc : Int) (argv : List (List Nat)) (sa1 sa2 : Int)
    (evs : List Client.Event) (p : Client.Proc) (pb : ClientBonus.Proc) :
    ((Client.exec (Client.main argc argv sa1 sa2) evs).pc = Client.Pc.done 0 →
        Client.Event.signal Signal.SIGUSR2 ∈ evs) ∧
      ((ClientBonus.exec (ClientBonus.main argc argv sa1 sa2) evs).pc =
          ClientBonus.Pc.done 0 →
        Client.Event.signal Signal.SIGUSR2 ∈ evs) ∧
      (Client.ft_sig_handler p Signal.SIGUSR1 =
          { p with g_signal_received := 1, acks := p.acks + 1 } ∧
        (Client.step p (Client.Event.signal Signal.SIGUSR1)).pc = p.pc) ∧
      (ClientBonus.ft_sig_handler_bonus pb Signal.SIGUSR1 =
          { pb with g_signal_received := 1, acks := pb.acks + 1 } ∧
        (ClientBonus.step pb (Client.Event.signal Signal.SIGUSR1)).pc = pb.pc) := by
  refine ⟨?_, ?_, ⟨?_, ?_⟩, ⟨?_, ?_⟩⟩
  · apply Client.exec_done_zero
    simp only [Client.main]
    split_ifs <;> simp
  · apply ClientBonus.exec_done_zero_bonus
    rcases (ClientBonus.main_flow_bonus argc argv sa1 sa2).2.2 with h | h <;> simp [h]
  · simp [Client.ft_sig_handler]
  · obtain ⟨pc, calls, g, tr, acks⟩ := p
    cases pc <;> simp [Client.step, Client.ft_sig_handler]
  · simp [ClientBonus.ft_sig_handler_bonus]
  · obtain ⟨pc, calls, vb, g, tr, acks⟩ := pb
    cases pc <;> simp [ClientBonus.step, ClientBonus.ft_sig_handler_bonus]

/-- The command line `./c 4242 Hi`: a run that ends with status 0 on the
delivery of `SIGUSR2`, and a run of acknowledgments only, which does not end. -/
theorem exit_zero_only_on_completion_witness :
    ((Client.exec (Client.main 3 [[46, 47, 99], [52, 50, 52, 50], [72, 105]] 0 0)
        [Client.Event.run 0, Client.Event.signal Signal.SIGUSR2]).pc = Client.Pc.done 0 ∧
      Client.Event.signal Signal.SIGUSR2 ∈
        [Client.Event.run 0, Client.Event.signal Signal.SIGUSR2]) ∧
    (Client.step (Client.main 3 [[46, 47, 99], [52, 50, 52, 50], [72, 105]] 0 0)
        (Client.Event.signal Signal.SIGUSR1)).pc = Client.Pc.clear :=
  ⟨⟨by decide,
      (exit_zero_only_on_completion 3 [[46, 47, 99], [52, 50, 52, 50], [72, 105]] 0 0
        [Client.Event.run 0, Client.Event.signal Signal.SIGUSR2]
        (Client.main 3 [[46, 47, 99], [52, 50, 52, 50], [72, 105]] 0 0)
        (ClientBonus.main 3 [[46, 47, 99], [52, 50, 52, 50], [72, 105]] 0 0)).1 (by decide)⟩,
    (exit_zero_only_on_completion 3 [[46, 47, 99], [52, 50, 52, 50], [72, 105]] 0 0
        [Client.Event.run 0, Client.Event.signal Signal.SIGUSR2]
        (Client.main 3 [[46, 47, 99], [52, 50, 52, 50], [72, 105]] 0 0)
        (ClientBonus.main 3 [[46, 47, 99], [52, 50, 52, 50], [72, 105]] 0 0)).2.2.1.2⟩

/-- After eight shifts nothing is left of what the accumulator held before. -/
theorem fold_eight (evs : List (Signal × Int)) (hlen : evs.length = 8) (c0 : Nat) :
    evs.foldl (fun c e => (2 * c + signal_bit e.1) % 256) c0 = signals_byte evs := by
  match evs, hlen with
  | [e1, e2, e3, e4, e5, e6, e7, e8], _ =>
    have h1 := signal_bit_lt e1.1
    have h2 := signal_bit_lt e2.1
    have h3 := signal_bit_lt e3.1
    have h4 := signal_bit_lt e4.1
    have h5 := signal_bit_lt e5.1
    have h6 := signal_bit_lt e6.1
    have h7 := signal_bit_lt e7.1
    have h8 := signal_bit_lt e8.1
    simp only [signals_byte, List.foldl]
    omega

namespace Server

/-- The bit counter after one call of `ft_receive`. -/
theorem ft_receive_i (s : State) (sig : Signal) (si_pid : Int) :
    (ft_receive s sig si_pid).1.i = if s.i + 1 = 8 then 0 else s.i + 1 := by
  simp only [ft_receive, ft_handle_char]
  split_ifs <;> simp_all

/-- The bit counter after any sequence of signals, whoever sent them. -/
theorem run_i (evs : List (Signal × Int)) :
    ∀ s : State, s.i < 8 → (run s evs).1.i = (s.i + evs.length) % 8 := by
  induction evs with
  | nil => intro s hs; simp [run]; omega
  | cons e evs ih =>
    intro s hs
    obtain ⟨sig, pid⟩ := e
    have h := ft_receive_i s sig pid
    simp only [run]
    rw [ih _ (by rw [h]; split_ifs <;> omega), h, List.length_cons]
    split_ifs <;> omega

/-- The message bytes written by one call of `ft_receive`: one when the bit
completes a byte (a newline for the zero byte), none otherwise. -/
theorem ft_receive_console (s : State) (sig : Signal) (si_pid : Int) :
    console (ft_receive s sig si_pid).2 =
      if s.i + 1 = 8 then
        [if (2 * s.c + signal_bit sig) % 256 = 0 then 10
         else (2 * s.c + signal_bit sig) % 256]
      else [] := by
  cases sig <;>
    simp only [ft_receive, ft_handle_char, signal_bit] <;>
    split_ifs <;> simp_all [console, console_append, shl_byte, lor_one_byte]

/-- Bits that stop short of completing a byte write nothing. -/
theorem run_console_short (evs : List (Signal × Int)) :
    ∀ s : State, s.i + evs.length < 8 → console (run s evs).2 = [] := by
  induction evs with
  | nil => intro s _; rfl
  | cons e evs ih =>
    intro s hs
    obtain ⟨sig, pid⟩ := e
    simp only [List.length_cons] at hs
    simp only [run, console_append, ft_receive_console, if_neg (show s.i + 1 ≠ 8 by omega)]
    rw [ih _ (by rw [ft_receive_i, if_neg (show s.i + 1 ≠ 8 by omega)]; omega)]
    rfl

/-- Eight bits received from a byte boundary, whoever sent them: the byte they
spell is written by the call for the eighth bit (a newline for the zero byte),
it stays in the accumulator, and the bit counter is back at 0. -/
theorem run_eight_any (evs : List (Signal × Int)) (s : State) (hi : s.i = 0)
    (hlen : evs.length = 8) :
    console (run s evs).2 = [if signals_byte evs = 0 then 10 else signals_byte evs] ∧
      (run s evs).1.i = 0 ∧ (run s evs).1.c = signals_byte evs := by
  refine ⟨?_, ?_, ?_⟩
  · have hne : evs ≠ [] := by intro h; simp [h] at hlen
    have hb := fold_eight evs hlen s.c
    obtain ⟨front, last, rfl⟩ : ∃ front last, evs = front ++ [last] :=
      ⟨evs.dropLast, evs.getLast hne, (List.dropLast_append_getLast hne).symm⟩
    have hfl : front.length = 7 := by simpa using hlen
    obtain ⟨sig, pid⟩ := last
    rw [run_append, console_append, run_console_short front s (by omega)]
    simp only [run, List.nil_append, List.append_nil, ft_receive_console]
    rw [run_i front s (by omega), run_c, hi, hfl]
    simp only [List.foldl_append, List.foldl_cons, List.foldl_nil] at hb
    simp [hb]
  · rw [run_i evs s (by omega), hi, hlen]
  · rw [run_c, fold_eight evs hlen]

end Server

namespace ServerBonus

/-- The bit counter and the accumulator of the bonus receiver along any
sequence of signals are those of the mandatory receiver. -/
theorem run_bonus_i_c (evs : List (Signal × Int)) :
    (run init evs).1.i = (Server.run Server.init evs).1.i ∧
      (run init evs).1.c = (Server.run Server.init evs).1.c := by
  have h := to_server_run evs init
  exact ⟨congrArg Server.State.i h, congrArg Server.State.c h⟩

end ServerBonus

/-- C15: in every state that the receiver (mandatory or bonus) reaches from
its initial state, whatever signals arrive and whoever sends them, the bit
counter `i` is at most 7 between two handler calls, in fact the number of bits
received so far modulo 8, and it is 0 right after a bit that completes a
byte, that is a bit received with `i = 7`. -/
theorem bit_counter_range (evs : List (Signal × Int)) (sig : Signal) (si_pid : Int) :
    ((Server.run Server.init evs).1.i ≤ 7 ∧
      (Server.run Server.init evs).1.i = evs.length % 8 ∧
      ((Server.run Server.init evs).1.i = 7 →
        (Server.run Server.init (evs ++ [(sig, si_pid)])).1.i = 0)) ∧
    ((ServerBonus.run ServerBonus.init evs).1.i ≤ 7 ∧
      (ServerBonus.run ServerBonus.init evs).1.i = evs.length % 8 ∧
      ((ServerBonus.run ServerBonus.init evs).1.i = 7 →
        (ServerBonus.run ServerBonus.init (evs ++ [(sig, si_pid)])).1.i = 0)) := by
  have hi : ∀ l : List (Signal × Int), (Server.run Server.init l).1.i = l.length % 8 := by
    intro l
    rw [Server.run_i l Server.init (by decide)]
    simp [Server.init]
  have key : (Server.run Server.init evs).1.i ≤ 7 ∧
      (Server.run Server.init evs).1.i = evs.length % 8 ∧
      ((Server.run Server.init evs).1.i = 7 →
        (Server.run Server.init (evs ++ [(sig, si_pid)])).1.i = 0) := by
    refine ⟨by rw [hi]; omega, hi evs, ?_⟩
    intro h7
    rw [hi] at h7
    rw [hi, List.length_append, List.length_singleton]
    omega
  refine ⟨key, ?_⟩
  rw [(ServerBonus.run_bonus_i_c evs).1, (ServerBonus.run_bonus_i_c (evs ++ [(sig, si_pid)])).1]
  exact key

/-- The bit counter after seven bits of the byte `A`, and after the eighth. -/
theorem bit_counter_range_witness :
    (Server.run Server.init
        ((Client.arrivals 77 (Client.ft_send_char 4242 65)).take 7)).1.i = 7 ∧
      (Server.run Server.init
        ((Client.arrivals 77 (Client.ft_send_char 4242 65)).take 7 ++
          [(Signal.SIGUSR2, 77)])).1.i = 0 :=
  ⟨by decide,
    (bit_counter_range ((Client.arrivals 77 (Client.ft_send_char 4242 65)).take 7)
      Signal.SIGUSR2 77).1.2.2 (by decide)⟩

/-- C16, the claim fails after the byte `A`: the receivers, mandatory and
bonus, are back at bit count 0 with 0x41 still in the accumulator. -/
theorem accumulator_not_reset :
    ((Server.run Server.init (Client.arrivals 77 (Client.ft_send_char 4242 65))).1.i = 0 ∧
      (Server.run Server.init (Client.arrivals 77 (Client.ft_send_char 4242 65))).1.c = 65) ∧
    ((ServerBonus.run ServerBonus.init
        (ClientBonus.arrivals 77 (ClientBonus.ft_send_char_bonus 4242 65))).1.i = 0 ∧
      (ServerBonus.run ServerBonus.init
        (ClientBonus.arrivals 77 (ClientBonus.ft_send_char_bonus 4242 65))).1.c = 65) := by
  decide

/-- C16 as amended: the accumulator is not reset when a byte completes. In
every state that the receiver (mandatory or bonus) reaches from its initial
state with the bit counter at 0 after at least one byte, the accumulator holds
the byte just completed, the one spelled by the last eight bits; what it held
before those eight bits has been shifted out. It is therefore 0 only at the
start and after a zero byte. -/
theorem accumulator_holds_last_byte (front last : List (Signal × Int))
    (hfront : front.length % 8 = 0) (hlast : last.length = 8) :
    ((Server.run Server.init (front ++ last)).1.i = 0 ∧
      (Server.run Server.init (front ++ last)).1.c = signals_byte last) ∧
    ((ServerBonus.run ServerBonus.init (front ++ last)).1.i = 0 ∧
      (ServerBonus.run ServerBonus.init (front ++ last)).1.c = signals_byte last) ∧
    (Server.init.c = 0 ∧ ServerBonus.init.c = 0) := by
  have key : (Server.run Server.init (front ++ last)).1.i = 0 ∧
      (Server.run Server.init (front ++ last)).1.c = signals_byte last := by
    have hi : (Server.run Server.init front).1.i = 0 := by
      rw [Server.run_i front Server.init (by decide)]
      simpa [Server.init] using hfront
    have h := Server.run_eight_any last (Server.run Server.init front).1 hi hlast
    rw [Server.run_append]
    exact ⟨h.2.1, h.2.2⟩
  refine ⟨key, ?_, rfl, rfl⟩
  rw [(ServerBonus.run_bonus_i_c (front ++ last)).1, (ServerBonus.run_bonus_i_c (front ++ last)).2]
  exact key

/-- The accumulator after the bytes `H` and `i`: it holds `i` (0x69). -/
theorem accumulator_holds_last_byte_witness :
    (Server.run Server.init
        (Client.arrivals 77 (Client.ft_send_char 4242 72) ++
          Client.arrivals 77 (Client.ft_send_char 4242 105))).1.i = 0 ∧
      (Server.run Server.init
        (Client.arrivals 77 (Client.ft_send_char 4242 72) ++
          Client.arrivals 77 (Client.ft_send_char 4242 105))).1.c =
        signals_byte (Client.arrivals 77 (Client.ft_send_char 4242 105)) ∧
      signals_byte (Client.arrivals 77 (Client.ft_send_char 4242 105)) = 105 :=
  ⟨(accumulator_holds_last_byte (Client.arrivals 77 (Client.ft_send_char 4242 72))
      (Client.arrivals 77 (Client.ft_send_char 4242 105)) (by decide) (by decide)).1.1,
    (accumulator_holds_last_byte (Client.arrivals 77 (Client.ft_send_char 4242 72))
      (Client.arrivals 77 (Client.ft_send_char 4242 105)) (by decide) (by decide)).1.2,
    by decide⟩

/-- C17: whatever bit stream the receiver gets from its initial state and
whoever sends it, once the first `k` groups of eight bits have arrived, each
spelling a non-zero byte, the message bytes written to the console are exactly
those `k` bytes, and up to seven further bits add nothing. A handler call
writes a message byte only for a bit that completes a byte, and then it writes
that byte. -/
theorem bytes_written_as_completed (chunks : List (List (Signal × Int)))
    (extra : List (Signal × Int)) (s : Server.State) (sig : Signal) (si_pid : Int)
    (h8 : ∀ ch ∈ chunks, ch.length = 8) (hnz : ∀ ch ∈ chunks, signals_byte ch ≠ 0)
    (hextra : extra.length < 8) :
    (console (Server.run Server.init chunks.flatten).2 = chunks.map signals_byte ∧
      console (Server.run Server.init (chunks.flatten ++ extra)).2 =
        chunks.map signals_byte) ∧
    (s.i + 1 ≠ 8 → console (Server.ft_receive s sig si_pid).2 = []) ∧
    (s.i + 1 = 8 → (2 * s.c + signal_bit sig) % 256 ≠ 0 →
      console (Server.ft_receive s sig si_pid).2 = [(2 * s.c + signal_bit sig) % 256]) := by
  have gen : ∀ (cs : List (List (Signal × Int))) (s0 : Server.State),
      (∀ ch ∈ cs, ch.length = 8) → (∀ ch ∈ cs, signals_byte ch ≠ 0) → s0.i = 0 →
      console (Server.run s0 cs.flatten).2 = cs.map signals_byte ∧
        (Server.run s0 cs.flatten).1.i = 0 := by
    intro cs
    induction cs with
    | nil => intro s0 _ _ hi; exact ⟨rfl, hi⟩
    | cons ch cs ih =>
      intro s0 hl hz hi
      have h := Server.run_eight_any ch s0 hi (hl ch (by simp))
      have ih2 := ih (Server.run s0 ch).1 (fun x hx => hl x (by simp [hx]))
        (fun x hx => hz x (by simp [hx])) h.2.1
      simp only [List.flatten_cons, Server.run_append, Server.console_append, h.1, ih2.1, ih2.2,
        if_neg (hz ch (by simp)), List.map_cons, List.singleton_append, and_self]
  have hg := gen chunks Server.init h8 hnz rfl
  refine ⟨⟨hg.1, ?_⟩, ?_, ?_⟩
  · rw [Server.run_append, Server.console_append, hg.1,
      Server.run_console_short extra _ (by rw [hg.2]; omega), List.append_nil]
  · intro h
    rw [Server.ft_receive_console, if_neg h]
  · intro h hc
    rw [Server.ft_receive_console, if_pos h, if_neg hc]

/-- The stream of `H`, `i` and three more bits: exactly `H` and `i` have been
written. -/
theorem bytes_written_as_completed_witness :
    console (Server.run Server.init
        ([Client.arrivals 77 (Client.ft_send_char 4242 72),
          Client.arrivals 78 (Client.ft_send_char 4242 105)].flatten ++
          [(Signal.SIGUSR2, 77), (Signal.SIGUSR1, 78), (Signal.SIGUSR2, 77)])).2 =
      [72, 105] :=
  (bytes_written_as_completed
    [Client.arrivals 77 (Client.ft_send_char 4242 72),
     Client.arrivals 78 (Client.ft_send_char 4242 105)]
    [(Signal.SIGUSR2, 77), (Signal.SIGUSR1, 78), (Signal.SIGUSR2, 77)]
    Server.init Signal.SIGUSR1 77 (by decide) (by decide) (by decide)).1.2

theorem wrap_int_idem (x : Int) : wrap_int (wrap_int x) = wrap_int x := by
  simp only [wrap_int]; omega

theorem wrap_int_of_range (x : Int) (h1 : -2147483648 ≤ x) (h2 : x ≤ 2147483647) :
    wrap_int x = x := by
  simp only [wrap_int]; omega

theorem wrap_int_step (a b : Int) : wrap_int (wrap_int a * 10 + b) = wrap_int (a * 10 + b) := by
  simp only [wrap_int]; omega

/-- The digit loop computes, modulo `2 ^ 32`, the number that continues the
decimal numeral read so far. -/
theorem ft_atoi_digits_fold (d : List Nat) (hd : ∀ c ∈ d, 48 ≤ c ∧ c ≤ 57) :
    ∀ a : Int, ft_atoi_digits (wrap_int a) d =
      wrap_int (d.foldl (fun (v : Int) (c : Nat) => v * 10 + ((c : Int) - 48)) a) := by
  induction d with
  | nil => intro a; rfl
  | cons c d ih =>
    intro a
    simp only [ft_atoi_digits, if_pos (hd c (by simp)), List.foldl_cons, wrap_int_step]
    exact ih (fun x hx => hd x (by simp [hx])) _

theorem decimal_fold_cast (d : List Nat) (hd : ∀ c ∈ d, 48 ≤ c ∧ c ≤ 57) :
    ∀ a : Nat, d.foldl (fun (v : Int) (c : Nat) => v * 10 + ((c : Int) - 48)) (a : Int) =
      ((d.foldl (fun v c => v * 10 + (c - 48)) a : Nat) : Int) := by
  induction d with
  | nil => intro a; rfl
  | cons c d ih =>
    intro a
    have hc := hd c (by simp)
    simp only [List.foldl_cons]
    rw [← ih (fun x hx => hd x (by simp [hx])) (a * 10 + (c - 48))]
    congr 1
    push_cast
    omega

/-- The digit loop entered with 0 on a run of digits: the value of the
numeral, modulo `2 ^ 32`. -/
theorem ft_atoi_digits_value (d : List Nat) (hd : ∀ c ∈ d, 48 ≤ c ∧ c ≤ 57) :
    ft_atoi_digits 0 d = wrap_int (decimal_value d) := by
  have h := ft_atoi_digits_fold d hd 0
  have h0 : wrap_int 0 = 0 := by decide
  rw [h0] at h
  rw [h]
  have := decimal_fold_cast d hd 0
  simp only [Nat.cast_zero] at this
  rw [this]
  rfl

/-- The two space-skipping loops skip the same characters. -/
theorem ft_atoi_bonus_spaces_eq (str : List Nat) :
    ft_atoi_bonus_spaces str = ft_atoi_spaces str := by
  induction str with
  | nil => rfl
  | cons c rest ih =>
    simp only [ft_atoi_bonus_spaces, ft_atoi_spaces, ih, ft_isspace]
    by_cases h : c = 32 ∨ (9 ≤ c ∧ c ≤ 13)
    · have : (decide (c = 32) || decide (c = 9) || decide (c = 10) || decide (c = 11) ||
          decide (c = 12) || decide (c = 13)) = true := by
        simp only [Bool.or_eq_true, decide_eq_true_eq]; omega
      rw [if_pos h, if_pos this]
    · have : (decide (c = 32) || decide (c = 9) || decide (c = 10) || decide (c = 11) ||
          decide (c = 12) || decide (c = 13)) = false := by
        simp only [Bool.or_eq_false_iff, decide_eq_false_iff_not]; omega
      rw [if_neg h, if_neg (by rw [this]; decide)]

/-- The bonus parser computes what the mandatory parser computes. -/
theorem ft_atoi_bonus_eq (str : List Nat) : ft_atoi_bonus str = ft_atoi str := by
  simp only [ft_atoi_bonus, ft_atoi, ft_atoi_bonus_spaces_eq]

/-- On a run of digits `ft_atoi` is the value of the numeral modulo `2 ^ 32`. -/
theorem ft_atoi_numeral (d : List Nat) (hd : ∀ c ∈ d, 48 ≤ c ∧ c ≤ 57) (hne : d ≠ []) :
    ft_atoi d = wrap_int (decimal_value d) := by
  cases d with
  | nil => exact absurd rfl hne
  | cons c rest =>
    rw [ft_atoi_of_digit c rest (hd c (by simp)), ft_atoi_digits_value _ hd, Int.one_mul,
      wrap_int_idem]

/-- C11, the claim fails on the argument `4294967297`: both senders read it
as pid 1, install their handlers and send the first bit to pid 1. -/
theorem out_of_range_pid_accepted :
    ((Client.main 3 [[46, 47, 99], [52, 50, 57, 52, 57, 54, 55, 50, 57, 55], [72, 105]]
        0 0).pc = Client.Pc.clear ∧
      kills (Client.exec
        (Client.main 3 [[46, 47, 99], [52, 50, 57, 52, 57, 54, 55, 50, 57, 55], [72, 105]]
          0 0)
        [Client.Event.run 0, Client.Event.run 0]).trace = [(1, Signal.SIGUSR1)]) ∧
    ((ClientBonus.main 3 [[46, 47, 99], [52, 50, 57, 52, 57, 54, 55, 50, 57, 55], [72, 105]]
        0 0).pc = ClientBonus.Pc.clear ∧
      kills (ClientBonus.exec
        (ClientBonus.main 3
          [[46, 47, 99], [52, 50, 57, 52, 57, 54, 55, 50, 57, 55], [72, 105]] 0 0)
        [Client.Event.run 0, Client.Event.run 0]).trace = [(1, Signal.SIGUSR1)]) := by
  decide

/-- The bonus `main` with three arguments, by the value `ft_atoi_bonus` gives
the second one. -/
theorem ClientBonus.main_three_bonus (argv : List (List Nat)) (sa1 sa2 : Int) :
    (ft_atoi_bonus (argv.getD 1 []) ≤ 0 →
      (ClientBonus.main 3 argv sa1 sa2).pc = ClientBonus.Pc.done 1 ∧
        (ClientBonus.main 3 argv sa1 sa2).trace =
          [Effect.print_colored "Erreur: PID invalide" COLOR_RED]) ∧
    (0 < ft_atoi_bonus (argv.getD 1 []) → sa1 ≠ -1 → sa2 ≠ -1 →
      (ClientBonus.main 3 argv sa1 sa2).pc = ClientBonus.Pc.clear ∧
        (ClientBonus.main 3 argv sa1 sa2).calls =
          ClientBonus.ft_send_message_bonus (ft_atoi_bonus (argv.getD 1 [])) (argv.getD 2 []) ∧
        kills (ClientBonus.main 3 argv sa1 sa2).trace = []) := by
  constructor
  · intro h
    exact ClientBonus.main_rejects 3 argv sa1 sa2 (Or.inl rfl) h
  · intro h h1 h2
    have hc : ¬ ((3 : Int) < 3 ∨ (3 : Int) > 4) := by decide
    simp only [ClientBonus.main, ClientBonus.ft_check_args, ClientBonus.ft_init_signals,
      if_neg hc, if_neg (not_le.mpr h), if_neg h1, if_neg h2]
    simp [kills]

/-- C11 as amended: `ft_atoi` and `ft_atoi_bonus` have no overflow check, so a
pid argument that is a decimal numeral is read as its value reduced modulo
`2 ^ 32` into the `int` range, whatever its size. Both senders reject it
(return 1 before any `sigaction` or `kill`) when that reduced value is zero or
less, and accept it, addressing the transmission to the reduced value, when it
is positive. -/
theorem out_of_range_pid_wraps (prog d msg : List Nat) (sa1 sa2 : Int)
    (hd : ∀ c ∈ d, 48 ≤ c ∧ c ≤ 57) (hne : d ≠ []) :
    (ft_atoi d = wrap_int (decimal_value d) ∧
      ft_atoi_bonus d = wrap_int (decimal_value d)) ∧
    (wrap_int (decimal_value d) ≤ 0 →
      Client.main 3 [prog, d, msg] sa1 sa2 =
          { pc := Client.Pc.done 1, calls := [], g_signal_received := 0,
            trace := [Effect.write 2 "Error: Invalid PID\n" 18], acks := 0 } ∧
        (ClientBonus.main 3 [prog, d, msg] sa1 sa2).pc = ClientBonus.Pc.done 1 ∧
        (ClientBonus.main 3 [prog, d, msg] sa1 sa2).trace =
          [Effect.print_colored "Erreur: PID invalide" COLOR_RED]) ∧
    (0 < wrap_int (decimal_value d) → sa1 ≠ -1 → sa2 ≠ -1 →
      Client.main 3 [prog, d, msg] sa1 sa2 =
          { pc := Client.Pc.clear,
            calls := Client.ft_send_message (wrap_int (decimal_value d)) msg,
            g_signal_received := 0,
            trace := [Effect.sigaction Signal.SIGUSR1, Effect.sigaction Signal.SIGUSR2],
            acks := 0 } ∧
        (ClientBonus.main 3 [prog, d, msg] sa1 sa2).pc = ClientBonus.Pc.clear ∧
        (ClientBonus.main 3 [prog, d, msg] sa1 sa2).calls =
          ClientBonus.ft_send_message_bonus (wrap_int (decimal_value d)) msg) := by
  have hv := ft_atoi_numeral d hd hne
  have hvb : ft_atoi_bonus d = wrap_int (decimal_value d) := by rw [ft_atoi_bonus_eq, hv]
  have hm := Client.main_three [prog, d, msg] sa1 sa2
  have hmb := ClientBonus.main_three_bonus [prog, d, msg] sa1 sa2
  simp only [List.getD_cons_succ, List.getD_cons_zero] at hm hmb
  rw [hv] at hm
  rw [hvb] at hmb
  refine ⟨⟨hv, hvb⟩, ?_, ?_⟩
  · intro h
    exact ⟨hm.1 h, hmb.1 h⟩
  · intro h h1 h2
    exact ⟨hm.2 h h1 h2, (hmb.2 h h1 h2).1, (hmb.2 h h1 h2).2.1⟩

/-- The pid arguments `4294967297`, read as 1 and accepted, and `4294967296`,
read as 0 and rejected. -/
theorem out_of_range_pid_wraps_witness :
    (ft_atoi [52, 50, 57, 52, 57, 54, 55, 50, 57, 55] = 1 ∧
      Client.main 3 [[46, 47, 99], [52, 50, 57, 52, 57, 54, 55, 50, 57, 55], [72, 105]] 0 0 =
        { pc := Client.Pc.clear, calls := Client.ft_send_message 1 [72, 105],
          g_signal_received := 0,
          trace := [Effect.sigaction Signal.SIGUSR1, Effect.sigaction Signal.SIGUSR2],
          acks := 0 }) ∧
    (ft_atoi [52, 50, 57, 52, 57, 54, 55, 50, 57, 54] = 0 ∧
      Client.main 3 [[46, 47, 99], [52, 50, 57, 52, 57, 54, 55, 50, 57, 54], [72, 105]] 0 0 =
        { pc := Client.Pc.done 1, calls := [], g_signal_received := 0,
          trace := [Effect.write 2 "Error: Invalid PID\n" 18], acks := 0 }) :=
  ⟨⟨(out_of_range_pid_wraps [46, 47, 99] [52, 50, 57, 52, 57, 54, 55, 50, 57, 55] [72, 105]
        0 0 (by decide) (by decide)).1.1,
      ((out_of_range_pid_wraps [46, 47, 99] [52, 50, 57, 52, 57, 54, 55, 50, 57, 55] [72, 105]
        0 0 (by decide) (by decide)).2.2 (by decide) (by decide) (by decide)).1⟩,
    ⟨(out_of_range_pid_wraps [46, 47, 99] [52, 50, 57, 52, 57, 54, 55, 50, 57, 54] [72, 105]
        0 0 (by decide) (by decide)).1.1,
      ((out_of_range_pid_wraps [46, 47, 99] [52, 50, 57, 52, 57, 54, 55, 50, 57, 54] [72, 105]
        0 0 (by decide) (by decide)).2.1 (by decide)).1⟩⟩

theorem ft_isspace_digit (c : Nat) (hc : 48 ≤ c ∧ c ≤ 57) : ft_isspace c = false := by
  simp only [ft_isspace, Bool.or_eq_false_iff, decide_eq_false_iff_not]
  omega

/-- The space-skipping loop consumes a run of whitespace and stops at the
first other character. -/
theorem ft_atoi_spaces_skip (w x : List Nat) (hw : ∀ c ∈ w, ft_isspace c = true)
    (hx : ∀ c, x.head? = some c → ft_isspace c = false) :
    ft_atoi_spaces (w ++ x) = x := by
  induction w with
  | nil =>
    cases x with
    | nil => rfl
    | cons c x => simp only [List.nil_append, ft_atoi_spaces, hx c rfl, Bool.false_eq_true,
        if_false]
  | cons c w ih =>
    simp only [List.cons_append, ft_atoi_spaces, hw c (by simp), if_true]
    exact ih (fun y hy => hw y (by simp [hy]))

/-- The digit loop on a numeral that fits in `int`, followed by anything that
does not start with a digit. -/
theorem ft_atoi_digits_rest (d r : List Nat) (hd : ∀ c ∈ d, 48 ≤ c ∧ c ≤ 57)
    (hv : decimal_value d ≤ 2147483647)
    (hr : ∀ c, r.head? = some c → ¬ (48 ≤ c ∧ c ≤ 57)) :
    ft_atoi_digits 0 (d ++ r) = (decimal_value d : Int) := by
  rw [ft_atoi_digits_append d r hd hr, ft_atoi_digits_value d hd,
    wrap_int_of_range _ (by omega) (by omega)]

/-- C20: on a string made of a run `w` of whitespace characters, a sign `s`
that is empty, `+` or `-`, a run `d` of decimal digits whose value fits in
`int`, and a rest `r` that is empty or starts with a non-digit, `ft_atoi` and
`ft_atoi_bonus` return the value of `d`, negated exactly when `s` is `-`; that
is 0 when `d` is empty. The four parts are read as the documented examples
read them (`-123` is the sign `-` followed by the digits `123`): whitespace
and a sign at the head of the string belong to `w` and `s`, so that, when
both `s` and `d` are empty, `r` does not start with a whitespace character or
a sign (`hamb`). -/
theorem atoi_reads_numeral (w s d r : List Nat)
    (hw : ∀ c ∈ w, ft_isspace c = true)
    (hs : s = [] ∨ s = [43] ∨ s = [45])
    (hd : ∀ c ∈ d, 48 ≤ c ∧ c ≤ 57)
    (hv : decimal_value d ≤ 2147483647)
    (hr : ∀ c, r.head? = some c → ¬ (48 ≤ c ∧ c ≤ 57))
    (hamb : s = [] → d = [] →
      ∀ c, r.head? = some c → ft_isspace c = false ∧ c ≠ 43 ∧ c ≠ 45) :
    ft_atoi (w ++ s ++ d ++ r) =
        (if s = [45] then -(decimal_value d : Int) else (decimal_value d : Int)) ∧
      ft_atoi_bonus (w ++ s ++ d ++ r) =
        (if s = [45] then -(decimal_value d : Int) else (decimal_value d : Int)) ∧
      (d = [] → ft_atoi (w ++ s ++ d ++ r) = 0 ∧ ft_atoi_bonus (w ++ s ++ d ++ r) = 0) := by
  have key : ft_atoi (w ++ s ++ d ++ r) =
      (if s = [45] then -(decimal_value d : Int) else (decimal_value d : Int)) := by
    have hdig := ft_atoi_digits_rest d r hd hv hr
    rcases hs with rfl | rfl | rfl
    · -- no sign
      cases d with
      | nil =>
        have ha := hamb rfl rfl
        simp only [List.append_nil, List.nil_append] at hdig ⊢
        rw [ft_atoi, ft_atoi_spaces_skip w r hw (fun c hc => (ha c hc).1)]
        cases r with
        | nil => decide
        | cons c r =>
          have hc := ha c rfl
          have hns : ¬ (c = 45 ∨ c = 43) := by omega
          simp only [ft_atoi_sign, if_neg hns, hdig]
          decide
      | cons c d =>
        have hc := hd c (by simp)
        have hns : ¬ (c = 45 ∨ c = 43) := by omega
        simp only [List.append_nil, List.append_assoc, List.cons_append] at hdig ⊢
        rw [ft_atoi, ft_atoi_spaces_skip w _ hw
          (fun x hx => by simp only [List.head?_cons, Option.some.injEq] at hx
                          rw [← hx]; exact ft_isspace_digit c hc)]
        simp only [ft_atoi_sign, if_neg hns, hdig, Int.one_mul]
        rw [wrap_int_of_range _ (by omega) (by omega)]
        simp
    · -- a plus sign
      have hplus : ft_atoi_sign (43 :: (d ++ r)) = (1, d ++ r) := by simp [ft_atoi_sign]
      simp only [List.append_assoc, List.cons_append, List.nil_append]
      rw [ft_atoi, ft_atoi_spaces_skip w _ hw
        (fun x hx => by simp only [List.head?_cons, Option.some.injEq] at hx
                        rw [← hx]; decide), hplus]
      simp only [hdig, Int.one_mul]
      rw [wrap_int_of_range _ (by omega) (by omega)]
      simp
    · -- a minus sign
      have hminus : ft_atoi_sign (45 :: (d ++ r)) = (-1, d ++ r) := by simp [ft_atoi_sign]
      simp only [List.append_assoc, List.cons_append, List.nil_append]
      rw [ft_atoi, ft_atoi_spaces_skip w _ hw
        (fun x hx => by simp only [List.head?_cons, Option.some.injEq] at hx
                        rw [← hx]; decide), hminus]
      simp only [hdig]
      rw [wrap_int_of_range _ (by omega) (by omega)]
      simp
  refine ⟨key, by rw [ft_atoi_bonus_eq, key], ?_⟩
  intro hnil
  rw [ft_atoi_bonus_eq, key, hnil]
  simp [decimal_value]

/-- The documented examples: two spaces then `42`, `-123`, `+999`, `abc`, and
two spaces then `+42abc`. -/
theorem atoi_reads_numeral_witness :
    ft_atoi_bonus [32, 32, 52, 50] = 42 ∧
      ft_atoi_bonus [45, 49, 50, 51] = -123 ∧
      ft_atoi_bonus [43, 57, 57, 57] = 999 ∧
      ft_atoi_bonus [97, 98, 99] = 0 ∧
      ft_atoi_bonus [32, 32, 43, 52, 50, 97, 98, 99] = 42 ∧
      ft_atoi [32, 32, 43, 52, 50, 97, 98, 99] = 42 :=
  ⟨(atoi_reads_numeral [32, 32] [] [52, 50] [] (by decide) (by decide) (by decide)
      (by decide) (by decide) (by decide)).2.1,
    (atoi_reads_numeral [] [45] [49, 50, 51] [] (by decide) (by decide) (by decide)
      (by decide) (by decide) (by decide)).2.1,
    (atoi_reads_numeral [] [43] [57, 57, 57] [] (by decide) (by decide) (by decide)
      (by decide) (by decide) (by decide)).2.1,
    (atoi_reads_numeral [] [] [] [97, 98, 99] (by decide) (by decide) (by decide)
      (by decide) (by decide) (by decide)).2.1,
    (atoi_reads_numeral [32, 32] [43] [52, 50] [97, 98, 99] (by decide) (by decide)
      (by decide) (by decide) (by decide) (by decide)).2.1,
    (atoi_reads_numeral [32, 32] [43] [52, 50] [97, 98, 99] (by decide) (by decide)
      (by decide) (by decide) (by decide) (by decide)).1⟩

/-- C19, the code at the inputs where it departs from the claim: with the
fourth argument `-vx`, `ft_check_args` returns 1 and sets `verbose` to 1; with
the fourth argument `abc` it returns 1 (with `verbose` at 0); the command line
is accepted in both cases and the transmission to pid 4242 starts. -/
theorem check_args_verbose_not_exact :
    (ClientBonus.ft_check_args 4
        [[46, 47, 99], [52, 50, 52, 50], [72, 105], [45, 118, 120]] = (1, 1, 4242, []) ∧
      ClientBonus.ft_check_args 4
        [[46, 47, 99], [52, 50, 52, 50], [72, 105], [97, 98, 99]] = (1, 0, 4242, [])) ∧
    ((ClientBonus.main 4
        [[46, 47, 99], [52, 50, 52, 50], [72, 105], [45, 118, 120]] 0 0).pc =
        ClientBonus.Pc.clear ∧
      (ClientBonus.main 4
        [[46, 47, 99], [52, 50, 52, 50], [72, 105], [45, 118, 120]] 0 0).verbose = 1 ∧
      (ClientBonus.main 4
        [[46, 47, 99], [52, 50, 52, 50], [72, 105], [97, 98, 99]] 0 0).pc =
        ClientBonus.Pc.clear) := by
  decide

/-- On a positive number `ft_putnbr_bonus` writes its decimal text. -/
theorem ft_putnbr_bonus_pos (n : Nat) (hn : 0 < n) :
    ft_putnbr_bonus (n : Int) = decimal_text n := by
  induction n using Nat.strong_induction_on with
  | _ n ih =>
    rw [ft_putnbr_bonus]
    have hneg : ¬ ((n : Int) < 0) := by omega
    rw [if_neg hneg]
    by_cases h10 : 10 ≤ n
    · have h10' : (10 : Int) ≤ (n : Int) := by omega
      rw [if_pos h10']
      have hq : ((n : Int) / 10) = ((n / 10 : Nat) : Int) := by omega
      have hr : ((n : Int) % 10) = ((n % 10 : Nat) : Int) := by omega
      rw [hq, hr, ih (n / 10) (by omega) (by omega)]
      have hlast : ft_putnbr_bonus ((n % 10 : Nat) : Int) = [n % 10 + 48] := by
        rw [ft_putnbr_bonus]
        have h1 : ¬ (((n % 10 : Nat) : Int) < 0) := by omega
        have h2 : ¬ ((10 : Int) ≤ ((n % 10 : Nat) : Int)) := by omega
        rw [if_neg h1, if_neg h2]
        congr 1
      rw [hlast]
      simp only [decimal_text]
      rw [Nat.digits_def' (by norm_num) hn]
      simp
    · have h10' : ¬ ((10 : Int) ≤ (n : Int)) := by omega
      rw [if_neg h10']
      simp only [decimal_text]
      rw [Nat.digits_of_lt 10 n (by omega) (by omega)]
      simp
      omega

theorem connection_reports_append (xs ys : List Effect) :
    connection_reports (xs ++ ys) = connection_reports xs ++ connection_reports ys := by
  induction xs with
  | nil => rfl
  | cons e xs ih => cases e <;> simp [connection_reports, ih]

namespace ServerBonus

/-- One call of `ft_receive_bonus` prints a new-connection report, for the
pid of the sender, exactly when `client_pid` is 0 on entry. -/
theorem ft_receive_bonus_reports (s : State) (sig : Signal) (si_pid : Int) :
    connection_reports (ft_receive_bonus s sig si_pid).2 =
      if s.stats.client_pid = 0 then [si_pid] else [] := by
  simp only [ft_receive_bonus, ft_handle_char_bonus, ft_handle_new_client]
  split_ifs <;> simp_all [connection_reports, connection_reports_append]

/-- The first bit of a session: `client_pid` is set to the pid of the sender
and the report is printed, then the call goes on as for an open session. -/
theorem ft_receive_bonus_first (s : State) (sig : Signal) (p : Int) (hp : p ≠ 0)
    (hcp : s.stats.client_pid = 0) :
    (ft_receive_bonus s sig p).2 =
        [Effect.putstr COLOR_YELLOW,
         Effect.putstr (ARROW_MARK ++ " Nouvelle connexion client (PID: "),
         Effect.putnbr p, Effect.putstr ")\n", Effect.putstr COLOR_RESET] ++
          (ft_receive_bonus { s with stats := { s.stats with client_pid := p } } sig p).2 ∧
      (ft_receive_bonus s sig p).1 =
        (ft_receive_bonus { s with stats := { s.stats with client_pid := p } } sig p).1 := by
  simp only [ft_receive_bonus, ft_handle_new_client, hcp, if_true, if_neg hp]
  constructor
  · split_ifs <;> simp
  · split_ifs <;> rfl

/-- The reports of a sequence of signals during which `client_pid` is never 0
between two calls: at most one, for the first signal. -/
theorem run_bonus_reports (evs : List (Signal × Int)) :
    ∀ s : State,
      (∀ front back, front ++ back = evs → front ≠ [] → back ≠ [] →
        (run s front).1.stats.client_pid ≠ 0) →
      connection_reports (run s evs).2 =
        match evs with
        | [] => []
        | e :: _ => if s.stats.client_pid = 0 then [e.2] else [] := by
  induction evs with
  | nil => intro s _; rfl
  | cons e rest ih =>
    intro s h
    obtain ⟨sig, pid⟩ := e
    simp only [run, connection_reports_append, ft_receive_bonus_reports]
    have hrest : connection_reports (run (ft_receive_bonus s sig pid).1 rest).2 = [] := by
      rw [ih (ft_receive_bonus s sig pid).1
        (fun front back hfb hf hb => by
          have := h ((sig, pid) :: front) back (by simp [hfb]) (by simp) hb
          simpa [run] using this)]
      cases rest with
      | nil => rfl
      | cons e2 rest2 =>
        have := h [(sig, pid)] (e2 :: rest2) rfl (by simp) (by simp)
        simp only [run] at this
        simp only [if_neg this]
    rw [hrest, List.append_nil]

end ServerBonus

/-- C18: in the bonus receiver, a bit that arrives while `client_pid` is 0,
from a sender with pid `p > 0`, sets `client_pid` to `p` and prints the
new-connection report, whose number is written by `ft_putnbr_bonus(p)` as the
decimal text of `p`, before the bit is accumulated: the rest of the call is
the call for an open session of `p`. A bit that arrives while `client_pid` is
not 0 prints no report. A session of `n` non-zero bytes plus the terminator
from one sender, received from the initial state, prints exactly one report,
for that sender. -/
theorem new_connection_report (s : ServerBonus.State) (sig : Signal) (p si_pid pid : Int)
    (m : List Nat) (hp : 0 < p) (h0 : ∀ b ∈ m, b ≠ 0) (h256 : ∀ b ∈ m, b < 256) :
    (s.stats.client_pid = 0 →
      (ServerBonus.ft_handle_new_client s p).1.stats.client_pid = p ∧
      (ServerBonus.ft_receive_bonus s sig p).2 =
        [Effect.putstr COLOR_YELLOW,
         Effect.putstr (ARROW_MARK ++ " Nouvelle connexion client (PID: "),
         Effect.putnbr p, Effect.putstr ")\n", Effect.putstr COLOR_RESET] ++
          (ServerBonus.ft_receive_bonus
            { s with stats := { s.stats with client_pid := p } } sig p).2 ∧
      (ServerBonus.ft_receive_bonus s sig p).1 =
        (ServerBonus.ft_receive_bonus
          { s with stats := { s.stats with client_pid := p } } sig p).1) ∧
    ft_putnbr_bonus p = decimal_text p.toNat ∧
    (s.stats.client_pid ≠ 0 →
      connection_reports (ServerBonus.ft_receive_bonus s sig si_pid).2 = []) ∧
    connection_reports (ServerBonus.run ServerBonus.init
      (ClientBonus.arrivals p (ClientBonus.ft_send_message_bonus pid m))).2 = [p] := by
  have hp0 : p ≠ 0 := by omega
  refine ⟨?_, ?_, ?_, ?_⟩
  · intro hcp
    exact ⟨rfl, ServerBonus.ft_receive_bonus_first s sig p hp0 hcp⟩
  · have h := ft_putnbr_bonus_pos p.toNat (by omega)
    rwa [Int.toNat_of_nonneg (by omega)] at h
  · intro hcp
    rw [ServerBonus.ft_receive_bonus_reports, if_neg hcp]
  · rw [ClientBonus.arrivals_message_eq]
    have hlen : (Client.arrivals p (Client.ft_send_message pid m)).length =
        8 * (m.length + 1) := by
      rw [Client.arrivals_length, Client.ft_send_message_length pid m h0]
    have hmid : ∀ front back, front ++ back = Client.arrivals p (Client.ft_send_message pid m) →
        front ≠ [] → back ≠ [] →
        (ServerBonus.run ServerBonus.init front).1.stats.client_pid ≠ 0 := by
      intro front back hfb hf hb
      have h1 := congrArg Server.State.client_pid
        (ServerBonus.to_server_run front ServerBonus.init)
      have h3 : ServerBonus.to_server ServerBonus.init = Server.init := rfl
      rw [h3] at h1
      have h2 := Server.run_front_client_pid pid p hp0 m Server.init front back h0 h256
        (Or.inl rfl) rfl hfb hb
      rw [if_neg hf] at h2
      rw [show (ServerBonus.run ServerBonus.init front).1.stats.client_pid =
        (ServerBonus.to_server (ServerBonus.run ServerBonus.init front).1).client_pid
        from rfl, h1, h2]
      exact hp0
    have hrep := ServerBonus.run_bonus_reports _ ServerBonus.init hmid
    rw [hrep]
    have hsender := Client.arrivals_sender p (Client.ft_send_message pid m)
    cases hstream : Client.arrivals p (Client.ft_send_message pid m) with
    | nil => rw [hstream] at hlen; simp at hlen
    | cons e rest =>
      have he : e.2 = p := hsender e (by rw [hstream]; simp)
      simp [ServerBonus.init, he]

/-- The first bit of sender 4242 at the initial state, the text `4242`, and
the single report of the session `Hi` of sender 77. -/
theorem new_connection_report_witness :
    ((ServerBonus.ft_receive_bonus ServerBonus.init Signal.SIGUSR1 4242).2 =
        [Effect.putstr COLOR_YELLOW,
         Effect.putstr (ARROW_MARK ++ " Nouvelle connexion client (PID: "),
         Effect.putnbr 4242, Effect.putstr ")\n", Effect.putstr COLOR_RESET] ++
          (ServerBonus.ft_receive_bonus
            { ServerBonus.init with
              stats := { ServerBonus.init.stats with client_pid := 4242 } }
            Signal.SIGUSR1 4242).2) ∧
    (ft_putnbr_bonus 4242 = decimal_text 4242 ∧ decimal_text 4242 = [52, 50, 52, 50]) ∧
    connection_reports (ServerBonus.run ServerBonus.init
      (ClientBonus.arrivals 77 (ClientBonus.ft_send_message_bonus 4242 [72, 105]))).2 =
      [77] :=
  ⟨((new_connection_report ServerBonus.init Signal.SIGUSR1 4242 4242 4242 [72, 105]
      (by decide) (by decide) (by decide)).1 rfl).2.1,
    ⟨(new_connection_report ServerBonus.init Signal.SIGUSR1 4242 4242 4242 [72, 105]
      (by decide) (by decide) (by decide)).2.1, by simp [decimal_text]⟩,
    (new_connection_report ServerBonus.init Signal.SIGUSR1 77 77 4242 [72, 105]
      (by decide) (by decide) (by decide)).2.2.2⟩

/-! ## Several signs -/

/-- C29, the code on the inputs `--5` and `+-5`: the digit run is worth 5 and
the first sign is `-`, respectively `+`, but `ft_atoi` (and `ft_atoi_bonus`)
returns 0, neither -5 nor 5. -/
theorem double_sign_not_skipped :
    decimal_value [53] = 5 ∧
      (ft_atoi [45, 45, 53] = 0 ∧ ft_atoi [45, 45, 53] ≠ -5) ∧
      (ft_atoi [43, 45, 53] = 0 ∧ ft_atoi [43, 45, 53] ≠ 5) ∧
      ft_atoi_bonus [45, 45, 53] = 0 ∧ ft_atoi_bonus [43, 45, 53] = 0 := by
  decide

/-- On every input that starts with two or more sign characters (`+` or
`-`), `ft_atoi` (and `ft_atoi_bonus`) consumes the first sign only; the second
sign is not a digit and ends the digit loop before any digit is read, so that
0 is returned. Here `rest` is what follows the signs. -/
theorem double_sign_reads_zero (signs rest : List Nat)
    (hs : ∀ c ∈ signs, c = 43 ∨ c = 45) (hlen : 2 ≤ signs.length) :
    (ft_atoi (signs ++ rest) = 0 ∧ ft_atoi_bonus (signs ++ rest) = 0) ∧
    (∃ s1 s2 more, signs = s1 :: s2 :: more ∧
      ft_atoi_sign (ft_atoi_spaces (signs ++ rest)) =
        (if s1 = 45 then -1 else 1, s2 :: (more ++ rest)) ∧
      ∀ result : Int, ft_atoi_digits result (s2 :: (more ++ rest)) = result) := by
  match signs, hlen with
  | s1 :: s2 :: more, _ =>
    have h1 : s1 = 43 ∨ s1 = 45 := hs s1 (by simp)
    have h2 : s2 = 43 ∨ s2 = 45 := hs s2 (by simp)
    have hsp : ft_isspace s1 = false := by
      simp only [ft_isspace, Bool.or_eq_false_iff, decide_eq_false_iff_not]
      omega
    have hsign : s1 = 45 ∨ s1 = 43 := by omega
    have hnd : ¬ (48 ≤ s2 ∧ s2 ≤ 57) := by omega
    have key : ft_atoi (s1 :: s2 :: more ++ rest) = 0 := by
      simp only [ft_atoi, List.cons_append, ft_atoi_spaces, hsp, Bool.false_eq_true, if_false,
        ft_atoi_sign, if_pos hsign, ft_atoi_digits, if_neg hnd]
      split_ifs <;> rfl
    refine ⟨⟨key, ?_⟩, ⟨s1, s2, more, rfl, ?_, ?_⟩⟩
    · rw [ft_atoi_bonus_eq]; exact key
    · simp only [List.cons_append, ft_atoi_spaces, hsp, Bool.false_eq_true, if_false,
        ft_atoi_sign, if_pos hsign]
      rfl
    · intro result
      simp only [ft_atoi_digits, if_neg hnd]

/-! ## The two parsers -/

/-- C30: for every string, `ft_atoi` and `ft_atoi_bonus` return the same
value. The characters accepted by `ft_isspace` (space, `\t`, `\n`, `\v`, `\f`,
`\r`) are exactly those skipped by the loop of `ft_atoi_bonus`, 32 and
9 to 13, so that the two space-skipping loops stop at the same place; the sign
test and the digit loop that follow are the same code. -/
theorem atoi_variants_agree (str : List Nat) (c : Nat) :
    ft_atoi str = ft_atoi_bonus str ∧
    (ft_isspace c = true ↔ c = 32 ∨ (9 ≤ c ∧ c ≤ 13)) ∧
    (ft_isspace c = true ↔ c ∈ [32, 9, 10, 11, 12, 13]) ∧
    ft_atoi_spaces str = ft_atoi_bonus_spaces str ∧
    ft_atoi str =
      wrap_int ((ft_atoi_sign (ft_atoi_spaces str)).1 *
        ft_atoi_digits 0 (ft_atoi_sign (ft_atoi_spaces str)).2) ∧
    ft_atoi_bonus str =
      wrap_int ((ft_atoi_sign (ft_atoi_bonus_spaces str)).1 *
        ft_atoi_digits 0 (ft_atoi_sign (ft_atoi_bonus_spaces str)).2) := by
  refine ⟨(ft_atoi_bonus_eq str).symm, ?_, ?_, (ft_atoi_bonus_spaces_eq str).symm, rfl, rfl⟩
  · simp only [ft_isspace, Bool.or_eq_true, decide_eq_true_eq]
    omega
  · simp only [ft_isspace, Bool.or_eq_true, decide_eq_true_eq, List.mem_cons,
      List.mem_singleton, List.mem_nil_iff, or_false]
    tauto

/-- The two parsers on a tab, a space, `-42` and a trailing letter. -/
theorem atoi_variants_agree_witness :
    ft_atoi [9, 32, 45, 52, 50, 120] = -42 ∧ ft_atoi_bonus [9, 32, 45, 52, 50, 120] = -42 ∧
      ft_isspace 11 = true ∧ ft_isspace 14 = false :=
  ⟨by decide, (atoi_variants_agree [9, 32, 45, 52, 50, 120] 11).1 ▸ (by decide),
    by decide, by decide⟩

/-! ## The two receivers in lock step -/

theorem without_reports_append (xs ys : List Effect) :
    without_reports (xs ++ ys) = without_reports xs ++ without_reports ys := by
  induction xs with
  | nil => rfl
  | cons e xs ih => cases e <;> simp [without_reports, ih]

theorem kills_without_reports (xs : List Effect) : kills (without_reports xs) = kills xs := by
  induction xs with
  | nil => rfl
  | cons e xs ih => cases e <;> simp [without_reports, kills, ih]

theorem console_without_reports (xs : List Effect) :
    console (without_reports xs) = console xs := by
  induction xs with
  | nil => rfl
  | cons e xs ih => cases e <;> simp [without_reports, console, ih]

namespace ServerBonus

/-- One call of the bonus handler makes the calls of the mandatory handler,
between its reports. -/
theorem ft_receive_bonus_effects (s : State) (sig : Signal) (si_pid : Int) :
    without_reports (ft_receive_bonus s sig si_pid).2 =
      (Server.ft_receive (to_server s) sig si_pid).2 := by
  obtain ⟨i, c, ⟨ch, bt, cp, vm⟩, g⟩ := s
  by_cases h1 : cp = 0 <;> by_cases h2 : i + 1 = 8 <;> by_cases h3 : si_pid = 0 <;>
    cases sig <;>
    simp [ft_receive_bonus, ft_handle_char_bonus, ft_handle_new_client,
      Server.ft_receive, Server.ft_handle_char, to_server, h1, h2, h3, without_reports] <;>
    try (split_ifs <;> simp_all [without_reports])

theorem run_bonus_effects (evs : List (Signal × Int)) :
    ∀ s : State, without_reports (run s evs).2 = (Server.run (to_server s) evs).2 := by
  induction evs with
  | nil => intro s; rfl
  | cons e evs ih =>
    intro s
    obtain ⟨sig, pid⟩ := e
    simp only [run, Server.run, without_reports_append, ft_receive_bonus_effects, ih,
      to_server_ft_receive_bonus]

end ServerBonus

/-- C28: for every sequence of signals, each with the pid of its sender, the
bonus receiver and the mandatory receiver started from their initial states
are in the same state as far as the mandatory receiver has one: same
accumulator, bit count, `client_pid` (and `g_data`). They send the same
notifications to the same pids, they write the same message bytes, and the
calls of the bonus receiver without its new-connection and statistics reports
are the calls of the mandatory receiver, in the same order. Since this holds
for every sequence, it holds after each event. One call of the handlers keeps
the correspondence from any state. -/
theorem receivers_lock_step (evs : List (Signal × Int)) (s : ServerBonus.State)
    (sig : Signal) (si_pid : Int) :
    (ServerBonus.to_server (ServerBonus.run ServerBonus.init evs).1 =
        (Server.run Server.init evs).1 ∧
      (ServerBonus.run ServerBonus.init evs).1.c = (Server.run Server.init evs).1.c ∧
      (ServerBonus.run ServerBonus.init evs).1.i = (Server.run Server.init evs).1.i ∧
      (ServerBonus.run ServerBonus.init evs).1.stats.client_pid =
        (Server.run Server.init evs).1.client_pid) ∧
    (kills (ServerBonus.run ServerBonus.init evs).2 = kills (Server.run Server.init evs).2 ∧
      console (ServerBonus.run ServerBonus.init evs).2 =
        console (Server.run Server.init evs).2 ∧
      without_reports (ServerBonus.run ServerBonus.init evs).2 =
        (Server.run Server.init evs).2) ∧
    (ServerBonus.to_server (ServerBonus.ft_receive_bonus s sig si_pid).1 =
        (Server.ft_receive (ServerBonus.to_server s) sig si_pid).1 ∧
      without_reports (ServerBonus.ft_receive_bonus s sig si_pid).2 =
        (Server.ft_receive (ServerBonus.to_server s) sig si_pid).2) := by
  have hst := ServerBonus.to_server_run evs ServerBonus.init
  have heff := ServerBonus.run_bonus_effects evs ServerBonus.init
  have h0 : ServerBonus.to_server ServerBonus.init = Server.init := rfl
  rw [h0] at hst heff
  refine ⟨⟨hst, congrArg Server.State.c hst, congrArg Server.State.i hst,
    congrArg Server.State.client_pid hst⟩, ⟨?_, ?_, heff⟩,
    ServerBonus.to_server_ft_receive_bonus s sig si_pid,
    ServerBonus.ft_receive_bonus_effects s sig si_pid⟩
  · rw [← heff, kills_without_reports]
  · rw [← heff, console_without_reports]

/-- The session `A` of sender 77 at both receivers: same final state, and the
calls of the bonus receiver without its reports. -/
theorem receivers_lock_step_witness :
    ServerBonus.to_server (ServerBonus.run ServerBonus.init
        (Client.arrivals 77 (Client.ft_send_message 4242 [65]))).1 =
      (Server.run Server.init (Client.arrivals 77 (Client.ft_send_message 4242 [65]))).1 ∧
    without_reports (ServerBonus.run ServerBonus.init
        (Client.arrivals 77 (Client.ft_send_message 4242 [65]))).2 =
      (Server.run Server.init (Client.arrivals 77 (Client.ft_send_message 4242 [65]))).2 ∧
    console (Server.run Server.init
        (Client.arrivals 77 (Client.ft_send_message 4242 [65]))).2 = [65, 10] :=
  ⟨(receivers_lock_step (Client.arrivals 77 (Client.ft_send_message 4242 [65]))
      ServerBonus.init Signal.SIGUSR1 77).1.1,
    (receivers_lock_step (Client.arrivals 77 (Client.ft_send_message 4242 [65]))
      ServerBonus.init Signal.SIGUSR1 77).2.1.2.2,
    by decide⟩

/-! ## Printing a number -/

/-- On a negative number `ft_putnbr_bonus` writes `-` and then what it writes
for the opposite number. -/
theorem ft_putnbr_bonus_neg (n : Int) (hn : n < 0) :
    ft_putnbr_bonus n = 45 :: ft_putnbr_bonus (-n) := by
  rw [ft_putnbr_bonus, if_pos hn]
  have h1 : ¬ (-n < 0) := by omega
  by_cases h10 : 10 ≤ -n
  · rw [if_pos h10]
    conv_rhs => rw [ft_putnbr_bonus, if_neg h1, if_pos h10]
  · rw [if_neg h10]
    conv_rhs => rw [ft_putnbr_bonus, if_neg h1, if_neg h10]

/-- On a number that is not negative `ft_putnbr` writes what `ft_putnbr_bonus`
writes. -/
theorem ft_putnbr_nonneg (n : Nat) : ft_putnbr (n : Int) = ft_putnbr_bonus (n : Int) := by
  induction n using Nat.strong_induction_on with
  | _ n ih =>
    rw [ft_putnbr, ft_putnbr_bonus]
    have hmin : ¬ ((n : Int) = -2147483648) := by omega
    have hneg : ¬ ((n : Int) < 0) := by omega
    rw [if_neg hmin, if_neg hneg, if_neg hneg]
    by_cases h10 : (10 : Int) ≤ (n : Int)
    · rw [if_pos h10, if_pos h10]
      have hq : ((n : Int) / 10) = ((n / 10 : Nat) : Int) := by omega
      have hr : ((n : Int) % 10) = ((n % 10 : Nat) : Int) := by omega
      rw [hq, hr, ih (n / 10) (by omega), ih (n % 10) (by omega)]
    · rw [if_neg h10, if_neg h10]

/-- On a negative number other than -2147483648 `ft_putnbr` writes `-` and
then what it writes for the opposite number. -/
theorem ft_putnbr_neg (n : Int) (hn : n < 0) (hmin : n ≠ -2147483648) :
    ft_putnbr n = 45 :: ft_putnbr (-n) := by
  rw [ft_putnbr, if_neg hmin, if_pos hn]
  have h0 : n * -1 = -n := by omega
  have h1 : ¬ (-n < 0) := by omega
  have h2 : ¬ (-n = -2147483648) := by omega
  rw [h0]
  by_cases h10 : 10 ≤ -n
  · rw [if_pos h10]
    conv_rhs => rw [ft_putnbr, if_neg h2, if_neg h1, if_pos h10]
  · rw [if_neg h10]
    conv_rhs => rw [ft_putnbr, if_neg h2, if_neg h1, if_neg h10]

theorem ft_putnbr_bonus_canonical (n : Int) : ft_putnbr_bonus n = canonical_decimal n := by
  have hpos : ∀ m : Int, 0 < m → ft_putnbr_bonus m = decimal_text m.natAbs := by
    intro m hm
    have h := ft_putnbr_bonus_pos m.natAbs (by omega)
    rwa [show ((m.natAbs : Nat) : Int) = m by omega] at h
  simp only [canonical_decimal]
  by_cases hn : n < 0
  · rw [if_pos hn, ft_putnbr_bonus_neg n hn, hpos (-n) (by omega), Int.natAbs_neg]
  · rw [if_neg hn]
    by_cases h0 : n = 0
    · rw [if_pos h0, h0]
      simp [ft_putnbr_bonus]
    · rw [if_neg h0]
      exact hpos n (by omega)

theorem ft_putnbr_min : ft_putnbr (-2147483648) = canonical_decimal (-2147483648) := by
  rw [ft_putnbr, if_pos rfl]
  simp [canonical_decimal, decimal_text]

theorem ft_putnbr_canonical (n : Int) : ft_putnbr n = canonical_decimal n := by
  have hnn : ∀ m : Int, 0 ≤ m → ft_putnbr m = ft_putnbr_bonus m := by
    intro m hm
    have h := ft_putnbr_nonneg m.natAbs
    rwa [show ((m.natAbs : Nat) : Int) = m by omega] at h
  by_cases hmin : n = -2147483648
  · rw [hmin]; exact ft_putnbr_min
  · rw [← ft_putnbr_bonus_canonical]
    by_cases hn : n < 0
    · rw [ft_putnbr_neg n hn hmin, hnn (-n) (by omega), ft_putnbr_bonus_neg n hn]
    · exact hnn n (by omega)

/-- The decimal text of a number denotes that number. -/
theorem decimal_value_text (m : Nat) : decimal_value (decimal_text m) = m := by
  have h : ∀ l : List Nat, List.foldl (fun v c => v * 10 + (c - 48)) 0
      (l.reverse.map (fun x => x + 48)) = Nat.ofDigits 10 l := by
    intro l
    rw [List.foldl_map, List.foldl_reverse, Nat.ofDigits_eq_foldr]
    induction l with
    | nil => rfl
    | cons x l ih => simp only [List.foldr_cons, ih]; simp; omega
  simp only [decimal_value, decimal_text, h, Nat.ofDigits_digits]

/-- The decimal text of a non-zero number does not start with `0`, and it is
made of digits. -/
theorem decimal_text_digits (m : Nat) :
    (∀ c ∈ decimal_text m, 48 ≤ c ∧ c ≤ 57) ∧ (decimal_text m).head? ≠ some 48 := by
  constructor
  · intro c hc
    simp only [decimal_text, List.mem_map, List.mem_reverse] at hc
    obtain ⟨x, hx, rfl⟩ := hc
    have := Nat.digits_lt_base (by norm_num : 1 < 10) hx
    omega
  · by_cases hm : m = 0
    · simp [decimal_text, hm]
    · have h := Nat.getLast_digit_ne_zero 10 hm
      have hne : Nat.digits 10 m ≠ [] := Nat.digits_ne_nil_iff_ne_zero.mpr hm
      simp only [decimal_text, List.head?_map, List.head?_reverse]
      rw [List.getLast?_eq_getLast _ hne]
      simp
      exact h

/-- C21: for every `int` value `n`, 0, negative values and -2147483648
included (the embedding takes any integer), `ft_putnbr_bonus(n)` and
`ft_putnbr(n)` return (both functions are total) and the bytes they write are
the canonical decimal representation of `n`. That representation is a `-` for
a negative number followed by a non-empty run `d` of decimal digits that
denotes the absolute value of `n`, without leading zero: `d` does not start
with `0` unless `n` is 0, and then `d` is the single digit `0`. -/
theorem putnbr_canonical_decimal (n : Int) :
    ft_putnbr_bonus n = canonical_decimal n ∧ ft_putnbr n = canonical_decimal n ∧
    ∃ d : List Nat, canonical_decimal n = (if n < 0 then [45] else []) ++ d ∧ d ≠ [] ∧
      (∀ c ∈ d, 48 ≤ c ∧ c ≤ 57) ∧ decimal_value d = n.natAbs ∧
      (n ≠ 0 → d.head? ≠ some 48) ∧ (n = 0 → d = [48]) := by
  refine ⟨ft_putnbr_bonus_canonical n, ft_putnbr_canonical n, ?_⟩
  by_cases h0 : n = 0
  · refine ⟨[48], ?_, by simp, by simp, ?_, fun h => absurd h0 h, fun _ => rfl⟩
    · simp [canonical_decimal, h0]
    · simp [decimal_value, h0]
  · have hd := decimal_text_digits n.natAbs
    refine ⟨decimal_text n.natAbs, ?_, ?_, hd.1, decimal_value_text n.natAbs, fun _ => hd.2,
      fun h => absurd h h0⟩
    · simp only [canonical_decimal, if_neg h0]
      split_ifs <;> rfl
    · intro hnil
      have h := decimal_value_text n.natAbs
      rw [hnil] at h
      simp only [decimal_value, List.foldl_nil] at h
      omega

/-- The documented examples: 42, -123, 0 and -2147483648. -/
theorem putnbr_canonical_decimal_witness :
    (ft_putnbr_bonus 42 = [52, 50] ∧ ft_putnbr 42 = [52, 50]) ∧
    (ft_putnbr_bonus (-123) = [45, 49, 50, 51] ∧ ft_putnbr (-123) = [45, 49, 50, 51]) ∧
    (ft_putnbr_bonus 0 = [48] ∧ ft_putnbr 0 = [48]) ∧
    (ft_putnbr_bonus (-2147483648) = [45, 50, 49, 52, 55, 52, 56, 51, 54, 52, 56] ∧
      ft_putnbr (-2147483648) = [45, 50, 49, 52, 55, 52, 56, 51, 54, 52, 56]) :=
  have e1 : canonical_decimal 42 = [52, 50] := by simp [canonical_decimal, decimal_text]
  have e2 : canonical_decimal (-123) = [45, 49, 50, 51] := by
    simp [canonical_decimal, decimal_text]
  have e3 : canonical_decimal 0 = [48] := by simp [canonical_decimal]
  have e4 : canonical_decimal (-2147483648) = [45, 50, 49, 52, 55, 52, 56, 51, 54, 52, 56] := by
    simp [canonical_decimal, decimal_text]
  ⟨⟨e1 ▸ (putnbr_canonical_decimal 42).1, e1 ▸ (putnbr_canonical_decimal 42).2.1⟩,
    ⟨e2 ▸ (putnbr_canonical_decimal (-123)).1, e2 ▸ (putnbr_canonical_decimal (-123)).2.1⟩,
    ⟨e3 ▸ (putnbr_canonical_decimal 0).1, e3 ▸ (putnbr_canonical_decimal 0).2.1⟩,
    ⟨e4 ▸ (putnbr_canonical_decimal (-2147483648)).1,
      e4 ▸ (putnbr_canonical_decimal (-2147483648)).2.1⟩⟩

/-! ## The verbose flag of the bonus sender -/

theorem flatMap_single {α β : Type} (f : α → β) (l : List α) :
    l.flatMap (fun x => [f x]) = l.map f := by
  induction l with
  | nil => rfl
  | cons x l ih => simp [List.flatMap_cons, ih]

namespace ClientBonus

/-- The bits handed to `ft_send_bit_bonus` are 0 or 1. -/
theorem ft_send_char_bonus_loop_bit (pid : Int) (c n : Nat) :
    ∀ x ∈ ft_send_char_bonus_loop pid c n, x.2 < 2 := by
  induction n with
  | zero => intro x hx; simp [ft_send_char_bonus_loop] at hx
  | succ n ih =>
    intro x hx
    simp only [ft_send_char_bonus_loop, List.mem_cons] at hx
    rcases hx with h | h
    · rw [h]
      simp only [bit_extract]
      omega
    · exact ih x h

theorem ft_send_message_bonus_bit (pid : Int) (m : List Nat) :
    ∀ x ∈ ft_send_message_bonus pid m, x.2 < 2 := by
  induction m with
  | nil => exact ft_send_char_bonus_loop_bit pid 0 8
  | cons b rest ih =>
    intro x hx
    simp only [ft_send_message_bonus] at hx
    split_ifs at hx with hb
    · rcases List.mem_append.mp hx with h | h
      · exact ft_send_char_bonus_loop_bit pid b 8 x h
      · exact ih x h
    · exact ft_send_char_bonus_loop_bit pid 0 8 x hx

/-- The whole trace of the first pending `ft_send_bit_bonus` calls, each
delivered and acknowledged: per call, the report of the bit when `verbose` is
set, then the `kill`. -/
theorem exec_bonus_acked_trace (front : List (Int × Nat)) :
    ∀ (p : Proc) (back : List (Int × Nat)), p.pc = Pc.clear → p.calls = front ++ back →
      (exec p (acked_schedule p.verbose front.length)).trace =
        p.trace ++ front.flatMap (fun x =>
          (if p.verbose ≠ 0 then ft_send_bit_verbose x.2 else []) ++
            [Effect.kill x.1 (bit_signal x.2)]) := by
  induction front with
  | nil => intro p back hpc hcalls; simp [acked_schedule, exec]
  | cons c cs ih =>
    intro p back hpc hcalls
    obtain ⟨pid, bit_val⟩ := c
    simp only [List.length_cons, acked_schedule, exec_bonus_append,
      exec_bonus_acked_call p pid bit_val (cs ++ back) hpc (by simpa using hcalls)]
    have := ih { pc := Pc.clear, calls := cs ++ back, verbose := p.verbose,
                 g_signal_received := 1,
                 trace := p.trace ++
                   (if p.verbose ≠ 0 then ft_send_bit_verbose bit_val else []) ++
                   [Effect.kill pid (bit_signal bit_val)],
                 acks := p.acks + 1 } back rfl rfl
    simp only at this
    rw [this]
    simp [List.flatMap_cons]

end ClientBonus

/-- C22: for every pid and message, let `ft_send_message_bonus` run with
`verbose` set (`v ≠ 0`) and with `verbose` clear, the first `k` bits being
delivered and acknowledged in both runs (`k` up to the number of bits of the
message and its terminator). Both runs make the same `kill` calls, those of
the first `k` planned bits. With `verbose` set, each `kill` is preceded by the
calls of `ft_send_bit_verbose`: the colour code, the text `Envoi bit: `, the
character `'0' + b` (where `b` is 0 or 1), a newline, the colour reset. With
`verbose` clear the run makes no call but the `kill` calls. Under any other
sequences of events the `kill` calls of both runs are initial segments of one
and the same list. -/
theorem verbose_only_prints (pid : Int) (m : List Nat) (t0 : List Effect) (v : Int) (k : Nat)
    (evs1 evs2 : List Client.Event) (hv : v ≠ 0)
    (hk : k ≤ (ClientBonus.ft_send_message_bonus pid m).length) :
    (kills (ClientBonus.exec
          { pc := ClientBonus.Pc.clear, calls := ClientBonus.ft_send_message_bonus pid m,
            verbose := v, g_signal_received := 0, trace := t0, acks := 0 }
          (ClientBonus.acked_schedule v k)).trace =
        kills (ClientBonus.exec
          { pc := ClientBonus.Pc.clear, calls := ClientBonus.ft_send_message_bonus pid m,
            verbose := 0, g_signal_received := 0, trace := t0, acks := 0 }
          (ClientBonus.acked_schedule 0 k)).trace ∧
      kills (ClientBonus.exec
          { pc := ClientBonus.Pc.clear, calls := ClientBonus.ft_send_message_bonus pid m,
            verbose := 0, g_signal_received := 0, trace := t0, acks := 0 }
          (ClientBonus.acked_schedule 0 k)).trace =
        kills t0 ++ ((ClientBonus.ft_send_message_bonus pid m).take k).map
          (fun x => (x.1, ClientBonus.bit_signal x.2))) ∧
    ((ClientBonus.exec
          { pc := ClientBonus.Pc.clear, calls := ClientBonus.ft_send_message_bonus pid m,
            verbose := v, g_signal_received := 0, trace := t0, acks := 0 }
          (ClientBonus.acked_schedule v k)).trace =
        t0 ++ ((ClientBonus.ft_send_message_bonus pid m).take k).flatMap (fun x =>
          [Effect.putstr COLOR_BLUE, Effect.putstr "Envoi bit: ", Effect.putchar (48 + x.2),
           Effect.putchar 10, Effect.putstr COLOR_RESET,
           Effect.kill x.1 (ClientBonus.bit_signal x.2)]) ∧
      ∀ x ∈ ClientBonus.ft_send_message_bonus pid m, x.2 = 0 ∨ x.2 = 1) ∧
    (ClientBonus.exec
          { pc := ClientBonus.Pc.clear, calls := ClientBonus.ft_send_message_bonus pid m,
            verbose := 0, g_signal_received := 0, trace := t0, acks := 0 }
          (ClientBonus.acked_schedule 0 k)).trace =
        t0 ++ ((ClientBonus.ft_send_message_bonus pid m).take k).map
          (fun x => Effect.kill x.1 (ClientBonus.bit_signal x.2)) ∧
    ((∃ rest, kills (ClientBonus.exec
          { pc := ClientBonus.Pc.clear, calls := ClientBonus.ft_send_message_bonus pid m,
            verbose := v, g_signal_received := 0, trace := t0, acks := 0 } evs1).trace ++ rest =
        kills t0 ++ (ClientBonus.ft_send_message_bonus pid m).map
          (fun x => (x.1, ClientBonus.bit_signal x.2))) ∧
      (∃ rest, kills (ClientBonus.exec
          { pc := ClientBonus.Pc.clear, calls := ClientBonus.ft_send_message_bonus pid m,
            verbose := 0, g_signal_received := 0, trace := t0, acks := 0 } evs2).trace ++ rest =
        kills t0 ++ (ClientBonus.ft_send_message_bonus pid m).map
          (fun x => (x.1, ClientBonus.bit_signal x.2)))) := by
  generalize hcalls : ClientBonus.ft_send_message_bonus pid m = calls at hk ⊢
  have hbits : ∀ x ∈ calls, x.2 < 2 := by
    rw [← hcalls]; exact ClientBonus.ft_send_message_bonus_bit pid m
  have hsplit : calls.take k ++ calls.drop k = calls := List.take_append_drop k calls
  have hlen : (calls.take k).length = k := by
    rw [List.length_take]; omega
  have hp1 := ClientBonus.exec_planned_bonus evs1
    { pc := ClientBonus.Pc.clear, calls := calls,
      verbose := v, g_signal_received := 0, trace := t0, acks := 0 } rfl
  have hp2 := ClientBonus.exec_planned_bonus evs2
    { pc := ClientBonus.Pc.clear, calls := calls,
      verbose := 0, g_signal_received := 0, trace := t0, acks := 0 } rfl
  have hf1 := ClientBonus.exec_bonus_acked_front (calls.take k)
    { pc := ClientBonus.Pc.clear, calls := calls,
      verbose := v, g_signal_received := 0, trace := t0, acks := 0 } (calls.drop k) rfl
    hsplit.symm
  have hf2 := ClientBonus.exec_bonus_acked_front (calls.take k)
    { pc := ClientBonus.Pc.clear, calls := calls,
      verbose := 0, g_signal_received := 0, trace := t0, acks := 0 } (calls.drop k) rfl
    hsplit.symm
  have ht1 := ClientBonus.exec_bonus_acked_trace (calls.take k)
    { pc := ClientBonus.Pc.clear, calls := calls,
      verbose := v, g_signal_received := 0, trace := t0, acks := 0 } (calls.drop k) rfl
    hsplit.symm
  have ht2 := ClientBonus.exec_bonus_acked_trace (calls.take k)
    { pc := ClientBonus.Pc.clear, calls := calls,
      verbose := 0, g_signal_received := 0, trace := t0, acks := 0 } (calls.drop k) rfl
    hsplit.symm
  simp only [hlen] at hf1 hf2 ht1 ht2
  refine ⟨⟨by rw [hf1.2.2.2.1, hf2.2.2.2.1], hf2.2.2.2.1⟩, ⟨?_, ?_⟩, ?_, hp1, hp2⟩
  · rw [ht1]
    simp [hv, ClientBonus.ft_send_bit_verbose]
  · intro x hx
    have := hbits x hx
    omega
  · rw [ht2]
    simp [flatMap_single]

/-- The first two bits of the byte `H` (0, then 1) sent to pid 4242 with
`verbose` set, and without. -/
theorem verbose_only_prints_witness :
    (ClientBonus.exec
        { pc := ClientBonus.Pc.clear, calls := ClientBonus.ft_send_message_bonus 4242 [72],
          verbose := 1, g_signal_received := 0, trace := [], acks := 0 }
        (ClientBonus.acked_schedule 1 2)).trace =
      [Effect.putstr COLOR_BLUE, Effect.putstr "Envoi bit: ", Effect.putchar 48,
       Effect.putchar 10, Effect.putstr COLOR_RESET, Effect.kill 4242 Signal.SIGUSR1,
       Effect.putstr COLOR_BLUE, Effect.putstr "Envoi bit: ", Effect.putchar 49,
       Effect.putchar 10, Effect.putstr COLOR_RESET, Effect.kill 4242 Signal.SIGUSR2] ∧
    (ClientBonus.exec
        { pc := ClientBonus.Pc.clear, calls := ClientBonus.ft_send_message_bonus 4242 [72],
          verbose := 0, g_signal_received := 0, trace := [], acks := 0 }
        (ClientBonus.acked_schedule 0 2)).trace =
      [] ++ ((ClientBonus.ft_send_message_bonus 4242 [72]).take 2).map
        (fun x => Effect.kill x.1 (ClientBonus.bit_signal x.2)) ∧
    kills (ClientBonus.exec
        { pc := ClientBonus.Pc.clear, calls := ClientBonus.ft_send_message_bonus 4242 [72],
          verbose := 1, g_signal_received := 0, trace := [], acks := 0 }
        (ClientBonus.acked_schedule 1 2)).trace =
      kills (ClientBonus.exec
        { pc := ClientBonus.Pc.clear, calls := ClientBonus.ft_send_message_bonus 4242 [72],
          verbose := 0, g_signal_received := 0, trace := [], acks := 0 }
        (ClientBonus.acked_schedule 0 2)).trace :=
  ⟨by decide,
    (verbose_only_prints 4242 [72] [] 1 2 [] [] (by decide) (by decide)).2.2.1,
    (verbose_only_prints 4242 [72] [] 1 2 [] [] (by decide) (by decide)).1.1⟩

/-! ## A second sender during a session -/

namespace Server

/-- During a session `ft_receive` does not read `si_pid`. -/
theorem ft_receive_sender (s : State) (sig : Signal) (q1 q2 : Int) (hs : s.client_pid ≠ 0) :
    ft_receive s sig q1 = ft_receive s sig q2 := by
  simp only [ft_receive, if_neg hs]

/-- During a session of `p` the one notification of a call goes to `p`:
`SIGUSR2` when the bit completes a zero byte, `SIGUSR1` otherwise. -/
theorem ft_receive_kills (s : State) (sig : Signal) (si_pid : Int) (hs : s.client_pid ≠ 0) :
    kills (ft_receive s sig si_pid).2 =
      [(s.client_pid,
        if s.i + 1 = 8 ∧ (2 * s.c + signal_bit sig) % 256 = 0 then Signal.SIGUSR2
        else Signal.SIGUSR1)] := by
  obtain ⟨i, c, cp, g⟩ := s
  simp only at hs ⊢
  by_cases h2 : i + 1 = 8 <;> cases sig <;>
    simp only [ft_receive, ft_handle_char, signal_bit, if_neg hs] <;>
    split_ifs <;> simp_all [shl_byte, lor_one_byte, kills]

end Server

namespace ServerBonus

/-- During a session `ft_receive_bonus` does not read `si_pid`. -/
theorem ft_receive_bonus_sender (s : State) (sig : Signal) (q1 q2 : Int)
    (hs : s.stats.client_pid ≠ 0) :
    ft_receive_bonus s sig q1 = ft_receive_bonus s sig q2 := by
  simp only [ft_receive_bonus, if_neg hs]

end ServerBonus

/-- C23: while a session is open (`client_pid = p`, `p` not 0), `ft_receive`
(and `ft_receive_bonus`) does not look at the pid of the sender of a bit: for
senders `q1` and `q2` the resulting state (accumulator, bit count,
`client_pid`, and the counters of the bonus receiver) and all the effects
(console output, notifications) are equal. The bit is shifted into the one
accumulator, and the single notification of the call, acknowledgment or
completion, goes to `p`. -/
theorem sender_pid_ignored_in_session (s : Server.State) (sb : ServerBonus.State)
    (sig : Signal) (q1 q2 : Int) (hs : s.client_pid ≠ 0) (hsb : sb.stats.client_pid ≠ 0) :
    (Server.ft_receive s sig q1 = Server.ft_receive s sig q2 ∧
      (Server.ft_receive s sig q1).1.c = (2 * s.c + signal_bit sig) % 256 ∧
      (Server.ft_receive s sig q1).1.i = (if s.i + 1 = 8 then 0 else s.i + 1) ∧
      kills (Server.ft_receive s sig q1).2 =
        [(s.client_pid,
          if s.i + 1 = 8 ∧ (2 * s.c + signal_bit sig) % 256 = 0 then Signal.SIGUSR2
          else Signal.SIGUSR1)]) ∧
    (ServerBonus.ft_receive_bonus sb sig q1 = ServerBonus.ft_receive_bonus sb sig q2 ∧
      (ServerBonus.ft_receive_bonus sb sig q1).1.c = (2 * sb.c + signal_bit sig) % 256 ∧
      (ServerBonus.ft_receive_bonus sb sig q1).1.i = (if sb.i + 1 = 8 then 0 else sb.i + 1) ∧
      kills (ServerBonus.ft_receive_bonus sb sig q1).2 =
        [(sb.stats.client_pid,
          if sb.i + 1 = 8 ∧ (2 * sb.c + signal_bit sig) % 256 = 0 then Signal.SIGUSR2
          else Signal.SIGUSR1)]) := by
  have hproj := ServerBonus.to_server_ft_receive_bonus sb sig q1
  have heff := ServerBonus.ft_receive_bonus_effects sb sig q1
  refine ⟨⟨Server.ft_receive_sender s sig q1 q2 hs, Server.ft_receive_c s sig q1,
      Server.ft_receive_i s sig q1, Server.ft_receive_kills s sig q1 hs⟩,
    ServerBonus.ft_receive_bonus_sender sb sig q1 q2 hsb, ?_, ?_, ?_⟩
  · have h := congrArg Server.State.c hproj
    rw [Server.ft_receive_c] at h
    exact h
  · have h := congrArg Server.State.i hproj
    rw [Server.ft_receive_i] at h
    exact h
  · rw [← kills_without_reports, heff]
    exact Server.ft_receive_kills (ServerBonus.to_server sb) sig q1 hsb

/-- A bit of sender 99 in the middle of a session of sender 77, and its last
bit of a terminator: the state moves as for a bit of 77 and the notification
goes to 77. -/
theorem sender_pid_ignored_in_session_witness :
    (Server.ft_receive { i := 3, c := 4, client_pid := 77, g_data := 1 } Signal.SIGUSR2 99 =
        Server.ft_receive { i := 3, c := 4, client_pid := 77, g_data := 1 } Signal.SIGUSR2 77 ∧
      Server.ft_receive { i := 3, c := 4, client_pid := 77, g_data := 1 } Signal.SIGUSR2 99 =
        ({ i := 4, c := 9, client_pid := 77, g_data := 1 },
          [Effect.kill 77 Signal.SIGUSR1])) ∧
    kills (ServerBonus.ft_receive_bonus
        { i := 7, c := 0, g_data := 1,
          stats := { chars_received := 2, bits_received := 23, client_pid := 77,
                     verbose_mode := 0 } } Signal.SIGUSR1 99).2 = [(77, Signal.SIGUSR2)] :=
  ⟨⟨(sender_pid_ignored_in_session { i := 3, c := 4, client_pid := 77, g_data := 1 }
        { i := 7, c := 0, g_data := 1,
          stats := { chars_received := 2, bits_received := 23, client_pid := 77,
                     verbose_mode := 0 } } Signal.SIGUSR2 99 77 (by decide) (by decide)).1.1,
      by decide⟩,
    (sender_pid_ignored_in_session { i := 3, c := 4, client_pid := 77, g_data := 1 }
        { i := 7, c := 0, g_data := 1,
          stats := { chars_received := 2, bits_received := 23, client_pid := 77,
                     verbose_mode := 0 } } Signal.SIGUSR1 99 77 (by decide) (by decide)).2.2.2.2⟩

/-! ## Failed deliveries of the receiver -/

namespace Server

/-- The values returned by `kill` change neither the state nor the calls of
`ft_receive`. -/
theorem ft_receive_ret_eq (s : State) (sig : Signal) (si_pid k2 k1 : Int) :
    (ft_receive_ret s sig si_pid k2 k1).1 = (ft_receive s sig si_pid).1 ∧
      (ft_receive_ret s sig si_pid k2 k1).2.map Prod.fst = (ft_receive s sig si_pid).2 := by
  simp only [ft_receive_ret, ft_receive, ft_handle_char_ret, ft_handle_char]
  split_ifs <;> simp_all

theorem run_ret_eq (evs : List (Signal × Int × Int × Int)) :
    ∀ s : State,
      (run_ret s evs).1 = (run s (evs.map (fun e => (e.1, e.2.1)))).1 ∧
        (run_ret s evs).2.map Prod.fst = (run s (evs.map (fun e => (e.1, e.2.1)))).2 := by
  induction evs with
  | nil => intro s; exact ⟨rfl, rfl⟩
  | cons e evs ih =>
    intro s
    obtain ⟨sig, pid, k2, k1⟩ := e
    have h := ft_receive_ret_eq s sig pid k2 k1
    simp only [run_ret, run, List.map_cons, List.map_append, h.1, h.2, (ih _).1, (ih _).2,
      and_self]

/-- One call of `ft_receive` calls `kill` at most once. -/
theorem ft_receive_kills_le (s : State) (sig : Signal) (si_pid : Int) :
    (kills (ft_receive s sig si_pid).2).length ≤ 1 := by
  simp only [ft_receive, ft_handle_char]
  split_ifs <;> simp_all [kills]

end Server

namespace ServerBonus

/-- The values returned by `kill` change neither the state nor the calls of
`ft_receive_bonus`. -/
theorem ft_receive_bonus_ret_eq (s : State) (sig : Signal) (si_pid k2 k1 : Int) :
    (ft_receive_bonus_ret s sig si_pid k2 k1).1 = (ft_receive_bonus s sig si_pid).1 ∧
      (ft_receive_bonus_ret s sig si_pid k2 k1).2.map Prod.fst =
        (ft_receive_bonus s sig si_pid).2 := by
  simp only [ft_receive_bonus_ret, ft_receive_bonus, ft_handle_char_bonus_ret,
    ft_handle_char_bonus, ft_handle_new_client]
  split_ifs <;> simp_all

theorem run_bonus_ret_eq (evs : List (Signal × Int × Int × Int)) :
    ∀ s : State,
      (run_ret s evs).1 = (run s (evs.map (fun e => (e.1, e.2.1)))).1 ∧
        (run_ret s evs).2.map Prod.fst = (run s (evs.map (fun e => (e.1, e.2.1)))).2 := by
  induction evs with
  | nil => intro s; exact ⟨rfl, rfl⟩
  | cons e evs ih =>
    intro s
    obtain ⟨sig, pid, k2, k1⟩ := e
    have h := ft_receive_bonus_ret_eq s sig pid k2 k1
    simp only [run_ret, run, List.map_cons, List.map_append, h.1, h.2, (ih _).1, (ih _).2,
      and_self]

end ServerBonus

/-- C24: the receivers do not look at what `kill` returns. For every state,
arriving bit and sender, whatever the two `kill` calls of the handler return
(`k2` for the completion notification, `k1` for the acknowledgment; -1 is a
failed delivery), the resulting state and the calls made (console output
included) are those of the handler embedded without these values, hence the
same for any other returned values `j2`, `j1`. No call is added after a failed
delivery: one handler call makes at most one `kill` call, and the handler
returns; it has no exit. The same holds along any sequence of signals. -/
theorem receiver_kill_best_effort (s : Server.State) (sb : ServerBonus.State) (sig : Signal)
    (si_pid k2 k1 j2 j1 : Int) (evs : List (Signal × Int × Int × Int)) :
    (((Server.ft_receive_ret s sig si_pid k2 k1).1 = (Server.ft_receive s sig si_pid).1 ∧
        (Server.ft_receive_ret s sig si_pid k2 k1).2.map Prod.fst =
          (Server.ft_receive s sig si_pid).2) ∧
      ((Server.ft_receive_ret s sig si_pid k2 k1).1 =
          (Server.ft_receive_ret s sig si_pid j2 j1).1 ∧
        (Server.ft_receive_ret s sig si_pid k2 k1).2.map Prod.fst =
          (Server.ft_receive_ret s sig si_pid j2 j1).2.map Prod.fst) ∧
      (kills ((Server.ft_receive_ret s sig si_pid k2 k1).2.map Prod.fst)).length ≤ 1 ∧
      ((Server.run_ret s evs).1 = (Server.run s (evs.map (fun e => (e.1, e.2.1)))).1 ∧
        (Server.run_ret s evs).2.map Prod.fst =
          (Server.run s (evs.map (fun e => (e.1, e.2.1)))).2)) ∧
    (((ServerBonus.ft_receive_bonus_ret sb sig si_pid k2 k1).1 =
          (ServerBonus.ft_receive_bonus sb sig si_pid).1 ∧
        (ServerBonus.ft_receive_bonus_ret sb sig si_pid k2 k1).2.map Prod.fst =
          (ServerBonus.ft_receive_bonus sb sig si_pid).2) ∧
      ((ServerBonus.ft_receive_bonus_ret sb sig si_pid k2 k1).1 =
          (ServerBonus.ft_receive_bonus_ret sb sig si_pid j2 j1).1 ∧
        (ServerBonus.ft_receive_bonus_ret sb sig si_pid k2 k1).2.map Prod.fst =
          (ServerBonus.ft_receive_bonus_ret sb sig si_pid j2 j1).2.map Prod.fst) ∧
      (kills ((ServerBonus.ft_receive_bonus_ret sb sig si_pid k2 k1).2.map Prod.fst)).length
        ≤ 1 ∧
      ((ServerBonus.run_ret sb evs).1 =
          (ServerBonus.run sb (evs.map (fun e => (e.1, e.2.1)))).1 ∧
        (ServerBonus.run_ret sb evs).2.map Prod.fst =
          (ServerBonus.run sb (evs.map (fun e => (e.1, e.2.1)))).2)) := by
  have h := Server.ft_receive_ret_eq s sig si_pid k2 k1
  have hj := Server.ft_receive_ret_eq s sig si_pid j2 j1
  have hb := ServerBonus.ft_receive_bonus_ret_eq sb sig si_pid k2 k1
  have hbj := ServerBonus.ft_receive_bonus_ret_eq sb sig si_pid j2 j1
  refine ⟨⟨h, ⟨by rw [h.1, hj.1], by rw [h.2, hj.2]⟩, ?_, Server.run_ret_eq evs s⟩,
    ⟨hb, ⟨by rw [hb.1, hbj.1], by rw [hb.2, hbj.2]⟩, ?_, ServerBonus.run_bonus_ret_eq evs sb⟩⟩
  · rw [h.2]
    exact Server.ft_receive_kills_le s sig si_pid
  · rw [hb.2, ← kills_without_reports, ServerBonus.ft_receive_bonus_effects]
    exact Server.ft_receive_kills_le (ServerBonus.to_server sb) sig si_pid

/-- The last bit of a terminator in a session of sender 77, once with both
deliveries failing and once with both succeeding. -/
theorem receiver_kill_best_effort_witness :
    Server.ft_receive_ret { i := 7, c := 0, client_pid := 77, g_data := 1 }
        Signal.SIGUSR1 77 (-1) (-1) =
      ({ i := 0, c := 0, client_pid := 0, g_data := 1 },
        [(Effect.putchar 10, none), (Effect.kill 77 Signal.SIGUSR2, some (-1))]) ∧
    (Server.ft_receive_ret { i := 7, c := 0, client_pid := 77, g_data := 1 }
        Signal.SIGUSR1 77 (-1) (-1)).1 =
      (Server.ft_receive_ret { i := 7, c := 0, client_pid := 77, g_data := 1 }
        Signal.SIGUSR1 77 0 0).1 :=
  ⟨by decide,
    (receiver_kill_best_effort { i := 7, c := 0, client_pid := 77, g_data := 1 }
      ServerBonus.init Signal.SIGUSR1 77 (-1) (-1) 0 0 []).1.2.1.1⟩

/-! ## What the accumulator held before a byte -/

/-- The byte spelled by eight signals, written out. -/
theorem signals_byte_eight (b7 b6 b5 b4 b3 b2 b1 b0 : Signal)
    (q7 q6 q5 q4 q3 q2 q1 q0 : Int) :
    signals_byte [(b7, q7), (b6, q6), (b5, q5), (b4, q4), (b3, q3), (b2, q2), (b1, q1),
        (b0, q0)] =
      128 * signal_bit b7 + 64 * signal_bit b6 + 32 * signal_bit b5 + 16 * signal_bit b4 +
        8 * signal_bit b3 + 4 * signal_bit b2 + 2 * signal_bit b1 + signal_bit b0 := by
  have h7 := signal_bit_lt b7
  have h6 := signal_bit_lt b6
  have h5 := signal_bit_lt b5
  have h4 := signal_bit_lt b4
  have h3 := signal_bit_lt b3
  have h2 := signal_bit_lt b2
  have h1 := signal_bit_lt b1
  have h0 := signal_bit_lt b0
  simp only [signals_byte, List.foldl]
  omega

namespace ServerBonus

/-- The message bytes written by the bonus receiver are those written by the
mandatory receiver from the corresponding state. -/
theorem run_bonus_console (evs : List (Signal × Int)) (s : State) :
    console (run s evs).2 = console (Server.run (to_server s) evs).2 := by
  rw [← run_bonus_effects, console_without_reports]

end ServerBonus

/-- C25: for every content `c0` of the accumulator (`s.c`, `sb.c`) at a byte
boundary (bit count 0) and every eight bits `b7 .. b0`, whoever sends them,
the byte completed by the eighth bit is
`128 * b7 + 64 * b6 + 32 * b5 + 16 * b4 + 8 * b3 + 4 * b2 + 2 * b1 + b0`:
this is the accumulator after the eight calls and the byte written to the
console (a newline is written for the zero byte), in both receivers. It does
not depend on `c0`. -/
theorem stale_accumulator_shifted_out (s : Server.State) (sb : ServerBonus.State)
    (b7 b6 b5 b4 b3 b2 b1 b0 : Signal) (q7 q6 q5 q4 q3 q2 q1 q0 : Int)
    (hi : s.i = 0) (hib : sb.i = 0) :
    ((Server.run s [(b7, q7), (b6, q6), (b5, q5), (b4, q4), (b3, q3), (b2, q2), (b1, q1),
          (b0, q0)]).1.c =
        128 * signal_bit b7 + 64 * signal_bit b6 + 32 * signal_bit b5 + 16 * signal_bit b4 +
          8 * signal_bit b3 + 4 * signal_bit b2 + 2 * signal_bit b1 + signal_bit b0 ∧
      console (Server.run s [(b7, q7), (b6, q6), (b5, q5), (b4, q4), (b3, q3), (b2, q2),
          (b1, q1), (b0, q0)]).2 =
        [if 128 * signal_bit b7 + 64 * signal_bit b6 + 32 * signal_bit b5 +
              16 * signal_bit b4 + 8 * signal_bit b3 + 4 * signal_bit b2 + 2 * signal_bit b1 +
              signal_bit b0 = 0 then 10
         else 128 * signal_bit b7 + 64 * signal_bit b6 + 32 * signal_bit b5 +
              16 * signal_bit b4 + 8 * signal_bit b3 + 4 * signal_bit b2 + 2 * signal_bit b1 +
              signal_bit b0]) ∧
    ((ServerBonus.run sb [(b7, q7), (b6, q6), (b5, q5), (b4, q4), (b3, q3), (b2, q2),
          (b1, q1), (b0, q0)]).1.c =
        128 * signal_bit b7 + 64 * signal_bit b6 + 32 * signal_bit b5 + 16 * signal_bit b4 +
          8 * signal_bit b3 + 4 * signal_bit b2 + 2 * signal_bit b1 + signal_bit b0 ∧
      console (ServerBonus.run sb [(b7, q7), (b6, q6), (b5, q5), (b4, q4), (b3, q3), (b2, q2),
          (b1, q1), (b0, q0)]).2 =
        [if 128 * signal_bit b7 + 64 * signal_bit b6 + 32 * signal_bit b5 +
              16 * signal_bit b4 + 8 * signal_bit b3 + 4 * signal_bit b2 + 2 * signal_bit b1 +
              signal_bit b0 = 0 then 10
         else 128 * signal_bit b7 + 64 * signal_bit b6 + 32 * signal_bit b5 +
              16 * signal_bit b4 + 8 * signal_bit b3 + 4 * signal_bit b2 + 2 * signal_bit b1 +
              signal_bit b0]) := by
  have hbyte := signals_byte_eight b7 b6 b5 b4 b3 b2 b1 b0 q7 q6 q5 q4 q3 q2 q1 q0
  have h := Server.run_eight_any [(b7, q7), (b6, q6), (b5, q5), (b4, q4), (b3, q3), (b2, q2),
    (b1, q1), (b0, q0)] s hi rfl
  have hb := Server.run_eight_any [(b7, q7), (b6, q6), (b5, q5), (b4, q4), (b3, q3),
    (b2, q2), (b1, q1), (b0, q0)] (ServerBonus.to_server sb) hib rfl
  have hproj := ServerBonus.to_server_run [(b7, q7), (b6, q6), (b5, q5), (b4, q4), (b3, q3),
    (b2, q2), (b1, q1), (b0, q0)] sb
  rw [hbyte] at h hb
  refine ⟨⟨h.2.2, h.1⟩, ?_, ?_⟩
  · rw [← hb.2.2, ← hproj]
    rfl
  · rw [ServerBonus.run_bonus_console]
    exact hb.1

/-- The byte `A` (bits 01000001) received on top of an accumulator that holds
255, and on top of one that holds 0. -/
theorem stale_accumulator_shifted_out_witness :
    ((Server.run { i := 0, c := 255, client_pid := 77, g_data := 1 }
        [(Signal.SIGUSR1, 77), (Signal.SIGUSR2, 77), (Signal.SIGUSR1, 77),
         (Signal.SIGUSR1, 77), (Signal.SIGUSR1, 77), (Signal.SIGUSR1, 77),
         (Signal.SIGUSR1, 77), (Signal.SIGUSR2, 77)]).1.c =
        128 * signal_bit Signal.SIGUSR1 + 64 * signal_bit Signal.SIGUSR2 +
          32 * signal_bit Signal.SIGUSR1 + 16 * signal_bit Signal.SIGUSR1 +
          8 * signal_bit Signal.SIGUSR1 + 4 * signal_bit Signal.SIGUSR1 +
          2 * signal_bit Signal.SIGUSR1 + signal_bit Signal.SIGUSR2) ∧
    (Server.run { i := 0, c := 255, client_pid := 77, g_data := 1 }
        [(Signal.SIGUSR1, 77), (Signal.SIGUSR2, 77), (Signal.SIGUSR1, 77),
         (Signal.SIGUSR1, 77), (Signal.SIGUSR1, 77), (Signal.SIGUSR1, 77),
         (Signal.SIGUSR1, 77), (Signal.SIGUSR2, 77)]).1.c = 65 ∧
    (Server.run Server.init
        [(Signal.SIGUSR1, 77), (Signal.SIGUSR2, 77), (Signal.SIGUSR1, 77),
         (Signal.SIGUSR1, 77), (Signal.SIGUSR1, 77), (Signal.SIGUSR1, 77),
         (Signal.SIGUSR1, 77), (Signal.SIGUSR2, 77)]).1.c = 65 :=
  ⟨(stale_accumulator_shifted_out { i := 0, c := 255, client_pid := 77, g_data := 1 }
      ServerBonus.init Signal.SIGUSR1 Signal.SIGUSR2 Signal.SIGUSR1 Signal.SIGUSR1
      Signal.SIGUSR1 Signal.SIGUSR1 Signal.SIGUSR1 Signal.SIGUSR2 77 77 77 77 77 77 77 77
      rfl rfl).1.1,
    by decide, by decide⟩

/-! ## After the terminator -/

namespace Server

/-- The handler does not read `g_data`: from two states that differ in
`g_data` only it makes the same calls and reaches states that differ in
`g_data` only. -/
theorem ft_receive_agree (s t : State) (sig : Signal) (si_pid : Int)
    (hi : s.i = t.i) (hc : s.c = t.c) (hp : s.client_pid = t.client_pid) :
    (ft_receive s sig si_pid).2 = (ft_receive t sig si_pid).2 ∧
      (ft_receive s sig si_pid).1.i = (ft_receive t sig si_pid).1.i ∧
      (ft_receive s sig si_pid).1.c = (ft_receive t sig si_pid).1.c ∧
      (ft_receive s sig si_pid).1.client_pid = (ft_receive t sig si_pid).1.client_pid := by
  obtain ⟨i, c, cp, g⟩ := s
  obtain ⟨i2, c2, cp2, g2⟩ := t
  simp only at hi hc hp
  subst hi hc hp
  simp only [ft_receive, ft_handle_char]
  split_ifs <;> simp_all

theorem run_agree (evs : List (Signal × Int)) :
    ∀ s t : State, s.i = t.i → s.c = t.c → s.client_pid = t.client_pid →
      (run s evs).2 = (run t evs).2 ∧
        (run s evs).1.i = (run t evs).1.i ∧
        (run s evs).1.c = (run t evs).1.c ∧
        (run s evs).1.client_pid = (run t evs).1.client_pid := by
  induction evs with
  | nil => intro s t hi hc hp; exact ⟨rfl, hi, hc, hp⟩
  | cons e evs ih =>
    intro s t hi hc hp
    obtain ⟨sig, pid⟩ := e
    have h := ft_receive_agree s t sig pid hi hc hp
    have h2 := ih _ _ h.2.1 h.2.2.1 h.2.2.2
    simp only [run]
    exact ⟨by rw [h.1, h2.1], h2.2⟩

/-- The bit that completes a zero byte, from any state: `client_pid` is
cleared and `g_data` is left as it was. -/
theorem ft_receive_zero (s : State) (sig : Signal) (si_pid : Int) (hi : s.i = 7)
    (hz : (2 * s.c + signal_bit sig) % 256 = 0) :
    (ft_receive s sig si_pid).1 = { i := 0, c := 0, client_pid := 0, g_data := s.g_data } := by
  obtain ⟨i, c, cp, g⟩ := s
  simp only at hi hz
  subst hi
  cases sig
  · have hz2 : (c <<< 1) % 256 = 0 := by
      rw [shl_byte]; simpa [signal_bit] using hz
    by_cases h1 : cp = 0 <;> simp [ft_receive, ft_handle_char, hz2, h1]
  · have hz2 : ((c <<< 1) % 256) ||| 1 = 0 := by
      rw [accum_one]; simpa [signal_bit] using hz
    by_cases h1 : cp = 0 <;> simp [ft_receive, ft_handle_char, hz2, h1]

end Server

namespace ServerBonus

/-- The bonus handler does not read `g_data` (see `Server.ft_receive_agree`). -/
theorem ft_receive_bonus_agree (s t : State) (sig : Signal) (si_pid : Int)
    (hi : s.i = t.i) (hc : s.c = t.c) (hst : s.stats = t.stats) :
    (ft_receive_bonus s sig si_pid).2 = (ft_receive_bonus t sig si_pid).2 ∧
      (ft_receive_bonus s sig si_pid).1.i = (ft_receive_bonus t sig si_pid).1.i ∧
      (ft_receive_bonus s sig si_pid).1.c = (ft_receive_bonus t sig si_pid).1.c ∧
      (ft_receive_bonus s sig si_pid).1.stats = (ft_receive_bonus t sig si_pid).1.stats := by
  obtain ⟨i, c, st, g⟩ := s
  obtain ⟨i2, c2, st2, g2⟩ := t
  simp only at hi hc hst
  subst hi hc hst
  simp only [ft_receive_bonus, ft_handle_char_bonus, ft_handle_new_client]
  split_ifs <;> simp_all

theorem run_bonus_agree (evs : List (Signal × Int)) :
    ∀ s t : State, s.i = t.i → s.c = t.c → s.stats = t.stats →
      (run s evs).2 = (run t evs).2 ∧
        (run s evs).1.i = (run t evs).1.i ∧
        (run s evs).1.c = (run t evs).1.c ∧
        (run s evs).1.stats = (run t evs).1.stats := by
  induction evs with
  | nil => intro s t hi hc hp; exact ⟨rfl, hi, hc, hp⟩
  | cons e evs ih =>
    intro s t hi hc hp
    obtain ⟨sig, pid⟩ := e
    have h := ft_receive_bonus_agree s t sig pid hi hc hp
    have h2 := ih _ _ h.2.1 h.2.2.1 h.2.2.2
    simp only [run]
    exact ⟨by rw [h.1, h2.1], h2.2⟩

/-- The receiver never writes `verbose_mode`. -/
theorem ft_receive_bonus_verbose_mode (s : State) (sig : Signal) (si_pid : Int) :
    (ft_receive_bonus s sig si_pid).1.stats.verbose_mode = s.stats.verbose_mode := by
  simp only [ft_receive_bonus, ft_handle_char_bonus, ft_handle_new_client]
  split_ifs <;> simp_all

theorem run_bonus_verbose_mode (evs : List (Signal × Int)) :
    ∀ s : State, (run s evs).1.stats.verbose_mode = s.stats.verbose_mode := by
  induction evs with
  | nil => intro s; rfl
  | cons e evs ih =>
    intro s
    obtain ⟨sig, pid⟩ := e
    simp only [run]
    rw [ih, ft_receive_bonus_verbose_mode]

/-- The bit that completes a zero byte, from any state: the counters and
`client_pid` are cleared and `g_data` is left as it was. -/
theorem ft_receive_bonus_zero (s : State) (sig : Signal) (si_pid : Int) (hi : s.i = 7)
    (hz : (2 * s.c + signal_bit sig) % 256 = 0) :
    (ft_receive_bonus s sig si_pid).1 =
      { i := 0, c := 0, g_data := s.g_data,
        stats := { chars_received := 0, bits_received := 0, client_pid := 0,
                   verbose_mode := s.stats.verbose_mode } } := by
  obtain ⟨i, c, ⟨ch, bt, cp, vm⟩, g⟩ := s
  simp only at hi hz
  subst hi
  cases sig
  · have hz2 : (c <<< 1) % 256 = 0 := by
      rw [shl_byte]; simpa [signal_bit] using hz
    by_cases h1 : cp = 0 <;>
      simp [ft_receive_bonus, ft_handle_char_bonus, ft_handle_new_client, hz2, h1]
  · have hz2 : ((c <<< 1) % 256) ||| 1 = 0 := by
      rw [accum_one]; simpa [signal_bit] using hz
    by_cases h1 : cp = 0 <;>
      simp [ft_receive_bonus, ft_handle_char_bonus, ft_handle_new_client, hz2, h1]

end ServerBonus

/-- C26: let the receiver be in a state reached from its initial state by any
sequence of signals, with 7 bits of a byte received, and let the next bit
complete a zero byte. After the call for that bit the mandatory receiver has
`i = 0`, `c = 0`, `client_pid = 0`, and the bonus receiver has in addition
`chars_received = 0` and `bits_received = 0` (its `stats` are those of the
initial state). From there every later sequence of signals produces the same
calls (console output, reports, notifications) and the same `i`, `c`,
`client_pid` and counters as it does from the initial state. The flag
`g_data`, which belongs to the main loop and which the handler never reads, is
left as it was. -/
theorem terminator_restores_initial_state (evs later : List (Signal × Int)) (sig : Signal)
    (si_pid : Int)
    (hi : (Server.run Server.init evs).1.i = 7)
    (hz : (2 * (Server.run Server.init evs).1.c + signal_bit sig) % 256 = 0) :
    (((Server.run Server.init (evs ++ [(sig, si_pid)])).1.i = Server.init.i ∧
        (Server.run Server.init (evs ++ [(sig, si_pid)])).1.c = Server.init.c ∧
        (Server.run Server.init (evs ++ [(sig, si_pid)])).1.client_pid =
          Server.init.client_pid ∧
        (Server.run Server.init (evs ++ [(sig, si_pid)])).1.g_data =
          (Server.run Server.init evs).1.g_data) ∧
      ((Server.run (Server.run Server.init (evs ++ [(sig, si_pid)])).1 later).2 =
          (Server.run Server.init later).2 ∧
        (Server.run (Server.run Server.init (evs ++ [(sig, si_pid)])).1 later).1.i =
          (Server.run Server.init later).1.i ∧
        (Server.run (Server.run Server.init (evs ++ [(sig, si_pid)])).1 later).1.c =
          (Server.run Server.init later).1.c ∧
        (Server.run (Server.run Server.init (evs ++ [(sig, si_pid)])).1 later).1.client_pid =
          (Server.run Server.init later).1.client_pid)) ∧
    (((ServerBonus.run ServerBonus.init (evs ++ [(sig, si_pid)])).1.i = ServerBonus.init.i ∧
        (ServerBonus.run ServerBonus.init (evs ++ [(sig, si_pid)])).1.c = ServerBonus.init.c ∧
        (ServerBonus.run ServerBonus.init (evs ++ [(sig, si_pid)])).1.stats =
          ServerBonus.init.stats ∧
        (ServerBonus.run ServerBonus.init (evs ++ [(sig, si_pid)])).1.g_data =
          (ServerBonus.run ServerBonus.init evs).1.g_data) ∧
      ((ServerBonus.run (ServerBonus.run ServerBonus.init (evs ++ [(sig, si_pid)])).1 later).2 =
          (ServerBonus.run ServerBonus.init later).2 ∧
        (ServerBonus.run (ServerBonus.run ServerBonus.init (evs ++ [(sig, si_pid)])).1
            later).1.i = (ServerBonus.run ServerBonus.init later).1.i ∧
        (ServerBonus.run (ServerBonus.run ServerBonus.init (evs ++ [(sig, si_pid)])).1
            later).1.c = (ServerBonus.run ServerBonus.init later).1.c ∧
        (ServerBonus.run (ServerBonus.run ServerBonus.init (evs ++ [(sig, si_pid)])).1
            later).1.stats = (ServerBonus.run ServerBonus.init later).1.stats)) := by
  have hlast : (Server.run Server.init (evs ++ [(sig, si_pid)])).1 =
      (Server.ft_receive (Server.run Server.init evs).1 sig si_pid).1 := by
    rw [Server.run_append]; rfl
  have hlastb : (ServerBonus.run ServerBonus.init (evs ++ [(sig, si_pid)])).1 =
      (ServerBonus.ft_receive_bonus (ServerBonus.run ServerBonus.init evs).1 sig si_pid).1 := by
    rw [ServerBonus.run_bonus_append]; rfl
  have hz0 := Server.ft_receive_zero (Server.run Server.init evs).1 sig si_pid hi hz
  have hic := ServerBonus.run_bonus_i_c evs
  have hib : (ServerBonus.run ServerBonus.init evs).1.i = 7 := by rw [hic.1, hi]
  have hzb : (2 * (ServerBonus.run ServerBonus.init evs).1.c + signal_bit sig) % 256 = 0 := by
    rw [hic.2, hz]
  have hz0b := ServerBonus.ft_receive_bonus_zero (ServerBonus.run ServerBonus.init evs).1
    sig si_pid hib hzb
  rw [ServerBonus.run_bonus_verbose_mode] at hz0b
  rw [hlast, hlastb, hz0, hz0b]
  exact ⟨⟨⟨rfl, rfl, rfl, rfl⟩, Server.run_agree later _ _ rfl rfl rfl⟩,
    ⟨⟨rfl, rfl, rfl, rfl⟩, ServerBonus.run_bonus_agree later _ _ rfl rfl rfl⟩⟩

/-- The mandatory receiver after seven zero bits and an eighth from sender
77: the fields are those of the initial state, and the byte `A` of sender 99
produces from there the calls it produces from the initial state. -/
theorem terminator_restores_initial_state_witness :
    ((Server.run Server.init
        ([(Signal.SIGUSR1, 77), (Signal.SIGUSR1, 77), (Signal.SIGUSR1, 77),
          (Signal.SIGUSR1, 77), (Signal.SIGUSR1, 77), (Signal.SIGUSR1, 77),
          (Signal.SIGUSR1, 77)] ++ [(Signal.SIGUSR1, 77)])).1.i = Server.init.i ∧
      (Server.run Server.init
        ([(Signal.SIGUSR1, 77), (Signal.SIGUSR1, 77), (Signal.SIGUSR1, 77),
          (Signal.SIGUSR1, 77), (Signal.SIGUSR1, 77), (Signal.SIGUSR1, 77),
          (Signal.SIGUSR1, 77)] ++ [(Signal.SIGUSR1, 77)])).1.c = Server.init.c ∧
      (Server.run Server.init
        ([(Signal.SIGUSR1, 77), (Signal.SIGUSR1, 77), (Signal.SIGUSR1, 77),
          (Signal.SIGUSR1, 77), (Signal.SIGUSR1, 77), (Signal.SIGUSR1, 77),
          (Signal.SIGUSR1, 77)] ++ [(Signal.SIGUSR1, 77)])).1.client_pid =
        Server.init.client_pid ∧
      (Server.run Server.init
        ([(Signal.SIGUSR1, 77), (Signal.SIGUSR1, 77), (Signal.SIGUSR1, 77),
          (Signal.SIGUSR1, 77), (Signal.SIGUSR1, 77), (Signal.SIGUSR1, 77),
          (Signal.SIGUSR1, 77)] ++ [(Signal.SIGUSR1, 77)])).1.g_data =
        (Server.run Server.init
          [(Signal.SIGUSR1, 77), (Signal.SIGUSR1, 77), (Signal.SIGUSR1, 77),
           (Signal.SIGUSR1, 77), (Signal.SIGUSR1, 77), (Signal.SIGUSR1, 77),
           (Signal.SIGUSR1, 77)]).1.g_data) ∧
    (Server.run (Server.run Server.init
        ([(Signal.SIGUSR1, 77), (Signal.SIGUSR1, 77), (Signal.SIGUSR1, 77),
          (Signal.SIGUSR1, 77), (Signal.SIGUSR1, 77), (Signal.SIGUSR1, 77),
          (Signal.SIGUSR1, 77)] ++ [(Signal.SIGUSR1, 77)])).1
        (Client.arrivals 99 (Client.ft_send_char 4242 65))).2 =
      (Server.run Server.init (Client.arrivals 99 (Client.ft_send_char 4242 65))).2 ∧
    (Server.run Server.init
        [(Signal.SIGUSR1, 77), (Signal.SIGUSR1, 77), (Signal.SIGUSR1, 77),
         (Signal.SIGUSR1, 77), (Signal.SIGUSR1, 77), (Signal.SIGUSR1, 77),
         (Signal.SIGUSR1, 77), (Signal.SIGUSR1, 77)]).1 =
      { i := 0, c := 0, client_pid := 0, g_data := 1 } :=
  ⟨(terminator_restores_initial_state
      [(Signal.SIGUSR1, 77), (Signal.SIGUSR1, 77), (Signal.SIGUSR1, 77),
       (Signal.SIGUSR1, 77), (Signal.SIGUSR1, 77), (Signal.SIGUSR1, 77),
       (Signal.SIGUSR1, 77)]
      (Client.arrivals 99 (Client.ft_send_char 4242 65)) Signal.SIGUSR1 77
      (by decide) (by decide)).1.1,
    (terminator_restores_initial_state
      [(Signal.SIGUSR1, 77), (Signal.SIGUSR1, 77), (Signal.SIGUSR1, 77),
       (Signal.SIGUSR1, 77), (Signal.SIGUSR1, 77), (Signal.SIGUSR1, 77),
       (Signal.SIGUSR1, 77)]
      (Client.arrivals 99 (Client.ft_send_char 4242 65)) Signal.SIGUSR1 77
      (by decide) (by decide)).1.2.1,
    by decide⟩

/-! ## The counters of the bonus receiver -/

namespace ServerBonus

/-- One call of `ft_receive_bonus` keeps `bits_received = 8 * chars_received + i`
as long as `bits_received` does not wrap; it adds at most one to
`bits_received`. -/
theorem ft_receive_bonus_counters (s : State) (sig : Signal) (si_pid : Int)
    (hinv : s.stats.bits_received = 8 * s.stats.chars_received + s.i) (hi : s.i < 8)
    (hb : s.stats.bits_received + 1 < 2 ^ 64) :
    (ft_receive_bonus s sig si_pid).1.stats.bits_received =
        8 * (ft_receive_bonus s sig si_pid).1.stats.chars_received +
          (ft_receive_bonus s sig si_pid).1.i ∧
      (ft_receive_bonus s sig si_pid).1.i < 8 := by
  obtain ⟨i, c, ⟨ch, bt, cp, vm⟩, g⟩ := s
  simp only at hinv hi hb
  have h1 : size_t_incr bt = bt + 1 := size_t_incr_eq bt hb
  have h2 : size_t_incr ch = ch + 1 := size_t_incr_eq ch (by omega)
  simp only [ft_receive_bonus, ft_handle_char_bonus, ft_handle_new_client, h1, h2]
  split_ifs <;> simp_all <;> omega

/-- The counter `bits_received` grows by at most one per call. -/
theorem ft_receive_bonus_bits_le (s : State) (sig : Signal) (si_pid : Int) :
    (ft_receive_bonus s sig si_pid).1.stats.bits_received ≤ s.stats.bits_received + 1 := by
  obtain ⟨i, c, ⟨ch, bt, cp, vm⟩, g⟩ := s
  have h1 : size_t_incr bt ≤ bt + 1 := by
    simp only [size_t_incr]
    exact Nat.mod_le _ _
  simp only [ft_receive_bonus, ft_handle_char_bonus, ft_handle_new_client]
  split_ifs <;> simp_all

theorem run_bonus_bits_le (evs : List (Signal × Int)) :
    ∀ s : State, (run s evs).1.stats.bits_received ≤ s.stats.bits_received + evs.length := by
  induction evs with
  | nil => intro s; simp [run]
  | cons e evs ih =>
    intro s
    obtain ⟨sig, pid⟩ := e
    have h1 := ft_receive_bonus_bits_le s sig pid
    have h2 := ih (ft_receive_bonus s sig pid).1
    simp only [run, List.length_cons]
    omega

/-- The invariant along a sequence of signals during which `bits_received`
never wraps. -/
theorem run_bonus_counters (evs : List (Signal × Int)) :
    ∀ s : State, s.stats.bits_received = 8 * s.stats.chars_received + s.i → s.i < 8 →
      (∀ front back, front ++ back = evs → back ≠ [] →
        (run s front).1.stats.bits_received + 1 < 2 ^ 64) →
      (run s evs).1.stats.bits_received =
          8 * (run s evs).1.stats.chars_received + (run s evs).1.i ∧
        (run s evs).1.i < 8 := by
  induction evs with
  | nil => intro s hinv hi _; exact ⟨hinv, hi⟩
  | cons e evs ih =>
    intro s hinv hi h
    obtain ⟨sig, pid⟩ := e
    have hstep := ft_receive_bonus_counters s sig pid hinv hi
      (h [] ((sig, pid) :: evs) rfl (by simp))
    simp only [run]
    exact ih _ hstep.1 hstep.2 (fun front back hfb hb => by
      have := h ((sig, pid) :: front) back (by simp [hfb]) hb
      simpa [run] using this)

end ServerBonus

/-- C27: in every state that the bonus receiver reaches from its initial
state, between two handler calls, `bits_received = 8 * chars_received + i`,
provided `bits_received` was below its last value `2 ^ 64 - 1` in every state
passed on the way; this is the case for every sequence of fewer than `2 ^ 64`
signals. One handler call keeps the equation from any state with `i < 8` and
`bits_received` below `2 ^ 64 - 1`. -/
theorem bits_counter_invariant (evs : List (Signal × Int)) (s : ServerBonus.State)
    (sig : Signal) (si_pid : Int) :
    ((∀ front back, front ++ back = evs → back ≠ [] →
        (ServerBonus.run ServerBonus.init front).1.stats.bits_received + 1 < 2 ^ 64) →
      (ServerBonus.run ServerBonus.init evs).1.stats.bits_received =
        8 * (ServerBonus.run ServerBonus.init evs).1.stats.chars_received +
          (ServerBonus.run ServerBonus.init evs).1.i) ∧
    (evs.length < 2 ^ 64 →
      (ServerBonus.run ServerBonus.init evs).1.stats.bits_received =
        8 * (ServerBonus.run ServerBonus.init evs).1.stats.chars_received +
          (ServerBonus.run ServerBonus.init evs).1.i) ∧
    (s.stats.bits_received = 8 * s.stats.chars_received + s.i → s.i < 8 →
      s.stats.bits_received + 1 < 2 ^ 64 →
      (ServerBonus.ft_receive_bonus s sig si_pid).1.stats.bits_received =
        8 * (ServerBonus.ft_receive_bonus s sig si_pid).1.stats.chars_received +
          (ServerBonus.ft_receive_bonus s sig si_pid).1.i) := by
  refine ⟨?_, ?_, ?_⟩
  · intro h
    exact (ServerBonus.run_bonus_counters evs ServerBonus.init rfl (by decide) h).1
  · intro hlen
    refine (ServerBonus.run_bonus_counters evs ServerBonus.init rfl (by decide) ?_).1
    intro front back hfb hb
    have h1 := ServerBonus.run_bonus_bits_le front ServerBonus.init
    have h2 : front.length + 1 ≤ evs.length := by
      rw [← hfb, List.length_append]
      have : 0 < back.length := List.length_pos.mpr hb
      omega
    have h3 : ServerBonus.init.stats.bits_received = 0 := rfl
    omega
  · intro hinv hi hb
    exact (ServerBonus.ft_receive_bonus_counters s sig si_pid hinv hi hb).1

/-- The counters after the byte `A` and one more bit of sender 77: 9 bits,
1 character, bit count 1. -/
theorem bits_counter_invariant_witness :
    (ServerBonus.run ServerBonus.init
        [(Signal.SIGUSR1, 77), (Signal.SIGUSR2, 77), (Signal.SIGUSR1, 77),
         (Signal.SIGUSR1, 77), (Signal.SIGUSR1, 77), (Signal.SIGUSR1, 77),
         (Signal.SIGUSR1, 77), (Signal.SIGUSR2, 77),
         (Signal.SIGUSR2, 77)]).1.stats.bits_received
      = 8 * (ServerBonus.run ServerBonus.init
        [(Signal.SIGUSR1, 77), (Signal.SIGUSR2, 77), (Signal.SIGUSR1, 77),
         (Signal.SIGUSR1, 77), (Signal.SIGUSR1, 77), (Signal.SIGUSR1, 77),
         (Signal.SIGUSR1, 77), (Signal.SIGUSR2, 77),
         (Signal.SIGUSR2, 77)]).1.stats.chars_received
        + (ServerBonus.run ServerBonus.init
        [(Signal.SIGUSR1, 77), (Signal.SIGUSR2, 77), (Signal.SIGUSR1, 77),
         (Signal.SIGUSR1, 77), (Signal.SIGUSR1, 77), (Signal.SIGUSR1, 77),
         (Signal.SIGUSR1, 77), (Signal.SIGUSR2, 77),
         (Signal.SIGUSR2, 77)]).1.i ∧
    (ServerBonus.run ServerBonus.init
        [(Signal.SIGUSR1, 77), (Signal.SIGUSR2, 77), (Signal.SIGUSR1, 77),
         (Signal.SIGUSR1, 77), (Signal.SIGUSR1, 77), (Signal.SIGUSR1, 77),
         (Signal.SIGUSR1, 77), (Signal.SIGUSR2, 77),
         (Signal.SIGUSR2, 77)]).1 =
      { i := 1, c := 131, g_data := 1,
        stats := { chars_received := 1, bits_received := 9, client_pid := 77,
                   verbose_mode := 0 } } :=
  ⟨(bits_counter_invariant
      [(Signal.SIGUSR1, 77), (Signal.SIGUSR2, 77), (Signal.SIGUSR1, 77),
       (Signal.SIGUSR1, 77), (Signal.SIGUSR1, 77), (Signal.SIGUSR1, 77),
       (Signal.SIGUSR1, 77), (Signal.SIGUSR2, 77),
       (Signal.SIGUSR2, 77)]
      ServerBonus.init Signal.SIGUSR1 77).2.1 (by simp),
    by decide⟩

/-! ## The fixed messages of the mandatory programs -/

/-- C31, the code at each of the five messages: the count passed to `write` is
one less than the length of the literal, so that the bytes written are the
literal without its final newline. In order: the usage message of `./client`
run without arguments; `Error: Invalid PID` for the pid `0`; `Error: sigaction
failed` of the sender and of the receiver when `sigaction` returns -1;
`Error: Failed to send signal` when `kill` returns -1; `Message received by
server` when `SIGUSR2` is delivered. In each case the literal is the text
written followed by a newline (byte 10). The `write` of a single newline in
`main` of the receiver, in the same programs, does pass the length of its
literal. -/
theorem write_counts_one_short :
    (written 2 (Client.main 1 [[46, 47, 99, 108, 105, 101, 110, 116]] 0 0).trace =
        literal_bytes "Usage: ./client [server_pid] [message]" ∧
      (Client.main 1 [[46, 47, 99, 108, 105, 101, 110, 116]] 0 0).trace =
        [Effect.write 2 "Usage: ./client [server_pid] [message]\n" 38] ∧
      literal_bytes "Usage: ./client [server_pid] [message]\n" =
        literal_bytes "Usage: ./client [server_pid] [message]" ++ [10] ∧
      (literal_bytes "Usage: ./client [server_pid] [message]\n").length = 38 + 1) ∧
    (written 2 (Client.main 3 [[46, 47, 99], [48], [72, 105]] 0 0).trace =
        literal_bytes "Error: Invalid PID" ∧
      (Client.main 3 [[46, 47, 99], [48], [72, 105]] 0 0).trace =
        [Effect.write 2 "Error: Invalid PID\n" 18] ∧
      literal_bytes "Error: Invalid PID\n" = literal_bytes "Error: Invalid PID" ++ [10] ∧
      (literal_bytes "Error: Invalid PID\n").length = 18 + 1) ∧
    (written 2 (Client.main 3 [[46, 47, 99], [52, 50, 52, 50], [72, 105]] (-1) 0).trace =
        literal_bytes "Error: sigaction failed" ∧
      written 2 (Client.main 3 [[46, 47, 99], [52, 50, 52, 50], [72, 105]] 0 (-1)).trace =
        literal_bytes "Error: sigaction failed" ∧
      written 2 (Server.main 4242 (-1) 0).2 = literal_bytes "Error: sigaction failed" ∧
      written 2 (Server.main 4242 0 (-1)).2 = literal_bytes "Error: sigaction failed" ∧
      (Server.main 4242 (-1) 0).2 =
        [Effect.putnbr 4242, Effect.write 1 "\n" 1, Effect.sigaction Signal.SIGUSR1,
         Effect.write 2 "Error: sigaction failed\n" 23] ∧
      literal_bytes "Error: sigaction failed\n" =
        literal_bytes "Error: sigaction failed" ++ [10] ∧
      (literal_bytes "Error: sigaction failed\n").length = 23 + 1) ∧
    (written 2 (Client.ft_send_bit
          { pc := Client.Pc.send, calls := [(4242, 1)], g_signal_received := 0, trace := [],
            acks := 0 } 4242 1 (-1)).trace =
        literal_bytes "Error: Failed to send signal" ∧
      (Client.ft_send_bit
          { pc := Client.Pc.send, calls := [(4242, 1)], g_signal_received := 0, trace := [],
            acks := 0 } 4242 1 (-1)).trace =
        [Effect.kill 4242 Signal.SIGUSR2,
         Effect.write 2 "Error: Failed to send signal\n" 28] ∧
      literal_bytes "Error: Failed to send signal\n" =
        literal_bytes "Error: Failed to send signal" ++ [10] ∧
      (literal_bytes "Error: Failed to send signal\n").length = 28 + 1) ∧
    (written 1 (Client.ft_sig_handler
          { pc := Client.Pc.park, calls := [], g_signal_received := 1, trace := [],
            acks := 16 } Signal.SIGUSR2).trace =
        literal_bytes "Message received by server" ∧
      (Client.ft_sig_handler
          { pc := Client.Pc.park, calls := [], g_signal_received := 1, trace := [],
            acks := 16 } Signal.SIGUSR2).trace =
        [Effect.write 1 "Message received by server\n" 26] ∧
      literal_bytes "Message received by server\n" =
        literal_bytes "Message received by server" ++ [10] ∧
      (literal_bytes "Message received by server\n").length = 26 + 1) ∧
    (written 1 (Server.main 4242 0 0).2 = literal_bytes "\n" ∧
      literal_bytes "\n" = [10]) := by
  decide

end Minitalk
